import Mathlib

/-!
# Verification of the `event` package (priority event dispatcher)

Shallow embedding of `event.go`, `listener.go`, `dispatcher.go` and `subscriber.go`,
together with the `sort.Sort` routine of the Go standard library (pattern-defeating
quicksort, Go 1.19 and later), which `AddListener` calls through the `Len`/`Less`/`Swap`
methods of `EventListeners`.

Modelling conventions
* A `Listener` is a non-nil interface value.  Two kinds of dynamic value are told apart,
  because Go's `==` on interfaces behaves differently on them: values of a comparable
  dynamic type (pointers such as `*TestListener`), and `ListenerFunc` values, whose
  dynamic type is a function type and therefore not comparable (`==` panics).
* The behaviour of `Handle` is supplied by a table `Handlers`, a total function from the
  listener and the current world to the next world and the boolean result.  The world holds
  the dispatcher's registry, the event being dispatched and arbitrary user state, so a
  handler may stop propagation, change the arguments, or call back into the dispatcher.
* The map `d.listeners` is a function `String → Option EventListeners` (`none`: key absent).
* The sequential definitions have no mutex and treat a slice as the list of its elements.
  The section on slices in memory gives each region of `dispatcher.go` that runs between
  a lock and its unlock as one uninterrupted step on slice headers and underlying arrays,
  and agrees with the sequential definitions (`Memory.AddListener_refines`,
  `Memory.RemoveListener_refines`).  Go `int` values are `Int`/`Nat`; the only arithmetic
  on them is index arithmetic bounded by the slice length.
* Loops are structural recursions on a fuel argument or on the loop counter itself.
* A function value has an address; `ListenerFunc(f)` is the listener `func a` for the address
  `a` of `f`.  `RegisterSubscriber` allocates one closure per config: the `Runtime` holds the
  code of every listener value and the next free address.  A Go map that is ranged over is
  the list of its key/value pairs in visiting order, with distinct keys.
* `Dispatch` is given twice: for listeners whose `Handle` always returns (`Dispatch`), and
  for listeners whose `Handle` may panic (`DispatchE`); they agree on the former
  (`DispatchE_ofTotal`).
-/

namespace event

/-! ## event.go -/

/-- A value stored in the argument bag (`interface{}`), restricted to a few dynamic types. -/
inductive Value where
  | int (n : Int)
  | str (s : String)
  | bool (b : Bool)
  deriving DecidableEq, Repr

/-- Go `BaseEvent`: name, argument bag (`none` is the nil map) and the propagation flag. -/
structure BaseEvent where
  name : String
  arguments : Option (List (String × Value))
  propagationStopped : Bool
  deriving DecidableEq, Repr

/-- Go `NewEvent(name, arguments...)`: the first optional mapping, or a fresh empty map. -/
def NewEvent (name : String) (arguments : List (Option (List (String × Value)))) : BaseEvent :=
  let args := match arguments with
    | x :: _ => x
    | [] => some []
  { name := name, arguments := args, propagationStopped := false }

/-- Go `(*BaseEvent).Name`. -/
def BaseEvent.Name (e : BaseEvent) : String := e.name

/-- Go `(*BaseEvent).Arguments`. -/
def BaseEvent.Arguments (e : BaseEvent) : Option (List (String × Value)) := e.arguments

/-- Go `(*BaseEvent).StopPropagation`. -/
def BaseEvent.StopPropagation (e : BaseEvent) : BaseEvent :=
  { e with propagationStopped := true }

/-- Go `(*BaseEvent).IsPropagationStopped`. -/
def BaseEvent.IsPropagationStopped (e : BaseEvent) : Bool := e.propagationStopped

/-! ## listener.go -/

/-- A non-nil `Listener` interface value: either a value of a comparable dynamic type
(identified by its type and its data word, e.g. a `*TestListener` pointer), or a
`ListenerFunc` (a function value; `id` names the closure). -/
inductive Listener where
  | comparable (typ : Nat) (val : Nat)
  | func (id : Nat)
  deriving DecidableEq, Repr

/-- Go `ListenerPriority`. -/
structure ListenerPriority where
  Listener : Listener
  Priority : Int
  deriving DecidableEq, Repr

/-- Go `EventListeners`, a slice of `ListenerPriority`. -/
abbrev EventListeners := List ListenerPriority

/-- Go `EventListeners.Less`: `el[i].Priority > el[j].Priority`.  Go panics on an index out of
range; `sort.Sort` only passes indices below `Len()`, and the model answers false there. -/
def EventListeners.Less (el : EventListeners) (i j : Nat) : Bool :=
  match el[i]?, el[j]? with
  | some x, some y => decide (x.Priority > y.Priority)
  | _, _ => false

/-- Go `EventListeners.Swap`: `el[i], el[j] = el[j], el[i]`.  Go panics on an index out of
range; `sort.Sort` only passes indices below `Len()`, and the model leaves the slice
unchanged there. -/
def EventListeners.Swap (el : EventListeners) (i j : Nat) : EventListeners :=
  match el[i]?, el[j]? with
  | some x, some y => (el.set i y).set j x
  | _, _ => el

/-- Go `EventListeners.Len`. -/
def EventListeners.Len (el : EventListeners) : Nat := el.length

/-- Go's `==` on two non-nil interface values: different dynamic types are unequal,
equal comparable types compare their values, equal uncomparable types panic. -/
def ifaceEq : Listener → Listener → Except String Bool
  | .comparable t v, .comparable t' v' => .ok (decide (t = t' ∧ v = v'))
  | .func _, .func _ => .error "runtime error: comparing uncomparable type event.ListenerFunc"
  | _, _ => .ok false

/-! ## sort.Sort (Go standard library, `sort/zsortinterface.go`) on `EventListeners` -/

/-- Go `bits.Len(uint(x))`: the number of bits needed to represent `x`. -/
def bitsLen : Nat → Nat → Nat
  | 0, _ => 0
  | fuel + 1, x => if x = 0 then 0 else bitsLen fuel (x / 2) + 1

/-- Inner loop of `insertionSort`:
`for j := i; j > a && data.Less(j, j-1); j-- { data.Swap(j, j-1) }`. -/
def insertionSortInner (a : Nat) : Nat → EventListeners → EventListeners
  | 0, data => data
  | j + 1, data =>
    if j + 1 > a && data.Less (j + 1) j then insertionSortInner a j (data.Swap (j + 1) j)
    else data

/-- Outer loop of `insertionSort`: `for i := a + 1; i < b; i++`. -/
def insertionSortOuter (a b : Nat) : Nat → Nat → EventListeners → EventListeners
  | 0, _, data => data
  | fuel + 1, i, data =>
    if i < b then insertionSortOuter a b fuel (i + 1) (insertionSortInner a i data)
    else data

/-- Go `insertionSort(data, a, b)` sorts `data[a:b]`. -/
def insertionSort (data : EventListeners) (a b : Nat) : EventListeners :=
  insertionSortOuter a b (b - a) (a + 1) data

/-- Go `siftDown(data, lo, hi, first)`; the fuel bounds the number of loop iterations. -/
def siftDown (hi first : Nat) : Nat → EventListeners → Nat → EventListeners
  | 0, data, _ => data
  | fuel + 1, data, root =>
    let child := 2 * root + 1
    if child ≥ hi then data
    else
      let child := if child + 1 < hi && data.Less (first + child) (first + child + 1)
        then child + 1 else child
      if !data.Less (first + root) (first + child) then data
      else siftDown hi first fuel (data.Swap (first + root) (first + child)) child

/-- First loop of `heapSort`: `for i := (hi - 1) / 2; i >= 0; i-- { siftDown(data, i, hi, first) }`;
the counter argument is `i + 1`. -/
def heapSortBuild (hi first : Nat) : Nat → EventListeners → EventListeners
  | 0, data => data
  | i + 1, data => heapSortBuild hi first i (siftDown hi first hi data i)

/-- Second loop of `heapSort`:
`for i := hi - 1; i >= 0; i-- { data.Swap(first, first+i); siftDown(data, lo, i, first) }`;
the counter argument is `i + 1`. -/
def heapSortPop (first : Nat) : Nat → EventListeners → EventListeners
  | 0, data => data
  | i + 1, data => heapSortPop first i (siftDown i first i (data.Swap first (first + i)) 0)

/-- Go `heapSort(data, a, b)`. -/
def heapSort (data : EventListeners) (a b : Nat) : EventListeners :=
  let first := a
  let hi := b - a
  let data := heapSortBuild hi first ((hi - 1) / 2 + 1) data
  heapSortPop first hi data

/-- Loop `for i <= j && data.Less(i, a) { i++ }` of `partition`; returns the final `i`. -/
def partitionScanI (data : EventListeners) (a j : Nat) : Nat → Nat → Nat
  | 0, i => i
  | fuel + 1, i => if i ≤ j && data.Less i a then partitionScanI data a j fuel (i + 1) else i

/-- Loop `for i <= j && !data.Less(j, a) { j-- }` of `partition`; returns the final `j`.
Since `i > a ≥ 0`, the loop never runs with `j = 0`. -/
def partitionScanJ (data : EventListeners) (a i : Nat) : Nat → Nat
  | 0 => 0
  | j + 1 => if i ≤ j + 1 && !data.Less (j + 1) a then partitionScanJ data a i j else j + 1

/-- Main loop of `partition` (the `for { ... }` after the first swap); returns the data and
the final `j`. -/
def partitionLoop (a : Nat) : Nat → EventListeners → Nat → Nat → EventListeners × Nat
  | 0, data, _, j => (data, j)
  | fuel + 1, data, i, j =>
    let i := partitionScanI data a j (j + 1 - i) i
    let j := partitionScanJ data a i j
    if i > j then (data, j)
    else partitionLoop a fuel (data.Swap i j) (i + 1) (j - 1)

/-- Go `partition(data, a, b, pivot)`: returns the data, the new pivot index and
`alreadyPartitioned`. -/
def partition (data : EventListeners) (a b pivot : Nat) : EventListeners × Nat × Bool :=
  let data := data.Swap a pivot
  let i := a + 1
  let j := b - 1
  let i := partitionScanI data a j (j + 1 - i) i
  let j := partitionScanJ data a i j
  if i > j then (data.Swap j a, j, true)
  else
    let data := data.Swap i j
    let r := partitionLoop a (b - a) data (i + 1) (j - 1)
    ((r.1).Swap r.2 a, r.2, false)

/-- Loop `for i <= j && !data.Less(a, i) { i++ }` of `partitionEqual`. -/
def partitionEqualScanI (data : EventListeners) (a j : Nat) : Nat → Nat → Nat
  | 0, i => i
  | fuel + 1, i =>
    if i ≤ j && !data.Less a i then partitionEqualScanI data a j fuel (i + 1) else i

/-- Loop `for i <= j && data.Less(a, j) { j-- }` of `partitionEqual`. -/
def partitionEqualScanJ (data : EventListeners) (a i : Nat) : Nat → Nat
  | 0 => 0
  | j + 1 => if i ≤ j + 1 && data.Less a (j + 1) then partitionEqualScanJ data a i j else j + 1

/-- Main loop of `partitionEqual`; returns the data and the final `i`. -/
def partitionEqualLoop (a : Nat) : Nat → EventListeners → Nat → Nat → EventListeners × Nat
  | 0, data, i, _ => (data, i)
  | fuel + 1, data, i, j =>
    let i := partitionEqualScanI data a j (j + 1 - i) i
    let j := partitionEqualScanJ data a i j
    if i > j then (data, i)
    else partitionEqualLoop a fuel (data.Swap i j) (i + 1) (j - 1)

/-- Go `partitionEqual(data, a, b, pivot)`. -/
def partitionEqual (data : EventListeners) (a b pivot : Nat) : EventListeners × Nat :=
  let data := data.Swap a pivot
  partitionEqualLoop a (b - a + 1) data (a + 1) (b - 1)

/-- Scan `for i < b && !data.Less(i, i-1) { i++ }` of `partialInsertionSort`. -/
def partialInsertionScan (data : EventListeners) (b : Nat) : Nat → Nat → Nat
  | 0, i => i
  | fuel + 1, i =>
    if i < b && !data.Less i (i - 1) then partialInsertionScan data b fuel (i + 1) else i

/-- Loop `for j := i - 1; j >= 1; j-- { if !data.Less(j, j-1) { break }; data.Swap(j, j-1) }`
of `partialInsertionSort`; the counter argument is `j`. -/
def partialInsertionShiftLeft : Nat → EventListeners → EventListeners
  | 0, data => data
  | j + 1, data =>
    if !data.Less (j + 1) j then data
    else partialInsertionShiftLeft j (data.Swap (j + 1) j)

/-- Loop `for j := i + 1; j < b; j++ { if !data.Less(j, j-1) { break }; data.Swap(j, j-1) }`
of `partialInsertionSort`. -/
def partialInsertionShiftRight (b : Nat) : Nat → Nat → EventListeners → EventListeners
  | 0, _, data => data
  | fuel + 1, j, data =>
    if j < b then
      if !data.Less j (j - 1) then data
      else partialInsertionShiftRight b fuel (j + 1) (data.Swap j (j - 1))
    else data

/-- Outer loop `for j := 0; j < maxSteps; j++` of `partialInsertionSort` (maxSteps = 5,
shortestShifting = 50); the counter argument is the number of steps left. -/
def partialInsertionLoop (a b : Nat) : Nat → Nat → EventListeners → EventListeners × Bool
  | 0, _, data => (data, false)
  | steps + 1, i, data =>
    let i := partialInsertionScan data b (b - i) i
    if i = b then (data, true)
    else if b - a < 50 then (data, false)
    else
      let data := data.Swap i (i - 1)
      let data := if i - a ≥ 2 then partialInsertionShiftLeft (i - 1) data else data
      let data := if b - i ≥ 2 then partialInsertionShiftRight b (b - i) (i + 1) data else data
      partialInsertionLoop a b steps i data

/-- Go `partialInsertionSort(data, a, b)`. -/
def partialInsertionSort (data : EventListeners) (a b : Nat) : EventListeners × Bool :=
  partialInsertionLoop a b 5 (a + 1) data

/-- Go `(*xorshift).Next` on a `uint64` (shifts 13, 7, 17).  The values drawn only select
which entries `breakPatterns` swaps; no statement below depends on them. -/
def xorshiftNext (r : Nat) : Nat :=
  let r := r ^^^ ((r <<< 13) % 2 ^ 64)
  let r := r ^^^ (r >>> 7)
  r ^^^ ((r <<< 17) % 2 ^ 64)

/-- Go `nextPowerOfTwo(length)`: `1 << bits.Len(uint(length))`. -/
def nextPowerOfTwo (length : Nat) : Nat := 2 ^ bitsLen length length

/-- Loop `for i := 0; i < 3; i++` of `breakPatterns`; the counter argument is `3 - i`. -/
def breakPatternsLoop (a length modulus idx : Nat) : Nat → Nat → EventListeners → EventListeners
  | 0, _, data => data
  | n + 1, random, data =>
    let random := xorshiftNext random
    let other := random &&& (modulus - 1)
    let other := if other ≥ length then other - length else other
    breakPatternsLoop a length modulus idx n random (data.Swap (idx - 1 + (2 - n)) (a + other))

/-- Go `breakPatterns(data, a, b)`. -/
def breakPatterns (data : EventListeners) (a b : Nat) : EventListeners :=
  let length := b - a
  if length ≥ 8 then
    let random := length
    let modulus := nextPowerOfTwo length
    let idx := a + (length / 4) * 2 - 1
    breakPatternsLoop a length modulus idx 3 random data
  else data

/-- The hint returned by `choosePivot`. -/
inductive sortedHint where
  | unknownHint
  | increasingHint
  | decreasingHint
  deriving DecidableEq, Repr

/-- Go `order2(data, a, b, swaps)`: returns the two indices in order and the updated counter. -/
def order2 (data : EventListeners) (a b swaps : Nat) : Nat × Nat × Nat :=
  if data.Less b a then (b, a, swaps + 1) else (a, b, swaps)

/-- Go `median(data, a, b, c, swaps)`: index of the median and the updated counter. -/
def median (data : EventListeners) (a b c swaps : Nat) : Nat × Nat :=
  let r1 := order2 data a b swaps
  let r2 := order2 data r1.2.1 c r1.2.2
  let r3 := order2 data r1.1 r2.1 r2.2.2
  (r3.2.1, r3.2.2)

/-- Go `medianAdjacent(data, a, swaps)`. -/
def medianAdjacent (data : EventListeners) (a swaps : Nat) : Nat × Nat :=
  median data (a - 1) a (a + 1) swaps

/-- Go `choosePivot(data, a, b)` (shortestNinther = 50, maxSwaps = 12). -/
def choosePivot (data : EventListeners) (a b : Nat) : Nat × sortedHint :=
  let l := b - a
  let i := a + l / 4 * 1
  let j := a + l / 4 * 2
  let k := a + l / 4 * 3
  let r :=
    if l ≥ 8 then
      if l ≥ 50 then
        let ri := medianAdjacent data i 0
        let rj := medianAdjacent data j ri.2
        let rk := medianAdjacent data k rj.2
        median data ri.1 rj.1 rk.1 rk.2
      else median data i j k 0
    else (j, 0)
  if r.2 = 0 then (r.1, sortedHint.increasingHint)
  else if r.2 = 12 then (r.1, sortedHint.decreasingHint)
  else (r.1, sortedHint.unknownHint)

/-- Loop of `reverseRange`: `for i < j { data.Swap(i, j); i++; j-- }`. -/
def reverseRangeLoop : Nat → Nat → Nat → EventListeners → EventListeners
  | 0, _, _, data => data
  | fuel + 1, i, j, data =>
    if i < j then reverseRangeLoop fuel (i + 1) (j - 1) (data.Swap i j) else data

/-- Go `reverseRange(data, a, b)`. -/
def reverseRange (data : EventListeners) (a b : Nat) : EventListeners :=
  reverseRangeLoop (b - a) a (b - 1) data

/-- Go `pdqsort(data, a, b, limit)` (maxInsertion = 12).  One unit of fuel is spent per
iteration of the `for` loop; `wasBalanced` and `wasPartitioned` are the loop's local flags,
both `true` on entry. -/
def pdqsort : Nat → EventListeners → Nat → Nat → Nat → Bool → Bool → EventListeners
  | 0, data, _, _, _, _, _ => data
  | fuel + 1, data, a, b, limit, wasBalanced, wasPartitioned =>
    let length := b - a
    if length ≤ 12 then insertionSort data a b
    else if limit = 0 then heapSort data a b
    else
      let data := if !wasBalanced then breakPatterns data a b else data
      let limit := if !wasBalanced then limit - 1 else limit
      let ph := choosePivot data a b
      let data := if ph.2 = sortedHint.decreasingHint then reverseRange data a b else data
      let pivot := if ph.2 = sortedHint.decreasingHint then (b - 1) - (ph.1 - a) else ph.1
      let hint := if ph.2 = sortedHint.decreasingHint then sortedHint.increasingHint else ph.2
      let tryPartial := wasBalanced && wasPartitioned && decide (hint = sortedHint.increasingHint)
      let pis := if tryPartial then partialInsertionSort data a b else (data, false)
      if pis.2 then pis.1
      else
        let data := pis.1
        if a > 0 && !data.Less (a - 1) pivot then
          let pe := partitionEqual data a b pivot
          pdqsort fuel pe.1 pe.2 b limit wasBalanced wasPartitioned
        else
          let pr := partition data a b pivot
          let data := pr.1
          let mid := pr.2.1
          let wasPartitioned := pr.2.2
          let leftLen := mid - a
          let rightLen := b - mid
          let balanceThreshold := length / 8
          if leftLen < rightLen then
            let wasBalanced := decide (leftLen ≥ balanceThreshold)
            let data := pdqsort fuel data a mid limit true true
            pdqsort fuel data (mid + 1) b limit wasBalanced wasPartitioned
          else
            let wasBalanced := decide (rightLen ≥ balanceThreshold)
            let data := pdqsort fuel data (mid + 1) b limit true true
            pdqsort fuel data a mid limit wasBalanced wasPartitioned

/-- Go `sort.Sort(data)`. -/
def sort_Sort (data : EventListeners) : EventListeners :=
  let n := data.Len
  if n ≤ 1 then data
  else
    let limit := bitsLen n n
    pdqsort (n + 1) data 0 n limit true true

/-! ## dispatcher.go -/

/-- Go `EventDispatcher`: the map `listeners` (the mutex is not modelled). -/
structure EventDispatcher where
  listeners : String → Option EventListeners

/-- Go `NewDispatcher()`: an empty map. -/
def NewDispatcher : EventDispatcher := { listeners := fun _ => none }

/-- Go `(*EventDispatcher).AddListener(eventName, listener, priority...)`. -/
def EventDispatcher.AddListener (d : EventDispatcher) (eventName : String)
    (listener : Listener) (priority : List Int) : EventDispatcher :=
  let p := match priority with
    | x :: _ => x
    | [] => 0
  let current := match d.listeners eventName with
    | some el => el
    | none => []
  let appended := current ++ [{ Listener := listener, Priority := p }]
  { listeners := fun k => if k = eventName then some (sort_Sort appended) else d.listeners k }

/-- Loop of `HasListener`: the first entry equal to `listener` returns true; a comparison of
two function values panics. -/
def hasListenerLoop (listener : Listener) : EventListeners → Except String Bool
  | [] => .ok false
  | registered :: rest =>
    match ifaceEq registered.Listener listener with
    | .error msg => .error msg
    | .ok true => .ok true
    | .ok false => hasListenerLoop listener rest

/-- Go `(*EventDispatcher).HasListener(eventName, listener)`. -/
def EventDispatcher.HasListener (d : EventDispatcher) (eventName : String)
    (listener : Listener) : Except String Bool :=
  match d.listeners eventName with
  | some eventListeners => hasListenerLoop listener eventListeners
  | none => .ok false

/-- Loop of `RemoveListener`: appends to `newListeners` every entry with
`registered.Listener != listener`. -/
def removeListenerLoop (listener : Listener) :
    EventListeners → EventListeners → Except String EventListeners
  | newListeners, [] => .ok newListeners
  | newListeners, registered :: rest =>
    match ifaceEq registered.Listener listener with
    | .error msg => .error msg
    | .ok eq =>
      removeListenerLoop listener (if !eq then newListeners ++ [registered] else newListeners) rest

/-- Go `(*EventDispatcher).RemoveListener(eventName, listener)`; on a panic the map has not been
assigned, so the caller keeps the old dispatcher state. -/
def EventDispatcher.RemoveListener (d : EventDispatcher) (eventName : String)
    (listener : Listener) : Except String EventDispatcher :=
  match d.listeners eventName with
  | some eventListeners =>
    match removeListenerLoop listener [] eventListeners with
    | .error msg => .error msg
    | .ok newListeners =>
      .ok { listeners := fun k => if k = eventName then some newListeners else d.listeners k }
  | none => .ok d

/-- The state a listener can observe and change: the dispatcher, the event being dispatched
and the rest of the program's state. -/
structure World (σ : Type) where
  dispatcher : EventDispatcher
  event : BaseEvent
  user : σ

/-- The `Handle` method of every listener: the world after the call and the boolean result. -/
abbrev Handlers (σ : Type) := Listener → World σ → World σ × Bool

/-- Loop of `Dispatch` over the copied slice: call `Handle`, discard its result, and break
when the event reports `IsPropagationStopped()`.  Returns the final world and the entries
whose listener was invoked, in invocation order. -/
def dispatchLoop {σ : Type} (H : Handlers σ) :
    EventListeners → World σ → World σ × List ListenerPriority
  | [], w => (w, [])
  | l :: rest, w =>
    let w1 := (H l.Listener w).1
    if w1.event.IsPropagationStopped then (w1, [l])
    else
      let r := dispatchLoop H rest w1
      (r.1, l :: r.2)

/-- Go `(*EventDispatcher).Dispatch(event)` on the dispatcher and event of the world `w`: the
returned event is the event of the resulting world. -/
def EventDispatcher.Dispatch {σ : Type} (H : Handlers σ) (w : World σ) :
    World σ × List ListenerPriority :=
  match w.dispatcher.listeners w.event.Name with
  | none => (w, [])
  | some eventListeners => dispatchLoop H eventListeners w

/-! ## Notions used by the statements -/

/-- The entries stored for an event name (none when the key is absent). -/
def EventDispatcher.entries (d : EventDispatcher) (eventName : String) : EventListeners :=
  match d.listeners eventName with
  | some el => el
  | none => []

/-- A slice is in delivery order when priorities never increase along it. -/
def SortedDesc (el : EventListeners) : Prop :=
  List.Pairwise (fun x y => x.Priority ≥ y.Priority) el

/-- A run of `AddListener(eventName, listener, priority)` calls, in order. -/
def registerAll (d : EventDispatcher) (eventName : String) (regs : EventListeners) :
    EventDispatcher :=
  regs.foldl (fun acc r => acc.AddListener eventName r.Listener [r.Priority]) d

/-- Specification order, step: a new entry goes after every entry of priority at least its
own and before the first entry of smaller priority. -/
def stableInsert (x : ListenerPriority) : EventListeners → EventListeners
  | [] => [x]
  | y :: ys => if y.Priority ≥ x.Priority then y :: stableInsert x ys else x :: y :: ys

/-- Specification order: the stable sort of a registration sequence by priority descending. -/
def stableOrder (regs : EventListeners) : EventListeners :=
  regs.foldl (fun acc x => stableInsert x acc) []

/-- Handlers that never stop propagation: an event that is not stopped before a call is not
stopped after it. -/
def NeverStops {σ : Type} (H : Handlers σ) : Prop :=
  ∀ (L : Listener) (w : World σ),
    w.event.IsPropagationStopped = false → (H L w).1.event.IsPropagationStopped = false

/-- The world after the first `n` listeners of a slice have been invoked in order. -/
def worldAfter {σ : Type} (H : Handlers σ) (el : EventListeners) (w : World σ) (n : Nat) :
    World σ :=
  (el.take n).foldl (fun acc l => (H l.Listener acc).1) w

/-- Handlers with the same effects as `H` but with boolean results given by `r`. -/
def withResults {σ : Type} (H : Handlers σ) (r : Listener → World σ → Bool) : Handlers σ :=
  fun L w => ((H L w).1, r L w)

/-- Dispatcher states reachable from `NewDispatcher()` by `AddListener` and by
`RemoveListener` calls that return. -/
inductive Reachable : EventDispatcher → Prop where
  | init : Reachable NewDispatcher
  | add (d : EventDispatcher) (e : String) (L : Listener) (p : List Int) :
      Reachable d → Reachable (d.AddListener e L p)
  | remove (d d1 : EventDispatcher) (e : String) (L : Listener) :
      Reachable d → d.RemoveListener e L = .ok d1 → Reachable d1

/-! ## Notions used in the proofs about `sort.Sort` -/

/-- Priority stored at index `i` (0 outside the slice). -/
def prio (l : EventListeners) (i : Nat) : Int :=
  match l[i]? with
  | some x => x.Priority
  | none => 0

/-- The slice `r` is a permutation of `l` that differs from it only inside `[a, b)`, and
every priority found there was already there in `l`. -/
structure Frame (a b : Nat) (l r : EventListeners) : Prop where
  perm : r.Perm l
  len : r.length = l.length
  out : ∀ k, k < a ∨ b ≤ k → prio r k = prio l k
  inn : ∀ k, a ≤ k → k < b → ∃ k', a ≤ k' ∧ k' < b ∧ prio r k = prio l k'

/-- The range `[a, b)` is in `Less` order: priorities never increase. -/
def SortedOn (a b : Nat) (l : EventListeners) : Prop :=
  ∀ p q, a ≤ p → p < q → q < b → prio l q ≤ prio l p

/-- What the scanning loops of `partition` establish around the pivot stored at `a`. -/
structure Split (a b : Nat) (data : EventListeners) (j : Nat) : Prop where
  lo : a ≤ j
  hi : j < b
  left : ∀ k, a < k → k ≤ j → prio data a < prio data k
  right : ∀ k, j < k → k < b → prio data k ≤ prio data a

/-- Result of `partition`: the pivot sits at `mid`, entries that are `Less` than it are on
its left, the others on its right. -/
structure Parted (a b : Nat) (data : EventListeners) (mid : Nat) : Prop where
  lo : a ≤ mid
  hi : mid < b
  left : ∀ k, a ≤ k → k < mid → prio data mid < prio data k
  right : ∀ k, mid < k → k < b → prio data k ≤ prio data mid

/-- Heap property on the nodes `lo ≤ p` of the heap stored at `first`, of size `hi`: no
child is `Less`-greater than its parent. -/
def HeapFrom (first lo hi : Nat) (data : EventListeners) : Prop :=
  ∀ p c, lo ≤ p → c < hi → (c = 2 * p + 1 ∨ c = 2 * p + 2) →
    prio data (first + p) ≤ prio data (first + c)

/-- Invariant of `pdqsort`: the entry just left of the range is not `Less`-greater than any
entry of the range. -/
def LowerBound (a b : Nat) (data : EventListeners) : Prop :=
  0 < a → ∀ k, a ≤ k → k < b → prio data k ≤ prio data (a - 1)

/-! ## Concrete listeners, handlers and registrations used in the examples -/

/-- The `n`-th listener object of some pointer type such as `*TestListener`. -/
def ptr (n : Nat) : Listener := Listener.comparable 0 n

/-- Handlers that leave the world unchanged and return true. -/
def quietHandlers : Handlers Unit := fun _ w => (w, true)

/-- Handlers in which the function listener `func 0` calls `StopPropagation` and every
other listener leaves the world unchanged. -/
def stoppingHandlers : Handlers Unit := fun L w =>
  match L with
  | Listener.func 0 => ({ w with event := w.event.StopPropagation }, true)
  | _ => (w, true)

/-- Thirteen registrations: twelve listeners at priority 0, then one at priority 1. -/
def thirteenRegistrations : EventListeners :=
  [⟨ptr 1, 0⟩, ⟨ptr 2, 0⟩, ⟨ptr 3, 0⟩, ⟨ptr 4, 0⟩, ⟨ptr 5, 0⟩, ⟨ptr 6, 0⟩, ⟨ptr 7, 0⟩,
    ⟨ptr 8, 0⟩, ⟨ptr 9, 0⟩, ⟨ptr 10, 0⟩, ⟨ptr 11, 0⟩, ⟨ptr 12, 0⟩, ⟨ptr 13, 1⟩]

/-- The registrations of the scenario `A@10, B@50, C@50`. -/
def scenarioABC : EventListeners := [⟨ptr 1, 10⟩, ⟨ptr 2, 50⟩, ⟨ptr 3, 50⟩]

/-- The dispatcher of `TestDispatcher_DispatchStopPropagation`. -/
def stopScenario : EventDispatcher :=
  ((NewDispatcher.AddListener "user.created" (ptr 1) [100]).AddListener
    "user.created" (ptr 2) [90]).AddListener "user.created" (Listener.func 0) [100]

/-- The state after a `RemoveListener` call, whether it returned or panicked. -/
def stateAfter (d : EventDispatcher) (r : Except String EventDispatcher) : EventDispatcher :=
  match r with
  | .ok d1 => d1
  | .error _ => d

/-! ## event.go: the argument bag reached through `Arguments()` -/

/-- Go `m[key]` on the argument bag (the second result `ok` is `isSome`); reading a nil map
finds nothing. -/
def argsGet (m : Option (List (String × Value))) (key : String) : Option Value :=
  match m with
  | none => none
  | some l => l.lookup key

/-- Go `m[key] = v` on the argument bag; assigning to a nil map panics. -/
def argsSet (m : Option (List (String × Value))) (key : String) (v : Value) :
    Except String (Option (List (String × Value))) :=
  match m with
  | none => .error "assignment to entry in nil map"
  | some l => .ok (some ((key, v) :: l.filter (fun p => p.1 ≠ key)))

/-- Go `delete(m, key)` on the argument bag; deleting from a nil map does nothing. -/
def argsDelete (m : Option (List (String × Value))) (key : String) :
    Option (List (String × Value)) :=
  match m with
  | none => none
  | some l => some (l.filter (fun p => p.1 ≠ key))

/-- Go `e.Arguments()[key] = v`: `Arguments()` returns the map held by the event, so the
write lands in the event's own bag. -/
def BaseEvent.setArgument (e : BaseEvent) (key : String) (v : Value) : Except String BaseEvent :=
  match argsSet e.Arguments key v with
  | .error msg => .error msg
  | .ok m => .ok { e with arguments := m }

/-- Go `delete(e.Arguments(), key)`. -/
def BaseEvent.deleteArgument (e : BaseEvent) (key : String) : BaseEvent :=
  { e with arguments := argsDelete e.Arguments key }

/-- What a holder of an event can do with it: the four methods of `Event`, and writes and
deletes through the map returned by `Arguments()`. -/
inductive EventOp where
  | Name
  | Arguments
  | StopPropagation
  | IsPropagationStopped
  | setArgument (key : String) (v : Value)
  | deleteArgument (key : String)

/-- The event after one operation (a panic on a nil map returns the error). -/
def EventOp.apply (e : BaseEvent) : EventOp → Except String BaseEvent
  | .Name => .ok e
  | .Arguments => .ok e
  | .StopPropagation => .ok e.StopPropagation
  | .IsPropagationStopped => .ok e
  | .setArgument key v => e.setArgument key v
  | .deleteArgument key => .ok (e.deleteArgument key)

/-- The event after a sequence of operations that all return. -/
def applyOps : List EventOp → BaseEvent → Except String BaseEvent
  | [], e => .ok e
  | op :: rest, e =>
    match op.apply e with
    | .error msg => .error msg
    | .ok e1 => applyOps rest e1

/-- The event after `n` calls of `StopPropagation()`. -/
def stopTimes : Nat → BaseEvent → BaseEvent
  | 0, e => e
  | n + 1, e => stopTimes n e.StopPropagation

/-! ## dispatcher.go: `Dispatch` with listeners that may panic -/

/-- The `Handle` method of every listener when a call may panic: the error is the panic
value, otherwise the world after the call and the boolean result. -/
abbrev HandlersE (σ : Type) := Listener → World σ → Except String (World σ × Bool)

/-- Loop of `Dispatch` when `Handle` may panic: `Dispatch` has no `recover`, so the panic
ends the dispatch and reaches the caller. -/
def dispatchLoopE {σ : Type} (H : HandlersE σ) :
    EventListeners → World σ → Except String (World σ × List ListenerPriority)
  | [], w => .ok (w, [])
  | l :: rest, w =>
    match H l.Listener w with
    | .error msg => .error msg
    | .ok r1 =>
      if r1.1.event.IsPropagationStopped then .ok (r1.1, [l])
      else
        match dispatchLoopE H rest r1.1 with
        | .error msg => .error msg
        | .ok r => .ok (r.1, l :: r.2)

/-- Go `(*EventDispatcher).Dispatch(event)` with listeners that may panic. -/
def EventDispatcher.DispatchE {σ : Type} (H : HandlersE σ) (w : World σ) :
    Except String (World σ × List ListenerPriority) :=
  match w.dispatcher.listeners w.event.Name with
  | none => .ok (w, [])
  | some eventListeners => dispatchLoopE H eventListeners w

/-- Listeners that always return, seen as listeners that may panic. -/
def HandlersE.ofTotal {σ : Type} (H : Handlers σ) : HandlersE σ := fun L w => .ok (H L w)

/-! ## subscriber.go -/

/-- Go `SubscriberConfig`. -/
structure SubscriberConfig where
  Method : String
  Priority : Int
  deriving DecidableEq, Repr

/-- A result of `reflect.Value.Call`, as far as the adapter looks at it: a value of kind
`reflect.Bool`, or a value of another kind. -/
inductive ReflectValue where
  | bool (b : Bool)
  | other
  deriving DecidableEq, Repr

/-- A subscriber object: the name of its dynamic type (what `%T` prints), the mapping
returned by `GetSubscribedEvents()` as the key/value pairs in the order the `range` loop
visits them (a Go map: the keys are distinct, the order is arbitrary), and its exported
methods as `reflect` finds them by name.  Calling a method through `reflect` with the event
as only argument panics (wrong signature, or a panic in the body) or returns the world after
the call and the result values. -/
structure Subscriber (σ : Type) where
  typeName : String
  GetSubscribedEvents : List (String × List SubscriberConfig)
  methods : String → Option (World σ → Except String (World σ × List ReflectValue))

/-- Body of the closure returned by `createListenerFromSubscriber(subscriber, methodName)`:
look the method up by name, panic if it is not valid, call it with the event, and return
the first result if it is a boolean, true otherwise. -/
def createListenerFromSubscriber {σ : Type} (subscriber : Subscriber σ) (methodName : String) :
    World σ → Except String (World σ × Bool) := fun w =>
  match subscriber.methods methodName with
  | none =>
    .error ("Method " ++ methodName ++ " does not exist on subscriber " ++ subscriber.typeName)
  | some method =>
    match method w with
    | .error msg => .error msg
    | .ok r =>
      match r.2 with
      | ReflectValue.bool b :: _ => .ok (r.1, b)
      | _ => .ok (r.1, true)

/-- The part of the program state that registration of subscribers changes: the code of
every listener value, the address the next function value (closure) will get, and the
dispatcher. -/
structure Runtime (σ : Type) where
  handlers : HandlersE σ
  nextFunc : Nat
  dispatcher : EventDispatcher

/-- Inner loop of `RegisterSubscriber`, `for _, config := range configs`: each config gets a
new closure (a `ListenerFunc` at a fresh address) that is added at the config's priority. -/
def registerConfigs {σ : Type} (subscriber : Subscriber σ) (eventName : String) :
    List SubscriberConfig → Runtime σ → Runtime σ
  | [], rt => rt
  | config :: rest, rt =>
    let listener := Listener.func rt.nextFunc
    let code := createListenerFromSubscriber subscriber config.Method
    registerConfigs subscriber eventName rest
      { handlers := fun L => if L = listener then code else rt.handlers L,
        nextFunc := rt.nextFunc + 1,
        dispatcher := rt.dispatcher.AddListener eventName listener [config.Priority] }

/-- Outer loop of `RegisterSubscriber`, `for eventName, configs := range subscribedEvents`. -/
def registerEvents {σ : Type} (subscriber : Subscriber σ) :
    List (String × List SubscriberConfig) → Runtime σ → Runtime σ
  | [], rt => rt
  | (eventName, configs) :: rest, rt =>
    registerEvents subscriber rest (registerConfigs subscriber eventName configs rt)

/-- Go `RegisterSubscriber(dispatcher, subscriber)`. -/
def RegisterSubscriber {σ : Type} (rt : Runtime σ) (subscriber : Subscriber σ) : Runtime σ :=
  registerEvents subscriber subscriber.GetSubscribedEvents rt

/-- Inner loop of `RegisterListener`: the listener is added once for every config whose
method is `methodName`. -/
def registerListenerConfigs (eventName methodName : String) (listener : Listener) :
    List SubscriberConfig → EventDispatcher → EventDispatcher
  | [], d => d
  | config :: rest, d =>
    registerListenerConfigs eventName methodName listener rest
      (if config.Method = methodName then d.AddListener eventName listener [config.Priority]
       else d)

/-- Outer loop of `RegisterListener`. -/
def registerListenerEvents (methodName : String) (listener : Listener) :
    List (String × List SubscriberConfig) → EventDispatcher → EventDispatcher
  | [], d => d
  | (eventName, configs) :: rest, d =>
    registerListenerEvents methodName listener rest
      (registerListenerConfigs eventName methodName listener configs d)

/-- Go `RegisterListener(dispatcher, target, methodName, handler)`: `handler` is the address
of the function value, `ListenerFunc(handler)` is the listener `func handler`; `target` is
`none` when the target does not implement `Subscriber`. -/
def RegisterListener {σ : Type} (d : EventDispatcher) (target : Option (Subscriber σ))
    (methodName : String) (handler : Nat) : EventDispatcher :=
  let listener := Listener.func handler
  match target with
  | some subscriber =>
    registerListenerEvents methodName listener subscriber.GetSubscribedEvents d
  | none => d

/-- The entries `RegisterSubscriber` creates for the configs of one event name when the
first closure gets the address `n`. -/
def closureEntries : Nat → List SubscriberConfig → EventListeners
  | _, [] => []
  | n, config :: rest =>
    { Listener := Listener.func n, Priority := config.Priority } :: closureEntries (n + 1) rest

/-- The boolean the adapted listener returns for the results of the method call. -/
def adaptedResult : List ReflectValue → Bool
  | ReflectValue.bool b :: _ => b
  | _ => true

/-! ## Concrete subscribers and handlers used in the examples of the later sections -/

/-- What the listener `ptr 1` of `reentrantHandlers` does to the dispatcher:
`AddListener("e", ptr 2, 100)` followed by `RemoveListener("e", ptr 3)`. -/
def reentrantCalls (d : EventDispatcher) : EventDispatcher :=
  stateAfter (d.AddListener "e" (ptr 2) [100])
    ((d.AddListener "e" (ptr 2) [100]).RemoveListener "e" (ptr 3))

/-- Handlers in which the listener `ptr 1`, when invoked, calls
`AddListener("e", ptr 2, 100)` and `RemoveListener("e", ptr 3)` on the dispatcher, and every
other listener leaves the world unchanged. -/
def reentrantHandlers : Handlers Unit := fun L w =>
  match L with
  | Listener.comparable 0 1 => ({ w with dispatcher := reentrantCalls w.dispatcher }, true)
  | _ => (w, true)

/-- The middleware example with the log as user state: `TimingMiddleware` (`ptr 1`) stores
`_timing_start` in `e.Arguments()`, `TimingCleanupMiddleware` (`ptr 3`) appends what it
finds under that key to the log and deletes the key, the other listeners do nothing. -/
def middlewareHandlers : Handlers (List (Option Value)) := fun L w =>
  match L with
  | Listener.comparable 0 1 =>
    match w.event.setArgument "_timing_start" (Value.int 42) with
    | .ok e => ({ w with event := e }, true)
    | .error _ => (w, true)
  | Listener.comparable 0 3 =>
    ({ w with event := w.event.deleteArgument "_timing_start",
              user := w.user ++ [argsGet w.event.Arguments "_timing_start"] }, true)
  | _ => (w, true)

/-- The dispatcher of `MiddlewareExample` without the subscriber: timing at 1000, logging
at 900, cleanup at -1000, order processor at 100. -/
def middlewareDispatcher : EventDispatcher :=
  (((NewDispatcher.AddListener "order.created" (ptr 1) [1000]).AddListener
    "order.created" (ptr 2) [900]).AddListener "order.created" (ptr 3) [-1000]).AddListener
    "order.created" (ptr 4) [100]

/-- The subscriber of `TestSubscriber_Registration`; the user state is the list of keys set
in `calledEvents`. -/
def testSubscriber : Subscriber (List String) :=
  { typeName := "*event_test.TestSubscriber",
    GetSubscribedEvents :=
      [("user.created", [{ Method := "OnUserCreated", Priority := 100 }]),
       ("user.updated", [{ Method := "OnUserUpdated", Priority := 90 }])],
    methods := fun name =>
      if name = "OnUserCreated" then
        some (fun w => .ok ({ w with user := w.user ++ ["user.created"] }, [ReflectValue.bool true]))
      else if name = "OnUserUpdated" then
        some (fun w => .ok ({ w with user := w.user ++ ["user.updated"] }, [ReflectValue.bool true]))
      else none }

/-- A subscriber whose descriptor names the method `OnMissing`, which it does not have. -/
def brokenSubscriber : Subscriber (List String) :=
  { typeName := "*event_test.BrokenSubscriber",
    GetSubscribedEvents := [("user.created", [{ Method := "OnMissing", Priority := 100 }])],
    methods := fun _ => none }

/-- A runtime with a fresh dispatcher, no function value allocated yet, and listeners that
leave the world unchanged. -/
def freshRuntime : Runtime (List String) :=
  { handlers := fun _ w => .ok (w, true), nextFunc := 0, dispatcher := NewDispatcher }

/-- A subscriber with three methods: one returns `false`, one returns nothing, one returns
a value that is not a boolean. -/
def resultSubscriber : Subscriber Unit :=
  { typeName := "*ResultSubscriber",
    GetSubscribedEvents := [],
    methods := fun name =>
      if name = "ReturnsFalse" then some (fun w => .ok (w, [ReflectValue.bool false]))
      else if name = "ReturnsNothing" then some (fun w => .ok (w, []))
      else if name = "ReturnsError" then some (fun w => .ok (w, [ReflectValue.other]))
      else none }

/-! ## Listeners that act on the event through the `Event` interface -/

/-- The listener `L` changes the event only through the `Event` interface: its effect on
the event is a sequence of operations of `EventOp` (the four methods of `Event` and writes
and deletes through the map returned by `Arguments()`).  A Go listener can do more than
that: it can overwrite the event value through a type assertion
(`*e.(*BaseEvent) = *NewEvent(...)`) or replace the exported embedded `*BaseEvent` of an
event such as `OrderCreatedEvent`; such a listener does not satisfy this. -/
def ActsThroughEvent {σ : Type} (H : Handlers σ) (L : Listener) : Prop :=
  ∀ w : World σ, ∃ ops : List EventOp, applyOps ops w.event = .ok (H L w).1.event

/-- The operation writes or deletes `key` in the argument bag. -/
def EventOp.touches (key : String) : EventOp → Bool
  | .setArgument k _ => decide (k = key)
  | .deleteArgument k => decide (k = key)
  | _ => false

/-- A change of one key of the argument bag: `e.Arguments()[key] = v` for `some v`,
`delete(e.Arguments(), key)` for `none`.  After it, looking the key up gives that option. -/
def keyChange (key : String) : Option Value → EventOp
  | some v => .setArgument key v
  | none => .deleteArgument key

/-- Handlers in which the listener `ptr 1` overwrites the event it is given,
`*e.(*BaseEvent) = *NewEvent(e.Name(), e.Arguments())`, and every other listener leaves the
world unchanged. -/
def resettingHandlers : Handlers Unit := fun L w =>
  match L with
  | Listener.comparable 0 1 =>
    ({ w with event := NewEvent w.event.Name [w.event.Arguments] }, true)
  | _ => (w, true)

/-! ## dispatcher.go: the slices of the registry in memory

The sequential definitions above treat a slice as the list of its elements.  Between
goroutines a slice is a header `(ptr, len, cap)` on an underlying array that other headers
may share: `append` writes into the same array when the capacity suffices, and `sort.Sort`
swaps the elements of the array in place.  This section gives `AddListener`, `RemoveListener`
and the two parts of `Dispatch` (the region between `d.mu.RLock()` and `d.mu.RUnlock()`, and
the `make`/`copy` statements that follow it) on such a memory.  Each definition is one region
executed without interruption; a schedule is a composition of them. -/

/-- A Go slice value: the address of its underlying array, its length and its capacity. -/
structure SliceHeader where
  ptr : Nat
  len : Nat
  cap : Nat
  deriving DecidableEq, Repr

/-- The dispatcher in memory: the cells of every underlying array by address (`none` is a
cell still holding the zero value), the next free address, and the map `d.listeners`, which
stores slice headers. -/
structure Memory where
  arrays : Nat → List (Option ListenerPriority)
  next : Nat
  listeners : String → Option SliceHeader

/-- Go `NewDispatcher()`: an empty map, nothing allocated. -/
def NewMemory : Memory := { arrays := fun _ => [], next := 0, listeners := fun _ => none }

/-- The elements of a slice: the first `len` cells of its underlying array. -/
def Memory.view (m : Memory) (s : SliceHeader) : EventListeners :=
  ((m.arrays s.ptr).take s.len).filterMap id

/-- Go `append(s, x)`.  When the capacity suffices the element is written into the underlying
array of `s`; otherwise a new array is allocated and the elements are copied over.  The
capacity of a new array is chosen by the runtime: `grow` maps the old capacity to the new one
(at least the new length). -/
def Memory.append (grow : Nat → Nat) (m : Memory) (s : SliceHeader) (x : ListenerPriority) :
    Memory × SliceHeader :=
  if s.len < s.cap then
    ({ m with arrays := fun a =>
        if a = s.ptr then (m.arrays s.ptr).set s.len (some x) else m.arrays a },
     { s with len := s.len + 1 })
  else
    ({ m with
        arrays := fun a =>
          if a = m.next then
            (m.arrays s.ptr).take s.len ++
              some x :: List.replicate (max (grow s.cap) (s.len + 1) - (s.len + 1)) none
          else m.arrays a,
        next := m.next + 1 },
     { ptr := m.next, len := s.len + 1, cap := max (grow s.cap) (s.len + 1) })

/-- Go `(*EventDispatcher).AddListener(eventName, listener, priority...)` on the memory, from
`d.mu.Lock()` to the deferred `d.mu.Unlock()`: `make(EventListeners, 0)` when the key is
absent, `append`, the assignment to the map, and `sort.Sort` on the stored slice, which
rearranges its underlying array in place. -/
def Memory.AddListener (grow : Nat → Nat) (m : Memory) (eventName : String)
    (listener : Listener) (priority : List Int) : Memory :=
  let p := match priority with
    | x :: _ => x
    | [] => 0
  let m1 : Memory := match m.listeners eventName with
    | some _ => m
    | none =>
      { arrays := fun a => if a = m.next then [] else m.arrays a,
        next := m.next + 1,
        listeners := fun k =>
          if k = eventName then some { ptr := m.next, len := 0, cap := 0 } else m.listeners k }
  let s : SliceHeader := match m.listeners eventName with
    | some s => s
    | none => { ptr := m.next, len := 0, cap := 0 }
  let r := m1.append grow s { Listener := listener, Priority := p }
  { arrays := fun a =>
      if a = r.2.ptr then
        (sort_Sort (r.1.view r.2)).map some ++ (r.1.arrays r.2.ptr).drop r.2.len
      else r.1.arrays a,
    next := r.1.next,
    listeners := fun k => if k = eventName then some r.2 else r.1.listeners k }

/-- Go `(*EventDispatcher).RemoveListener(eventName, listener)` on the memory, from
`d.mu.Lock()` to the deferred `d.mu.Unlock()`: `newListeners` is a new array of capacity
`len(eventListeners)`, so every `append` of the loop writes into it; the map then stores its
header.  On a panic nothing has been assigned. -/
def Memory.RemoveListener (m : Memory) (eventName : String) (listener : Listener) :
    Except String Memory :=
  match m.listeners eventName with
  | some s =>
    match removeListenerLoop listener [] (m.view s) with
    | .error msg => .error msg
    | .ok newListeners =>
      .ok { arrays := fun a =>
              if a = m.next then
                newListeners.map some ++ List.replicate (s.len - newListeners.length) none
              else m.arrays a,
            next := m.next + 1,
            listeners := fun k =>
              if k = eventName then
                some { ptr := m.next, len := newListeners.length, cap := s.len }
              else m.listeners k }
  | none => .ok m

/-- First part of Go `(*EventDispatcher).Dispatch(event)`, from `d.mu.RLock()` to
`d.mu.RUnlock()`: `eventListeners, ok := d.listeners[event.Name()]` reads the slice header
stored in the map (`none`: `ok` is false). -/
def Memory.dispatchRead (m : Memory) (event : BaseEvent) : Option SliceHeader :=
  m.listeners event.Name

/-- Second part of `Dispatch`, after `d.mu.RUnlock()`:
`listenersCopy := make(EventListeners, len(eventListeners))` and
`copy(listenersCopy, eventListeners)` read the cells of the underlying array as they are in
the memory at that moment.  The result is `listenersCopy`, over which the loop then runs. -/
def Memory.dispatchCopy (m : Memory) (eventListeners : SliceHeader) : EventListeners :=
  m.view eventListeners

/-- The registry held by a memory, as the sequential definitions see it. -/
def Memory.toDispatcher (m : Memory) : EventDispatcher :=
  { listeners := fun k =>
      match m.listeners k with
      | some s => some (m.view s)
      | none => none }

/-- The memory after a `RemoveListener` call, whether it returned or panicked. -/
def memoryAfter (m : Memory) (r : Except String Memory) : Memory :=
  match r with
  | .ok m1 => m1
  | .error _ => m

/-- A schedule of two goroutines that respects the mutex.  Goroutine 1 calls
`Dispatch(event)` and runs its locked region; goroutine 2 then runs a whole
`AddListener(eventName, listener, priority...)` call, holding the write lock from start to
end; goroutine 1 then makes its copy.  The result is `listenersCopy` (`none` when `Dispatch`
found no key). -/
def copyAfterAddListener (grow : Nat → Nat) (m : Memory) (event : BaseEvent)
    (eventName : String) (listener : Listener) (priority : List Int) :
    Option EventListeners :=
  match m.dispatchRead event with
  | none => none
  | some eventListeners =>
    some ((m.AddListener grow eventName listener priority).dispatchCopy eventListeners)

/-- The memory is well formed: every stored slice lies in an allocated array of its own, of
the size of its capacity, and its first `len` cells hold elements. -/
structure Memory.WF (m : Memory) : Prop where
  bound : ∀ k s, m.listeners k = some s → s.ptr < m.next
  sep : ∀ k k1 s s1, m.listeners k = some s → m.listeners k1 = some s1 → s.ptr = s1.ptr → k = k1
  size : ∀ k s, m.listeners k = some s → (m.arrays s.ptr).length = s.cap
  len_le : ∀ k s, m.listeners k = some s → s.len ≤ s.cap
  full : ∀ k s, m.listeners k = some s →
    (m.arrays s.ptr).take s.len = (m.view s).map some

/-- A growth policy: the capacity doubles. -/
def doubling (cap : Nat) : Nat := 2 * cap

/-- The memory after `AddListener("e", ptr 1, 10)`, `AddListener("e", ptr 2, 5)`,
`AddListener("e", ptr 3, 1)` and `RemoveListener("e", ptr 3)`: the slice stored for "e" has
length 2 and capacity 3. -/
def raceMemory : Memory :=
  memoryAfter
    (((NewMemory.AddListener doubling "e" (ptr 1) [10]).AddListener doubling "e" (ptr 2)
      [5]).AddListener doubling "e" (ptr 3) [1])
    ((((NewMemory.AddListener doubling "e" (ptr 1) [10]).AddListener doubling "e" (ptr 2)
      [5]).AddListener doubling "e" (ptr 3) [1]).RemoveListener "e" (ptr 3))

/-! ## Correctness of `sort_Sort` -/

theorem Swap_length (l : EventListeners) (i j : Nat) : (l.Swap i j).length = l.length := by
  unfold EventListeners.Swap
  split <;> simp

theorem Less_iff (l : EventListeners) {i j : Nat} (hi : i < l.length) (hj : j < l.length) :
    l.Less i j = true ↔ prio l j < prio l i := by
  unfold EventListeners.Less prio
  simp [List.getElem?_eq_getElem hi, List.getElem?_eq_getElem hj]

theorem Less_eq_false_iff (l : EventListeners) {i j : Nat} (hi : i < l.length)
    (hj : j < l.length) : l.Less i j = false ↔ prio l i ≤ prio l j := by
  have := Less_iff l hi hj
  cases h : l.Less i j <;> simp_all

theorem prio_Swap (l : EventListeners) {i j : Nat} (hi : i < l.length) (hj : j < l.length)
    (k : Nat) :
    prio (l.Swap i j) k = if k = j then prio l i else if k = i then prio l j else prio l k := by
  unfold EventListeners.Swap prio
  simp only [List.getElem?_eq_getElem hi, List.getElem?_eq_getElem hj, List.getElem?_set]
  by_cases h1 : k = j
  · subst h1; simp [hj]
  · by_cases h2 : k = i
    · subst h2; simp [hi, h1, Ne.symm h1]
    · simp [h1, h2, Ne.symm h1, Ne.symm h2]

theorem Swap_perm (l : EventListeners) (i j : Nat) : (l.Swap i j).Perm l := by
  unfold EventListeners.Swap
  split
  · rename_i x y hx hy
    obtain ⟨hi, rfl⟩ := List.getElem?_eq_some.mp hx
    obtain ⟨hj, rfl⟩ := List.getElem?_eq_some.mp hy
    rw [List.perm_iff_count]
    intro a
    rw [List.count_set _ _ _ _ (by simpa using hj), List.count_set _ _ _ _ hi]
    simp only [List.getElem_set]
    have h1 := List.count_pos_iff.mpr (List.getElem_mem hi)
    have h2 := List.count_pos_iff.mpr (List.getElem_mem hj)
    by_cases hij : i = j
    · subst hij
      simp
      split <;> simp_all
    · simp [hij]
      by_cases e1 : l[i] = a <;> by_cases e2 : l[j] = a <;> simp_all
  · exact List.Perm.refl _

theorem Frame.refl (a b : Nat) (l : EventListeners) : Frame a b l l :=
  ⟨List.Perm.refl _, rfl, fun _ _ => rfl, fun k h1 h2 => ⟨k, h1, h2, rfl⟩⟩

theorem Frame.trans {a b : Nat} {l m r : EventListeners} (h1 : Frame a b l m)
    (h2 : Frame a b m r) : Frame a b l r := by
  refine ⟨h2.perm.trans h1.perm, h2.len.trans h1.len,
    fun k hk => (h2.out k hk).trans (h1.out k hk), ?_⟩
  intro k hk1 hk2
  obtain ⟨k1, h3, h4, h5⟩ := h2.inn k hk1 hk2
  obtain ⟨k2, h6, h7, h8⟩ := h1.inn k1 h3 h4
  exact ⟨k2, h6, h7, h5.trans h8⟩

theorem Frame.mono {a b a' b' : Nat} {l r : EventListeners} (h : Frame a b l r)
    (ha : a' ≤ a) (hb : b ≤ b') : Frame a' b' l r := by
  refine ⟨h.perm, h.len, fun k hk => h.out k (by omega), ?_⟩
  intro k hk1 hk2
  by_cases hin : a ≤ k ∧ k < b
  · obtain ⟨k1, h3, h4, h5⟩ := h.inn k hin.1 hin.2
    exact ⟨k1, by omega, by omega, h5⟩
  · exact ⟨k, hk1, hk2, h.out k (by omega)⟩

theorem Frame.swap {a b i j : Nat} (l : EventListeners) (hi : a ≤ i) (hi' : i < b)
    (hj : a ≤ j) (hj' : j < b) (hb : b ≤ l.length) : Frame a b l (l.Swap i j) := by
  have hil : i < l.length := by omega
  have hjl : j < l.length := by omega
  refine ⟨Swap_perm l i j, Swap_length l i j, ?_, ?_⟩
  · intro k hk
    rw [prio_Swap l hil hjl]
    have h1 : k ≠ j := by omega
    have h2 : k ≠ i := by omega
    simp [h1, h2]
  · intro k hk1 hk2
    rw [prio_Swap l hil hjl]
    by_cases h1 : k = j
    · exact ⟨i, hi, hi', by simp [h1]⟩
    · by_cases h2 : k = i
      · subst h2
        exact ⟨j, hj, hj', by simp [h1]⟩
      · exact ⟨k, hk1, hk2, by simp [h1, h2]⟩

/-- Every priority bound valid on `[a, b)` before is valid after. -/
theorem Frame.bound {a b : Nat} {l r : EventListeners} (h : Frame a b l r) (P : Int → Prop)
    (hP : ∀ k, a ≤ k → k < b → P (prio l k)) : ∀ k, a ≤ k → k < b → P (prio r k) := by
  intro k h1 h2
  obtain ⟨k1, h3, h4, h5⟩ := h.inn k h1 h2
  rw [h5]
  exact hP k1 h3 h4

theorem insertionSortInner_spec (a i : Nat) :
    ∀ (j : Nat) (data : EventListeners), a ≤ j → j ≤ i → i < data.length →
      (∀ p q, a ≤ p → p < q → q ≤ i → p ≠ j → q ≠ j → prio data q ≤ prio data p) →
      (∀ q, j < q → q ≤ i → prio data q ≤ prio data j) →
      Frame a (i + 1) data (insertionSortInner a j data) ∧
        SortedOn a (i + 1) (insertionSortInner a j data) := by
  intro j
  induction j with
  | zero =>
    intro data _ _ _ h1 h2
    refine ⟨Frame.refl _ _ _, ?_⟩
    intro p q hp hpq hq
    by_cases hp0 : p = 0
    · subst hp0; exact h2 q hpq (by omega)
    · exact h1 p q hp hpq (by omega) hp0 (by omega)
  | succ j ih =>
    intro data haj hji hlen h1 h2
    have hj1 : j + 1 < data.length := by omega
    have hj0 : j < data.length := by omega
    unfold insertionSortInner
    by_cases hc : (decide (j + 1 > a) && data.Less (j + 1) j) = true
    · rw [if_pos hc]
      simp only [Bool.and_eq_true, decide_eq_true_eq] at hc
      obtain ⟨hgt, hless⟩ := hc
      rw [Less_iff data hj1 hj0] at hless
      have hsw := prio_Swap data hj1 hj0
      have hfr : Frame a (i + 1) data (data.Swap (j + 1) j) :=
        Frame.swap data (by omega) (by omega) (by omega) (by omega) (by omega)
      have := ih (data.Swap (j + 1) j) (by omega) (by omega) (by rw [Swap_length]; omega)
        (by
          intro p q hp hpq hq hpj hqj
          rw [hsw p, hsw q]
          simp only [hpj, hqj, if_false]
          by_cases hq1 : q = j + 1
          · have hp1 : p ≠ j + 1 := by omega
            simp only [hq1, hp1, if_true, if_false]
            exact h1 p j hp (by omega) (by omega) hp1 (by omega)
          · by_cases hp1 : p = j + 1
            · simp only [hq1, hp1, if_true, if_false]
              exact h1 j q (by omega) (by omega) hq (by omega) hq1
            · simp only [hq1, hp1, if_false]
              exact h1 p q hp hpq hq hp1 hq1)
        (by
          intro q hjq hq
          rw [hsw q, hsw j]
          simp only [if_true]
          have hqj : q ≠ j := by omega
          by_cases hq1 : q = j + 1
          · simp only [hq1, hqj, if_true, if_false]
            simp
            omega
          · simp only [hq1, hqj, if_false]
            have := h2 q (by omega) hq
            simp
            omega)
      exact ⟨hfr.trans this.1, this.2⟩
    · rw [if_neg hc]
      refine ⟨Frame.refl _ _ _, ?_⟩
      simp only [Bool.and_eq_true, decide_eq_true_eq, not_and, Bool.not_eq_true] at hc
      intro p q hp hpq hq
      by_cases hp1 : p = j + 1
      · subst hp1; exact h2 q hpq (by omega)
      · by_cases hq1 : q = j + 1
        · subst hq1
          have hl := hc (by omega)
          rw [Less_eq_false_iff data hj1 hj0] at hl
          by_cases hpj : p = j
          · subst hpj; exact hl
          · have := h1 p j hp (by omega) (by omega) hp1 (by omega)
            omega
        · exact h1 p q hp hpq (by omega) hp1 hq1

theorem insertionSortOuter_spec (a b : Nat) :
    ∀ (fuel i : Nat) (data : EventListeners), a < i → i ≤ b → b ≤ data.length →
      b - i ≤ fuel → SortedOn a i data →
      Frame a b data (insertionSortOuter a b fuel i data) ∧
        SortedOn a b (insertionSortOuter a b fuel i data) := by
  intro fuel
  induction fuel with
  | zero =>
    intro i data _ hib _ hf hs
    have : i = b := by omega
    subst this
    exact ⟨Frame.refl _ _ _, hs⟩
  | succ fuel ih =>
    intro i data hai hib hlen hf hs
    unfold insertionSortOuter
    by_cases hc : i < b
    · rw [if_pos hc]
      have hin := insertionSortInner_spec a i i data (by omega) (by omega) (by omega)
        (by
          intro p q hp hpq hq _ hqi
          exact hs p q hp hpq (by omega))
        (by intro q h1 h2; omega)
      have := ih (i + 1) (insertionSortInner a i data) (by omega) (by omega)
        (by rw [hin.1.len]; exact hlen) (by omega) hin.2
      exact ⟨(hin.1.mono (Nat.le_refl _) (by omega)).trans this.1, this.2⟩
    · rw [if_neg hc]
      have : i = b := by omega
      subst this
      exact ⟨Frame.refl _ _ _, hs⟩

theorem insertionSort_spec (data : EventListeners) (a b : Nat) (hb : b ≤ data.length) :
    Frame a b data (insertionSort data a b) ∧ SortedOn a b (insertionSort data a b) := by
  unfold insertionSort
  by_cases hab : a < b
  · exact insertionSortOuter_spec a b (b - a) (a + 1) data (by omega) (by omega) hb (by omega)
      (by intro p q _ _ _; omega)
  · have : b - a = 0 := by omega
    rw [this]
    unfold insertionSortOuter
    exact ⟨Frame.refl _ _ _, by intro p q _ _ _; omega⟩

theorem partitionScanI_spec (data : EventListeners) (a j : Nat) (hj : j < data.length)
    (ha : a < data.length) :
    ∀ (fuel i : Nat), j + 1 - i ≤ fuel → i ≤ j + 1 →
      i ≤ partitionScanI data a j fuel i ∧ partitionScanI data a j fuel i ≤ j + 1 ∧
      (∀ k, i ≤ k → k < partitionScanI data a j fuel i → prio data a < prio data k) ∧
      (partitionScanI data a j fuel i ≤ j →
        prio data (partitionScanI data a j fuel i) ≤ prio data a) := by
  intro fuel
  induction fuel with
  | zero =>
    intro i hf hij
    unfold partitionScanI
    exact ⟨Nat.le_refl _, hij, by intro k h1 h2; omega, by intro h; omega⟩
  | succ fuel ih =>
    intro i hf hij
    unfold partitionScanI
    by_cases hc : (decide (i ≤ j) && data.Less i a) = true
    · rw [if_pos hc]
      simp only [Bool.and_eq_true, decide_eq_true_eq] at hc
      obtain ⟨h1, h2⟩ := hc
      rw [Less_iff data (by omega) ha] at h2
      obtain ⟨i1, i2, i3, i4⟩ := ih (i + 1) (by omega) (by omega)
      refine ⟨by omega, i2, ?_, i4⟩
      intro k hk1 hk2
      by_cases hki : k = i
      · subst hki; exact h2
      · exact i3 k (by omega) hk2
    · rw [if_neg hc]
      simp only [Bool.and_eq_true, decide_eq_true_eq, not_and, Bool.not_eq_true] at hc
      refine ⟨Nat.le_refl _, hij, by intro k h1 h2; omega, ?_⟩
      intro h
      have := hc h
      rwa [Less_eq_false_iff data (by omega) ha] at this

theorem partitionScanJ_spec (data : EventListeners) (a i : Nat) (ha : a < data.length)
    (hi : 0 < i) :
    ∀ (j : Nat), j < data.length → i ≤ j + 1 →
      partitionScanJ data a i j ≤ j ∧ i ≤ partitionScanJ data a i j + 1 ∧
      (∀ k, partitionScanJ data a i j < k → k ≤ j → prio data k ≤ prio data a) ∧
      (i ≤ partitionScanJ data a i j →
        prio data a < prio data (partitionScanJ data a i j)) := by
  intro j
  induction j with
  | zero =>
    intro _ hij
    unfold partitionScanJ
    exact ⟨Nat.le_refl _, hij, by intro k h1 h2; omega, by intro h; omega⟩
  | succ j ih =>
    intro hj hij
    unfold partitionScanJ
    by_cases hc : (decide (i ≤ j + 1) && !data.Less (j + 1) a) = true
    · rw [if_pos hc]
      simp only [Bool.and_eq_true, decide_eq_true_eq, Bool.not_eq_true'] at hc
      obtain ⟨h1, h2⟩ := hc
      rw [Less_eq_false_iff data hj ha] at h2
      obtain ⟨i1, i2, i3, i4⟩ := ih (by omega) (by omega)
      refine ⟨by omega, i2, ?_, i4⟩
      intro k hk1 hk2
      by_cases hkj : k = j + 1
      · subst hkj; exact h2
      · exact i3 k hk1 (by omega)
    · rw [if_neg hc]
      simp only [Bool.and_eq_true, decide_eq_true_eq, not_and, Bool.not_eq_true,
        Bool.not_eq_false', Bool.not_eq_true'] at hc
      refine ⟨Nat.le_refl _, hij, by intro k h1 h2; omega, ?_⟩
      intro h
      have := hc h
      simp only [Bool.not_eq_false] at this
      rwa [Less_iff data hj ha] at this

theorem partitionLoop_spec (a b : Nat) :
    ∀ (fuel : Nat) (data : EventListeners) (i j : Nat), j + 1 - i ≤ fuel → a < i → i ≤ j + 1 →
      j < b → b ≤ data.length →
      (∀ k, a < k → k < i → prio data a < prio data k) →
      (∀ k, j < k → k < b → prio data k ≤ prio data a) →
      Frame (a + 1) b data (partitionLoop a fuel data i j).1 ∧
        Split a b (partitionLoop a fuel data i j).1 (partitionLoop a fuel data i j).2 := by
  intro fuel
  induction fuel with
  | zero =>
    intro data i j hf hai hij hjb hb hl hr
    unfold partitionLoop
    exact ⟨Frame.refl _ _ _, by omega, hjb, fun k h1 h2 => hl k h1 (by omega), hr⟩
  | succ fuel ih =>
    intro data i j hf hai hij hjb hb hl hr
    unfold partitionLoop
    simp only []
    obtain ⟨i1, i2, i3, i4⟩ :=
      partitionScanI_spec data a j (by omega) (by omega) (j + 1 - i) i (Nat.le_refl _) hij
    generalize partitionScanI data a j (j + 1 - i) i = i' at i1 i2 i3 i4 ⊢
    obtain ⟨j1, j2, j3, j4⟩ :=
      partitionScanJ_spec data a i' (by omega) (by omega) j (by omega) i2
    generalize partitionScanJ data a i' j = j' at j1 j2 j3 j4 ⊢
    by_cases hc : i' > j'
    · rw [if_pos hc]
      refine ⟨Frame.refl _ _ _, by omega, by omega, ?_, ?_⟩
      · intro k h1 h2
        by_cases hk : k < i
        · exact hl k h1 hk
        · exact i3 k (by omega) (by omega)
      · intro k h1 h2
        by_cases hk : j < k
        · exact hr k hk h2
        · exact j3 k h1 (by omega)
    · rw [if_neg hc]
      have hi4 := i4 (by omega)
      have hj4 := j4 (by omega)
      have hne : i' ≠ j' := by
        intro h; subst h; omega
      have hil : i' < data.length := by omega
      have hjl : j' < data.length := by omega
      have hsw := prio_Swap data hil hjl
      have hfr : Frame (a + 1) b data (data.Swap i' j') :=
        Frame.swap data (by omega) (by omega) (by omega) (by omega) hb
      have := ih (data.Swap i' j') (i' + 1) (j' - 1) (by omega) (by omega) (by omega) (by omega)
        (by rw [Swap_length]; exact hb)
        (by
          intro k h1 h2
          rw [hsw a, hsw k]
          have ha1 : a ≠ j' := by omega
          have ha2 : a ≠ i' := by omega
          have hk1 : k ≠ j' := by omega
          simp only [ha1, ha2, hk1, if_false]
          by_cases hk2 : k = i'
          · simp only [hk2, if_true]; exact hj4
          · simp only [hk2, if_false]
            by_cases hk : k < i
            · exact hl k h1 hk
            · exact i3 k (by omega) (by omega))
        (by
          intro k h1 h2
          rw [hsw a, hsw k]
          have ha1 : a ≠ j' := by omega
          have ha2 : a ≠ i' := by omega
          have hk2 : k ≠ i' := by omega
          simp only [ha1, ha2, hk2, if_false]
          by_cases hk1 : k = j'
          · simp only [hk1, if_true]; exact hi4
          · simp only [hk1, if_false]
            by_cases hk : j < k
            · exact hr k hk h2
            · exact j3 k (by omega) (by omega))
      exact ⟨hfr.trans this.1, this.2⟩

theorem Split.finish {a b j : Nat} {data : EventListeners} (h : Split a b data j)
    (hb : b ≤ data.length) :
    Frame a b data (data.Swap j a) ∧ Parted a b (data.Swap j a) j := by
  have hjl : j < data.length := by have := h.hi; omega
  have hal : a < data.length := by have := h.hi; have := h.lo; omega
  have hsw := prio_Swap data hjl hal
  refine ⟨Frame.swap data h.lo h.hi (Nat.le_refl _) (by have := h.hi; have := h.lo; omega) hb,
    h.lo, h.hi, ?_, ?_⟩
  · intro k h1 h2
    rw [hsw j, hsw k]
    by_cases hja : j = a
    · omega
    · simp only [hja, if_true, if_false]
      by_cases hka : k = a
      · simp only [hka, if_true]
        exact h.left j (by have := h.lo; omega) (Nat.le_refl _)
      · have hkj : k ≠ j := by omega
        simp only [hka, hkj, if_false]
        exact h.left k (by omega) (by omega)
  · intro k h1 h2
    rw [hsw j, hsw k]
    have hka : k ≠ a := by have := h.lo; omega
    have hkj : k ≠ j := by omega
    simp only [hka, hkj, if_false]
    by_cases hja : j = a
    · simp only [hja, if_true]
      exact h.right k (by omega) h2
    · simp only [hja, if_true, if_false]
      exact h.right k h1 h2

theorem partition_spec (data : EventListeners) (a b pivot : Nat) (hap : a ≤ pivot)
    (hpb : pivot < b) (hb : b ≤ data.length) :
    Frame a b data (partition data a b pivot).1 ∧
      Parted a b (partition data a b pivot).1 (partition data a b pivot).2.1 := by
  unfold partition
  simp only []
  have hf0 : Frame a b data (data.Swap a pivot) :=
    Frame.swap data (Nat.le_refl _) (by omega) hap hpb hb
  have hlen0 : (data.Swap a pivot).length = data.length := Swap_length _ _ _
  generalize data.Swap a pivot = d0 at hf0 hlen0 ⊢
  obtain ⟨i1, i2, i3, i4⟩ :=
    partitionScanI_spec d0 a (b - 1) (by omega) (by omega) (b - 1 + 1 - (a + 1)) (a + 1)
      (Nat.le_refl _) (by omega)
  generalize partitionScanI d0 a (b - 1) (b - 1 + 1 - (a + 1)) (a + 1) = i' at i1 i2 i3 i4 ⊢
  obtain ⟨j1, j2, j3, j4⟩ :=
    partitionScanJ_spec d0 a i' (by omega) (by omega) (b - 1) (by omega) i2
  generalize partitionScanJ d0 a i' (b - 1) = j' at j1 j2 j3 j4 ⊢
  by_cases hc : i' > j'
  · rw [if_pos hc]
    simp only []
    have hs : Split a b d0 j' :=
      ⟨by omega, by omega, fun k h1 h2 => i3 k (by omega) (by omega),
        fun k h1 h2 => j3 k h1 (by omega)⟩
    have := hs.finish (by omega)
    exact ⟨hf0.trans this.1, this.2⟩
  · rw [if_neg hc]
    simp only []
    have hi4 := i4 (by omega)
    have hj4 := j4 (by omega)
    have hne : i' ≠ j' := by
      intro h; subst h; omega
    have hil : i' < d0.length := by omega
    have hjl : j' < d0.length := by omega
    have hsw := prio_Swap d0 hil hjl
    have hfr : Frame a b d0 (d0.Swap i' j') :=
      Frame.swap d0 (by omega) (by omega) (by omega) (by omega) (by omega)
    have hl := partitionLoop_spec a b (b - a) (d0.Swap i' j') (i' + 1) (j' - 1) (by omega)
      (by omega) (by omega) (by omega) (by rw [Swap_length]; omega)
      (by
        intro k h1 h2
        rw [hsw a, hsw k]
        have ha1 : a ≠ j' := by omega
        have ha2 : a ≠ i' := by omega
        have hk1 : k ≠ j' := by omega
        simp only [ha1, ha2, hk1, if_false]
        by_cases hk2 : k = i'
        · simp only [hk2, if_true]; exact hj4
        · simp only [hk2, if_false]
          exact i3 k (by omega) (by omega))
      (by
        intro k h1 h2
        rw [hsw a, hsw k]
        have ha1 : a ≠ j' := by omega
        have ha2 : a ≠ i' := by omega
        have hk2 : k ≠ i' := by omega
        simp only [ha1, ha2, hk2, if_false]
        by_cases hk1 : k = j'
        · simp only [hk1, if_true]; exact hi4
        · simp only [hk1, if_false]
          exact j3 k (by omega) (by omega))
    have hfin := hl.2.finish (by rw [hl.1.len, Swap_length]; omega)
    exact ⟨(hf0.trans hfr).trans ((hl.1.mono (by omega) (Nat.le_refl _)).trans hfin.1), hfin.2⟩

theorem partitionEqualScanI_spec (data : EventListeners) (a j : Nat) (hj : j < data.length)
    (ha : a < data.length) :
    ∀ (fuel i : Nat), j + 1 - i ≤ fuel → i ≤ j + 1 →
      i ≤ partitionEqualScanI data a j fuel i ∧ partitionEqualScanI data a j fuel i ≤ j + 1 ∧
      (∀ k, i ≤ k → k < partitionEqualScanI data a j fuel i → prio data a ≤ prio data k) ∧
      (partitionEqualScanI data a j fuel i ≤ j →
        prio data (partitionEqualScanI data a j fuel i) < prio data a) := by
  intro fuel
  induction fuel with
  | zero =>
    intro i hf hij
    unfold partitionEqualScanI
    exact ⟨Nat.le_refl _, hij, by intro k h1 h2; omega, by intro h; omega⟩
  | succ fuel ih =>
    intro i hf hij
    unfold partitionEqualScanI
    by_cases hc : (decide (i ≤ j) && !data.Less a i) = true
    · rw [if_pos hc]
      simp only [Bool.and_eq_true, decide_eq_true_eq, Bool.not_eq_true'] at hc
      obtain ⟨h1, h2⟩ := hc
      rw [Less_eq_false_iff data ha (by omega)] at h2
      obtain ⟨i1, i2, i3, i4⟩ := ih (i + 1) (by omega) (by omega)
      refine ⟨by omega, i2, ?_, i4⟩
      intro k hk1 hk2
      by_cases hki : k = i
      · subst hki; exact h2
      · exact i3 k (by omega) hk2
    · rw [if_neg hc]
      simp only [Bool.and_eq_true, decide_eq_true_eq, not_and, Bool.not_eq_true,
        Bool.not_eq_false', Bool.not_eq_true'] at hc
      refine ⟨Nat.le_refl _, hij, by intro k h1 h2; omega, ?_⟩
      intro h
      have := hc h
      simp only [Bool.not_eq_false] at this
      rwa [Less_iff data ha (by omega)] at this

theorem partitionEqualScanJ_spec (data : EventListeners) (a i : Nat) (ha : a < data.length)
    (hi : 0 < i) :
    ∀ (j : Nat), j < data.length → i ≤ j + 1 →
      partitionEqualScanJ data a i j ≤ j ∧ i ≤ partitionEqualScanJ data a i j + 1 ∧
      (∀ k, partitionEqualScanJ data a i j < k → k ≤ j → prio data k < prio data a) ∧
      (i ≤ partitionEqualScanJ data a i j →
        prio data a ≤ prio data (partitionEqualScanJ data a i j)) := by
  intro j
  induction j with
  | zero =>
    intro _ hij
    unfold partitionEqualScanJ
    exact ⟨Nat.le_refl _, hij, by intro k h1 h2; omega, by intro h; omega⟩
  | succ j ih =>
    intro hj hij
    unfold partitionEqualScanJ
    by_cases hc : (decide (i ≤ j + 1) && data.Less a (j + 1)) = true
    · rw [if_pos hc]
      simp only [Bool.and_eq_true, decide_eq_true_eq] at hc
      obtain ⟨h1, h2⟩ := hc
      rw [Less_iff data ha hj] at h2
      obtain ⟨i1, i2, i3, i4⟩ := ih (by omega) (by omega)
      refine ⟨by omega, i2, ?_, i4⟩
      intro k hk1 hk2
      by_cases hkj : k = j + 1
      · subst hkj; exact h2
      · exact i3 k hk1 (by omega)
    · rw [if_neg hc]
      simp only [Bool.and_eq_true, decide_eq_true_eq, not_and, Bool.not_eq_true] at hc
      refine ⟨Nat.le_refl _, hij, by intro k h1 h2; omega, ?_⟩
      intro h
      have := hc h
      rwa [Less_eq_false_iff data ha hj] at this

theorem partitionEqualLoop_spec (a b : Nat) :
    ∀ (fuel : Nat) (data : EventListeners) (i j : Nat), j + 1 - i ≤ fuel → a < i → i ≤ j + 1 →
      j < b → b ≤ data.length →
      (∀ k, a < k → k < i → prio data a ≤ prio data k) →
      (∀ k, j < k → k < b → prio data k < prio data a) →
      Frame (a + 1) b data (partitionEqualLoop a fuel data i j).1 ∧
        a < (partitionEqualLoop a fuel data i j).2 ∧ (partitionEqualLoop a fuel data i j).2 ≤ b ∧
        (∀ k, a < k → k < (partitionEqualLoop a fuel data i j).2 →
          prio data a ≤ prio (partitionEqualLoop a fuel data i j).1 k) ∧
        (∀ k, (partitionEqualLoop a fuel data i j).2 ≤ k → k < b →
          prio (partitionEqualLoop a fuel data i j).1 k < prio data a) := by
  intro fuel
  induction fuel with
  | zero =>
    intro data i j hf hai hij hjb hb hl hr
    unfold partitionEqualLoop
    exact ⟨Frame.refl _ _ _, hai, by omega, hl, fun k h1 h2 => hr k (by omega) h2⟩
  | succ fuel ih =>
    intro data i j hf hai hij hjb hb hl hr
    unfold partitionEqualLoop
    simp only []
    obtain ⟨i1, i2, i3, i4⟩ :=
      partitionEqualScanI_spec data a j (by omega) (by omega) (j + 1 - i) i (Nat.le_refl _) hij
    generalize partitionEqualScanI data a j (j + 1 - i) i = i' at i1 i2 i3 i4 ⊢
    obtain ⟨j1, j2, j3, j4⟩ :=
      partitionEqualScanJ_spec data a i' (by omega) (by omega) j (by omega) i2
    generalize partitionEqualScanJ data a i' j = j' at j1 j2 j3 j4 ⊢
    by_cases hc : i' > j'
    · rw [if_pos hc]
      refine ⟨Frame.refl _ _ _, by omega, by omega, ?_, ?_⟩
      · intro k h1 h2
        by_cases hk : k < i
        · exact hl k h1 hk
        · exact i3 k (by omega) (by omega)
      · intro k h1 h2
        by_cases hk : j < k
        · exact hr k hk h2
        · exact j3 k (by omega) (by omega)
    · rw [if_neg hc]
      have hi4 := i4 (by omega)
      have hj4 := j4 (by omega)
      have hne : i' ≠ j' := by
        intro h; subst h; omega
      have hil : i' < data.length := by omega
      have hjl : j' < data.length := by omega
      have hsw := prio_Swap data hil hjl
      have hfr : Frame (a + 1) b data (data.Swap i' j') :=
        Frame.swap data (by omega) (by omega) (by omega) (by omega) hb
      have hpa : prio (data.Swap i' j') a = prio data a := hfr.out a (by omega)
      have := ih (data.Swap i' j') (i' + 1) (j' - 1) (by omega) (by omega) (by omega) (by omega)
        (by rw [Swap_length]; exact hb)
        (by
          intro k h1 h2
          rw [hpa, hsw k]
          have hk1 : k ≠ j' := by omega
          simp only [hk1, if_false]
          by_cases hk2 : k = i'
          · simp only [hk2, if_true]; exact hj4
          · simp only [hk2, if_false]
            by_cases hk : k < i
            · exact hl k h1 hk
            · exact i3 k (by omega) (by omega))
        (by
          intro k h1 h2
          rw [hpa, hsw k]
          have hk2 : k ≠ i' := by omega
          by_cases hk1 : k = j'
          · simp only [hk1, if_true]; exact hi4
          · simp only [hk1, hk2, if_false]
            by_cases hk : j < k
            · exact hr k hk h2
            · exact j3 k (by omega) (by omega))
      rw [hpa] at this
      exact ⟨hfr.trans this.1, this.2⟩

theorem partitionEqual_spec (data : EventListeners) (a b pivot : Nat) (hap : a ≤ pivot)
    (hpb : pivot < b) (hb : b ≤ data.length) :
    Frame a b data (partitionEqual data a b pivot).1 ∧
      a < (partitionEqual data a b pivot).2 ∧ (partitionEqual data a b pivot).2 ≤ b ∧
      (∀ k, a ≤ k → k < (partitionEqual data a b pivot).2 →
        prio data pivot ≤ prio (partitionEqual data a b pivot).1 k) ∧
      (∀ k, (partitionEqual data a b pivot).2 ≤ k → k < b →
        prio (partitionEqual data a b pivot).1 k < prio data pivot) := by
  unfold partitionEqual
  simp only []
  have hf0 : Frame a b data (data.Swap a pivot) :=
    Frame.swap data (Nat.le_refl _) (by omega) hap hpb hb
  have hlen0 : (data.Swap a pivot).length = data.length := Swap_length _ _ _
  have hpa : prio (data.Swap a pivot) a = prio data pivot := by
    rw [prio_Swap data (by omega) (by omega)]
    by_cases h : a = pivot
    · simp [h]
    · simp [h]
  generalize data.Swap a pivot = d0 at hf0 hlen0 hpa ⊢
  obtain ⟨h1, h2, h3, h4, h5⟩ := partitionEqualLoop_spec a b (b - a + 1) d0 (a + 1) (b - 1)
    (by omega) (by omega) (by omega) (by omega) (by omega) (by intro k _ _; omega)
    (by intro k _ _; omega)
  rw [hpa] at h4 h5
  refine ⟨hf0.trans (h1.mono (by omega) (Nat.le_refl _)), h2, h3, ?_, h5⟩
  intro k hk1 hk2
  by_cases hka : k = a
  · subst hka
    rw [h1.out k (by omega), hpa]
  · exact h4 k (by omega) hk2

theorem siftDown_spec (hi first lo : Nat) :
    ∀ (fuel : Nat) (data : EventListeners) (root : Nat), hi - root ≤ fuel → lo ≤ root →
      first + hi ≤ data.length →
      (∀ p c, lo ≤ p → p ≠ root → c < hi → (c = 2 * p + 1 ∨ c = 2 * p + 2) →
        prio data (first + p) ≤ prio data (first + c)) →
      (∀ p c, lo ≤ p → (root = 2 * p + 1 ∨ root = 2 * p + 2) → c < hi →
        (c = 2 * root + 1 ∨ c = 2 * root + 2) → prio data (first + p) ≤ prio data (first + c)) →
      Frame (first + lo) (first + hi) data (siftDown hi first fuel data root) ∧
        HeapFrom first lo hi (siftDown hi first fuel data root) := by
  intro fuel
  induction fuel with
  | zero =>
    intro data root hf hlo hlen hA hB
    unfold siftDown
    refine ⟨Frame.refl _ _ _, ?_⟩
    intro p c h1 h2 h3
    exact hA p c h1 (by omega) h2 h3
  | succ fuel ih =>
    intro data root hf hlo hlen hA hB
    unfold siftDown
    simp only []
    by_cases hc : 2 * root + 1 ≥ hi
    · rw [if_pos hc]
      refine ⟨Frame.refl _ _ _, ?_⟩
      intro p c h1 h2 h3
      exact hA p c h1 (by omega) h2 h3
    · rw [if_neg hc]
      have hch : ∃ ch, (if (decide (2 * root + 1 + 1 < hi) &&
            data.Less (first + (2 * root + 1)) (first + (2 * root + 1) + 1)) = true
            then 2 * root + 1 + 1 else 2 * root + 1) = ch ∧
          (ch = 2 * root + 1 ∨ ch = 2 * root + 2) ∧ ch < hi ∧
          (∀ c, c < hi → (c = 2 * root + 1 ∨ c = 2 * root + 2) →
            prio data (first + ch) ≤ prio data (first + c)) := by
        have e : first + (2 * root + 1) + 1 = first + (2 * root + 2) := by omega
        rw [e]
        by_cases h2 : (decide (2 * root + 1 + 1 < hi) &&
            data.Less (first + (2 * root + 1)) (first + (2 * root + 2))) = true
        · rw [if_pos h2]
          simp only [Bool.and_eq_true, decide_eq_true_eq] at h2
          obtain ⟨h3, h4⟩ := h2
          rw [Less_iff data (by omega) (by omega)] at h4
          refine ⟨2 * root + 2, by omega, by omega, by omega, ?_⟩
          intro c hc1 hc2
          rcases hc2 with hc2 | hc2
          · subst hc2; omega
          · subst hc2; exact Int.le_refl _
        · rw [if_neg h2]
          simp only [Bool.and_eq_true, decide_eq_true_eq, not_and, Bool.not_eq_true] at h2
          refine ⟨_, rfl, by omega, by omega, ?_⟩
          intro c hc1 hc2
          rcases hc2 with hc2 | hc2
          · subst hc2; exact Int.le_refl _
          · subst hc2
            have := h2 (by omega)
            rw [Less_eq_false_iff data (by omega) (by omega)] at this
            exact this
      obtain ⟨ch, hche, hch1, hch2, hch3⟩ := hch
      rw [hche]
      by_cases hl : (!data.Less (first + root) (first + ch)) = true
      · rw [if_pos hl]
        simp only [Bool.not_eq_true'] at hl
        rw [Less_eq_false_iff data (by omega) (by omega)] at hl
        refine ⟨Frame.refl _ _ _, ?_⟩
        intro p c h1 h2 h3
        by_cases hpr : p = root
        · subst hpr
          have := hch3 c h2 h3
          omega
        · exact hA p c h1 hpr h2 h3
      · rw [if_neg hl]
        simp only [Bool.not_eq_true', Bool.not_eq_false] at hl
        rw [Less_iff data (by omega) (by omega)] at hl
        have hrl : first + root < data.length := by omega
        have hcl : first + ch < data.length := by omega
        have hsw := prio_Swap data hrl hcl
        have hfr : Frame (first + lo) (first + hi) data
            (data.Swap (first + root) (first + ch)) :=
          Frame.swap data (by omega) (by omega) (by omega) (by omega) hlen
        have := ih (data.Swap (first + root) (first + ch)) ch (by omega) (by omega)
          (by rw [Swap_length]; exact hlen)
          (by
            intro p c h1 h2 h3 h4
            rw [hsw (first + p), hsw (first + c)]
            by_cases hpr : p = root
            · subst hpr
              have e3 := hch3 c h3 h4
              split_ifs <;> omega
            · have e1 := hA p c h1 hpr h3 h4
              by_cases hcr : c = root
              · subst hcr
                have e2 := hB p ch h1 h4 hch2 hch1
                split_ifs <;> omega
              · have hcc : c ≠ ch := by omega
                split_ifs <;> omega)
          (by
            intro p c h1 h2 h3 h4
            rw [hsw (first + p), hsw (first + c)]
            have e1 := hA ch c (by omega) (by omega) h3 h4
            split_ifs <;> omega)
        exact ⟨hfr.trans this.1, this.2⟩

theorem heapSortBuild_spec (hi first : Nat) :
    ∀ (n : Nat) (data : EventListeners), first + hi ≤ data.length → HeapFrom first n hi data →
      Frame first (first + hi) data (heapSortBuild hi first n data) ∧
        HeapFrom first 0 hi (heapSortBuild hi first n data) := by
  intro n
  induction n with
  | zero =>
    intro data _ h
    unfold heapSortBuild
    exact ⟨Frame.refl _ _ _, h⟩
  | succ i ih =>
    intro data hlen h
    unfold heapSortBuild
    have hs := siftDown_spec hi first i hi data i (by omega) (Nat.le_refl _) hlen
      (by
        intro p c h1 h2 h3 h4
        exact h p c (by omega) h3 h4)
      (by intro p c h1 h2 h3 h4; omega)
    have := ih (siftDown hi first hi data i) (by rw [hs.1.len]; exact hlen) hs.2
    exact ⟨(hs.1.mono (by omega) (Nat.le_refl _)).trans this.1, this.2⟩

theorem HeapFrom.root_le {first hi : Nat} {data : EventListeners}
    (h : HeapFrom first 0 hi data) : ∀ p, p < hi → prio data (first + 0) ≤ prio data (first + p) := by
  intro p
  induction p using Nat.strong_induction_on with
  | _ p ih =>
    intro hp
    by_cases hp0 : p = 0
    · subst hp0; exact Int.le_refl _
    · have h1 := ih ((p - 1) / 2) (by omega) (by omega)
      have h2 := h ((p - 1) / 2) p (Nat.zero_le _) hp (by omega)
      omega

theorem heapSortPop_spec (first hi : Nat) :
    ∀ (n : Nat) (data : EventListeners), n ≤ hi → first + hi ≤ data.length →
      HeapFrom first 0 n data → SortedOn (first + n) (first + hi) data →
      (∀ p q, p < n → n ≤ q → q < hi → prio data (first + q) ≤ prio data (first + p)) →
      Frame first (first + hi) data (heapSortPop first n data) ∧
        SortedOn first (first + hi) (heapSortPop first n data) := by
  intro n
  induction n with
  | zero =>
    intro data _ _ _ hs _
    unfold heapSortPop
    exact ⟨Frame.refl _ _ _, by simpa using hs⟩
  | succ i ih =>
    intro data hn hlen hh hs hx
    unfold heapSortPop
    have hroot := hh.root_le
    have hsw := prio_Swap data (i := first) (j := first + i) (by omega) (by omega)
    have hfr : Frame first (first + (i + 1)) data (data.Swap first (first + i)) :=
      Frame.swap data (by omega) (by omega) (by omega) (by omega) (by omega)
    have hlen1 : first + hi ≤ (data.Swap first (first + i)).length := by
      rw [Swap_length]; exact hlen
    have hsd := siftDown_spec i first 0 i (data.Swap first (first + i)) 0 (by omega)
      (Nat.le_refl _) (by omega)
      (by
        intro p c h1 h2 h3 h4
        rw [hsw (first + p), hsw (first + c)]
        have := hh p c (by omega) (by omega) h4
        split_ifs <;> omega)
      (by intro p c h1 h2 h3 h4; omega)
    have hfr2 : Frame first (first + i) (data.Swap first (first + i))
        (siftDown i first i (data.Swap first (first + i)) 0) := by
      simpa using hsd.1
    have hnew : ∀ k, first ≤ k → k < first + i →
        prio data first ≤ prio (siftDown i first i (data.Swap first (first + i)) 0) k := by
      apply hfr2.bound (fun x => prio data first ≤ x)
      intro k h1 h2
      rw [hsw k]
      have e1 := hroot (k - first) (by omega)
      have e2 := hroot i (by omega)
      have e3 : first + (k - first) = k := by omega
      rw [e3] at e1
      simp only [Nat.add_zero] at e1 e2
      split_ifs <;> omega
    have hout : ∀ k, first + i ≤ k →
        prio (siftDown i first i (data.Swap first (first + i)) 0) k =
          if k = first + i then prio data first else prio data k := by
      intro k hk
      rw [hfr2.out k (by omega), hsw k]
      by_cases h1 : k = first + i
      · simp [h1]
      · have h2 : k ≠ first := by omega
        simp [h1, h2]
    have := ih (siftDown i first i (data.Swap first (first + i)) 0) (by omega)
      (by rw [hfr2.len]; exact hlen1) (by simpa using hsd.2)
      (by
        intro p q h1 h2 h3
        rw [hout p (by omega), hout q (by omega)]
        have e1 := hs p q
        have e2 := hx 0 (q - first) (by omega) (by omega) (by omega)
        have e3 : first + (q - first) = q := by omega
        rw [e3] at e2
        simp only [Nat.add_zero] at e2
        split_ifs <;> omega)
      (by
        intro p q h1 h2 h3
        rw [hout (first + q) (by omega)]
        have e1 := hnew (first + p) (by omega) (by omega)
        by_cases hq : q = i
        · subst hq
          simpa using e1
        · have e2 := hx 0 q (by omega) (by omega) (by omega)
          simp only [Nat.add_zero] at e2
          have e3 := hfr2.inn (first + p) (by omega) (by omega)
          obtain ⟨k', k1, k2, k3⟩ := e3
          rw [k3, hsw k']
          have e4 := hx (k' - first) q (by omega) (by omega) (by omega)
          have e5 : first + (k' - first) = k' := by omega
          rw [e5] at e4
          have e6 := hx i q (by omega) (by omega) (by omega)
          split_ifs <;> omega)
    exact ⟨(hfr.mono (Nat.le_refl _) (by omega)).trans
      ((hfr2.mono (Nat.le_refl _) (by omega)).trans this.1), this.2⟩

theorem heapSort_spec (data : EventListeners) (a b : Nat) (hab : a ≤ b) (hb : b ≤ data.length) :
    Frame a b data (heapSort data a b) ∧ SortedOn a b (heapSort data a b) := by
  unfold heapSort
  simp only []
  have hbuild := heapSortBuild_spec (b - a) a ((b - a - 1) / 2 + 1) data (by omega)
    (by intro p c h1 h2 h3; omega)
  have hpop := heapSortPop_spec a (b - a) (b - a)
    (heapSortBuild (b - a) a ((b - a - 1) / 2 + 1) data) (Nat.le_refl _)
    (by rw [hbuild.1.len]; omega) hbuild.2 (by intro p q _ _ _; omega)
    (by intro p q _ _ _; omega)
  have e : a + (b - a) = b := by omega
  rw [e] at hbuild hpop
  exact ⟨hbuild.1.trans hpop.1, hpop.2⟩

theorem reverseRangeLoop_spec (a b : Nat) :
    ∀ (fuel i j : Nat) (data : EventListeners), a ≤ i → j < b → b ≤ data.length →
      Frame a b data (reverseRangeLoop fuel i j data) := by
  intro fuel
  induction fuel with
  | zero => intro i j data _ _ _; exact Frame.refl _ _ _
  | succ fuel ih =>
    intro i j data hi hj hb
    unfold reverseRangeLoop
    by_cases hc : i < j
    · rw [if_pos hc]
      have hfr : Frame a b data (data.Swap i j) :=
        Frame.swap data hi (by omega) (by omega) hj hb
      exact hfr.trans (ih (i + 1) (j - 1) (data.Swap i j) (by omega) (by omega)
        (by rw [Swap_length]; exact hb))
    · rw [if_neg hc]
      exact Frame.refl _ _ _

theorem reverseRange_spec (data : EventListeners) (a b : Nat) (hab : a < b)
    (hb : b ≤ data.length) : Frame a b data (reverseRange data a b) :=
  reverseRangeLoop_spec a b (b - a) a (b - 1) data (Nat.le_refl _) (by omega) hb

theorem bitsLen_pow_le : ∀ (fuel x : Nat), x ≤ fuel → 0 < x → 2 ^ bitsLen fuel x ≤ 2 * x := by
  intro fuel
  induction fuel with
  | zero => intro x h1 h2; omega
  | succ fuel ih =>
    intro x h1 h2
    unfold bitsLen
    rw [if_neg (by omega)]
    by_cases hx : x / 2 = 0
    · rw [hx]
      have : bitsLen fuel 0 = 0 := by
        cases fuel <;> simp [bitsLen]
      rw [this]
      omega
    · have := ih (x / 2) (by omega) (by omega)
      rw [Nat.pow_succ]
      omega

theorem bitsLen_lt_pow : ∀ (fuel x : Nat), x ≤ fuel → x < 2 ^ bitsLen fuel x := by
  intro fuel
  induction fuel with
  | zero => intro x h; simp [bitsLen]; omega
  | succ fuel ih =>
    intro x h
    unfold bitsLen
    by_cases hx : x = 0
    · rw [if_pos hx]; omega
    · rw [if_neg hx]
      have := ih (x / 2) (by omega)
      rw [Nat.pow_succ]
      omega

/-- The fuel given to the loop of `reverseRange` is never used up: more fuel gives the same
slice. -/
theorem reverseRangeLoop_fuel :
    ∀ (fuel i j : Nat) (data : EventListeners) (extra : Nat), j - i ≤ fuel →
      reverseRangeLoop (fuel + extra) i j data = reverseRangeLoop fuel i j data := by
  intro fuel
  induction fuel with
  | zero =>
    intro i j data extra h
    cases extra with
    | zero => rfl
    | succ extra =>
      rw [Nat.zero_add]
      unfold reverseRangeLoop
      rw [if_neg (by omega)]
  | succ fuel ih =>
    intro i j data extra h
    have e : fuel + 1 + extra = (fuel + extra) + 1 := by omega
    rw [e]
    unfold reverseRangeLoop
    by_cases hc : i < j
    · rw [if_pos hc, if_pos hc]
      exact ih (i + 1) (j - 1) _ extra (by omega)
    · rw [if_neg hc, if_neg hc]

theorem breakPatternsLoop_spec (a b length modulus idx : Nat) (hl : a + length = b)
    (hm : modulus ≤ 2 * length) (hl0 : 0 < length) (hidx1 : a + 1 ≤ idx) (hidx2 : idx + 1 < b) :
    ∀ (n random : Nat) (data : EventListeners), n ≤ 3 → b ≤ data.length →
      Frame a b data (breakPatternsLoop a length modulus idx n random data) := by
  intro n
  induction n with
  | zero => intro random data _ _; exact Frame.refl _ _ _
  | succ n ih =>
    intro random data hn hb
    unfold breakPatternsLoop
    simp only []
    have hand : xorshiftNext random &&& (modulus - 1) ≤ modulus - 1 := Nat.and_le_right
    generalize xorshiftNext random &&& (modulus - 1) = other at hand
    have hfr : Frame a b data (data.Swap (idx - 1 + (2 - n))
        (a + if other ≥ length then other - length else other)) := by
      apply Frame.swap data (by omega) (by omega) (by omega) _ hb
      split_ifs <;> omega
    exact hfr.trans (ih _ _ (by omega) (by rw [Swap_length]; exact hb))

theorem breakPatterns_spec (data : EventListeners) (a b : Nat) (hab : a ≤ b)
    (hb : b ≤ data.length) : Frame a b data (breakPatterns data a b) := by
  unfold breakPatterns
  simp only []
  by_cases hc : b - a ≥ 8
  · rw [if_pos hc]
    apply breakPatternsLoop_spec a b (b - a) _ _ (by omega) _ (by omega) (by omega) (by omega)
      3 _ data (Nat.le_refl _) hb
    exact bitsLen_pow_le _ _ (Nat.le_refl _) (by omega)
  · rw [if_neg hc]
    exact Frame.refl _ _ _

theorem order2_mem (data : EventListeners) (x y s : Nat) :
    ((order2 data x y s).1 = x ∧ (order2 data x y s).2.1 = y) ∨
      ((order2 data x y s).1 = y ∧ (order2 data x y s).2.1 = x) := by
  unfold order2
  split_ifs <;> simp

theorem median_mem (data : EventListeners) (x y z s : Nat) :
    (median data x y z s).1 = x ∨ (median data x y z s).1 = y ∨ (median data x y z s).1 = z := by
  unfold median
  simp only []
  have h1 := order2_mem data x y s
  have h2 := order2_mem data (order2 data x y s).2.1 z (order2 data x y s).2.2
  have h3 := order2_mem data (order2 data x y s).1
    (order2 data (order2 data x y s).2.1 z (order2 data x y s).2.2).1
    (order2 data (order2 data x y s).2.1 z (order2 data x y s).2.2).2.2
  generalize (order2 data (order2 data x y s).1
    (order2 data (order2 data x y s).2.1 z (order2 data x y s).2.2).1
    (order2 data (order2 data x y s).2.1 z (order2 data x y s).2.2).2.2) = r3 at h3 ⊢
  generalize (order2 data (order2 data x y s).2.1 z (order2 data x y s).2.2) = r2 at h2 h3 ⊢
  generalize (order2 data x y s) = r1 at h1 h2 h3 ⊢
  omega

theorem choosePivot_bound (data : EventListeners) (a b : Nat) (hab : 12 < b - a) :
    a ≤ (choosePivot data a b).1 ∧ (choosePivot data a b).1 < b := by
  have key : ∀ r : Nat × Nat, (a ≤ r.1 ∧ r.1 < b) →
      (a ≤ (if r.2 = 0 then (r.1, sortedHint.increasingHint)
        else if r.2 = 12 then (r.1, sortedHint.decreasingHint)
        else (r.1, sortedHint.unknownHint)).1 ∧
      (if r.2 = 0 then (r.1, sortedHint.increasingHint)
        else if r.2 = 12 then (r.1, sortedHint.decreasingHint)
        else (r.1, sortedHint.unknownHint)).1 < b) := by
    intro r hr
    split_ifs <;> exact hr
  unfold choosePivot
  simp only []
  apply key
  rw [if_pos (by omega)]
  by_cases h50 : b - a ≥ 50
  · rw [if_pos h50]
    unfold medianAdjacent
    have m1 := median_mem data (a + (b - a) / 4 * 1 - 1) (a + (b - a) / 4 * 1)
      (a + (b - a) / 4 * 1 + 1) 0
    generalize median data (a + (b - a) / 4 * 1 - 1) (a + (b - a) / 4 * 1)
      (a + (b - a) / 4 * 1 + 1) 0 = ri at m1 ⊢
    have m2 := median_mem data (a + (b - a) / 4 * 2 - 1) (a + (b - a) / 4 * 2)
      (a + (b - a) / 4 * 2 + 1) ri.2
    generalize median data (a + (b - a) / 4 * 2 - 1) (a + (b - a) / 4 * 2)
      (a + (b - a) / 4 * 2 + 1) ri.2 = rj at m2 ⊢
    have m3 := median_mem data (a + (b - a) / 4 * 3 - 1) (a + (b - a) / 4 * 3)
      (a + (b - a) / 4 * 3 + 1) rj.2
    generalize median data (a + (b - a) / 4 * 3 - 1) (a + (b - a) / 4 * 3)
      (a + (b - a) / 4 * 3 + 1) rj.2 = rk at m3 ⊢
    have m4 := median_mem data ri.1 rj.1 rk.1 rk.2
    generalize median data ri.1 rj.1 rk.1 rk.2 = r at m4 ⊢
    omega
  · rw [if_neg h50]
    have m4 := median_mem data (a + (b - a) / 4 * 1) (a + (b - a) / 4 * 2)
      (a + (b - a) / 4 * 3) 0
    generalize median data (a + (b - a) / 4 * 1) (a + (b - a) / 4 * 2)
      (a + (b - a) / 4 * 3) 0 = r at m4 ⊢
    omega

theorem LowerBound.frame {a b : Nat} {l r : EventListeners} (h : LowerBound a b l)
    (hf : Frame a b l r) : LowerBound a b r := by
  intro ha
  rw [hf.out (a - 1) (by omega)]
  exact hf.bound (fun x => x ≤ prio l (a - 1)) (h ha)

theorem partialInsertionShiftLeft_eq (a b : Nat) :
    ∀ (j : Nat) (data : EventListeners), a ≤ j → j < b → b ≤ data.length →
      LowerBound a b data → partialInsertionShiftLeft j data = insertionSortInner a j data := by
  intro j
  induction j with
  | zero =>
    intro data _ _ _ _
    unfold partialInsertionShiftLeft insertionSortInner
    rfl
  | succ j ih =>
    intro data haj hjb hb hlb
    unfold partialInsertionShiftLeft insertionSortInner
    by_cases hgt : j + 1 > a
    · cases hl : data.Less (j + 1) j
      · simp
      · simp only [Bool.not_true, Bool.false_eq_true, if_false, hgt, decide_True, Bool.and_self,
          if_true]
        exact ih (data.Swap (j + 1) j) (by omega) (by omega) (by rw [Swap_length]; exact hb)
          (hlb.frame (Frame.swap data (by omega) (by omega) (by omega) (by omega) hb))
    · have haj' : a = j + 1 := by omega
      have := hlb (by omega) (j + 1) (by omega) hjb
      have e : a - 1 = j := by omega
      rw [e] at this
      have hl : data.Less (j + 1) j = false := by
        rw [Less_eq_false_iff data (by omega) (by omega)]
        exact this
      simp [hl]

theorem partialInsertionScan_spec (data : EventListeners) (a b : Nat) (hb : b ≤ data.length) :
    ∀ (fuel i : Nat), b - i ≤ fuel → a < i → i ≤ b → SortedOn a i data →
      i ≤ partialInsertionScan data b fuel i ∧ partialInsertionScan data b fuel i ≤ b ∧
      SortedOn a (partialInsertionScan data b fuel i) data ∧
      (partialInsertionScan data b fuel i < b →
        prio data (partialInsertionScan data b fuel i - 1) <
          prio data (partialInsertionScan data b fuel i)) := by
  intro fuel
  induction fuel with
  | zero =>
    intro i hf hai hib hs
    unfold partialInsertionScan
    exact ⟨Nat.le_refl _, hib, hs, by intro h; omega⟩
  | succ fuel ih =>
    intro i hf hai hib hs
    unfold partialInsertionScan
    by_cases hc : (decide (i < b) && !data.Less i (i - 1)) = true
    · rw [if_pos hc]
      simp only [Bool.and_eq_true, decide_eq_true_eq, Bool.not_eq_true'] at hc
      obtain ⟨h1, h2⟩ := hc
      rw [Less_eq_false_iff data (by omega) (by omega)] at h2
      obtain ⟨i1, i2, i3, i4⟩ := ih (i + 1) (by omega) (by omega) (by omega) (by
        intro p q hp hpq hq
        by_cases hqi : q = i
        · subst hqi
          by_cases hp1 : p = q - 1
          · subst hp1; exact h2
          · have := hs p (q - 1) hp (by omega) (by omega)
            omega
        · exact hs p q hp hpq (by omega))
      exact ⟨by omega, i2, i3, i4⟩
    · rw [if_neg hc]
      simp only [Bool.and_eq_true, decide_eq_true_eq, not_and, Bool.not_eq_true,
        Bool.not_eq_false', Bool.not_eq_true'] at hc
      refine ⟨Nat.le_refl _, hib, hs, ?_⟩
      intro h
      have := hc h
      simp only [Bool.not_eq_false] at this
      rwa [Less_iff data (by omega) (by omega)] at this

theorem partialInsertionShiftRight_spec (lo b : Nat) :
    ∀ (fuel j : Nat) (data : EventListeners), lo < j → b ≤ data.length →
      Frame lo b data (partialInsertionShiftRight b fuel j data) := by
  intro fuel
  induction fuel with
  | zero => intro j data _ _; exact Frame.refl _ _ _
  | succ fuel ih =>
    intro j data hj hb
    unfold partialInsertionShiftRight
    by_cases hc : j < b
    · rw [if_pos hc]
      by_cases hl : (!data.Less j (j - 1)) = true
      · rw [if_pos hl]; exact Frame.refl _ _ _
      · rw [if_neg hl]
        have hfr : Frame lo b data (data.Swap j (j - 1)) :=
          Frame.swap data (by omega) hc (by omega) (by omega) hb
        exact hfr.trans (ih (j + 1) _ (by omega) (by rw [Swap_length]; exact hb))
    · rw [if_neg hc]; exact Frame.refl _ _ _

theorem partialInsertionLoop_spec (a b : Nat) :
    ∀ (steps i : Nat) (data : EventListeners), a < i → i ≤ b → b ≤ data.length →
      SortedOn a i data → LowerBound a b data →
      Frame a b data (partialInsertionLoop a b steps i data).1 ∧
        ((partialInsertionLoop a b steps i data).2 = true →
          SortedOn a b (partialInsertionLoop a b steps i data).1) := by
  intro steps
  induction steps with
  | zero =>
    intro i data _ _ _ _ _
    unfold partialInsertionLoop
    exact ⟨Frame.refl _ _ _, by intro h; simp at h⟩
  | succ steps ih =>
    intro i data hai hib hb hs hlb
    unfold partialInsertionLoop
    simp only []
    obtain ⟨i1, i2, i3, i4⟩ :=
      partialInsertionScan_spec data a b hb (b - i) i (Nat.le_refl _) hai hib hs
    generalize partialInsertionScan data b (b - i) i = i' at i1 i2 i3 i4 ⊢
    by_cases he : i' = b
    · rw [if_pos he]
      subst he
      exact ⟨Frame.refl _ _ _, fun _ => i3⟩
    · rw [if_neg he]
      by_cases h50 : b - a < 50
      · rw [if_pos h50]
        exact ⟨Frame.refl _ _ _, by intro h; simp at h⟩
      · rw [if_neg h50]
        have hf1 : Frame a b data (data.Swap i' (i' - 1)) :=
          Frame.swap data (by omega) (by omega) (by omega) (by omega) hb
        have hsw := prio_Swap data (i := i') (j := i' - 1) (by omega) (by omega)
        have hlen1 : b ≤ (data.Swap i' (i' - 1)).length := by rw [Swap_length]; exact hb
        have hs1 : ∀ p q, a ≤ p → p < q → q + 1 < i' →
            prio (data.Swap i' (i' - 1)) q ≤ prio (data.Swap i' (i' - 1)) p := by
          intro p q hp hpq hq
          rw [hsw p, hsw q]
          have := i3 p q hp hpq (by omega)
          split_ifs <;> omega
        have hlb1 := hlb.frame hf1
        generalize data.Swap i' (i' - 1) = d1 at hf1 hlen1 hs1 hlb1 ⊢
        have h2 : Frame a b d1 (if i' - a ≥ 2 then partialInsertionShiftLeft (i' - 1) d1 else d1) ∧
            SortedOn a i' (if i' - a ≥ 2 then partialInsertionShiftLeft (i' - 1) d1 else d1) := by
          by_cases hc : i' - a ≥ 2
          · rw [if_pos hc]
            rw [partialInsertionShiftLeft_eq a b (i' - 1) d1 (by omega) (by omega) hlen1 hlb1]
            have := insertionSortInner_spec a (i' - 1) (i' - 1) d1 (by omega) (Nat.le_refl _)
              (by omega)
              (by
                intro p q hp hpq hq _ hq2
                exact hs1 p q hp hpq (by omega))
              (by intro q h1 h2; omega)
            have e : i' - 1 + 1 = i' := by omega
            rw [e] at this
            exact ⟨this.1.mono (Nat.le_refl _) (by omega), this.2⟩
          · rw [if_neg hc]
            exact ⟨Frame.refl _ _ _, by intro p q _ _ _; omega⟩
        obtain ⟨hf2, hs2⟩ := h2
        have hlb2 := hlb1.frame hf2
        have hlen2 : b ≤ (if i' - a ≥ 2 then partialInsertionShiftLeft (i' - 1) d1
            else d1).length := by rw [hf2.len]; exact hlen1
        generalize (if i' - a ≥ 2 then partialInsertionShiftLeft (i' - 1) d1 else d1) = d2
          at hf2 hs2 hlb2 hlen2 ⊢
        have hf3 : Frame i' b d2
            (if b - i' ≥ 2 then partialInsertionShiftRight b (b - i') (i' + 1) d2 else d2) := by
          by_cases hc : b - i' ≥ 2
          · rw [if_pos hc]
            exact partialInsertionShiftRight_spec i' b (b - i') (i' + 1) d2 (by omega) hlen2
          · rw [if_neg hc]
            exact Frame.refl _ _ _
        have hf3' : Frame a b d2
            (if b - i' ≥ 2 then partialInsertionShiftRight b (b - i') (i' + 1) d2 else d2) :=
          hf3.mono (by omega) (Nat.le_refl _)
        have hs3 : SortedOn a i'
            (if b - i' ≥ 2 then partialInsertionShiftRight b (b - i') (i' + 1) d2 else d2) := by
          intro p q hp hpq hq
          rw [hf3.out p (by omega), hf3.out q (by omega)]
          exact hs2 p q hp hpq hq
        have hlb3 := hlb2.frame hf3'
        have hlen3 : b ≤ (if b - i' ≥ 2 then partialInsertionShiftRight b (b - i') (i' + 1) d2
            else d2).length := by rw [hf3.len]; exact hlen2
        generalize (if b - i' ≥ 2 then partialInsertionShiftRight b (b - i') (i' + 1) d2
            else d2) = d3 at hf3' hs3 hlb3 hlen3 ⊢
        have := ih i' d3 (by omega) (by omega) hlen3 hs3 hlb3
        exact ⟨hf1.trans (hf2.trans (hf3'.trans this.1)), this.2⟩

theorem partialInsertionSort_spec (data : EventListeners) (a b : Nat) (hab : a < b)
    (hb : b ≤ data.length) (hlb : LowerBound a b data) :
    Frame a b data (partialInsertionSort data a b).1 ∧
      ((partialInsertionSort data a b).2 = true →
        SortedOn a b (partialInsertionSort data a b).1) :=
  partialInsertionLoop_spec a b 5 (a + 1) data (by omega) (by omega) hb
    (by intro p q _ _ _; omega) hlb

theorem SortedOn.join {a mid b : Nat} {d r : EventListeners} (hP : Parted a b d mid)
    (hmid : prio r mid = prio d mid)
    (hL : ∀ k, a ≤ k → k < mid → ∃ k', a ≤ k' ∧ k' < mid ∧ prio r k = prio d k')
    (hR : ∀ k, mid < k → k < b → ∃ k', mid < k' ∧ k' < b ∧ prio r k = prio d k')
    (h1 : SortedOn a mid r) (h2 : SortedOn (mid + 1) b r) : SortedOn a b r := by
  intro p q hp hpq hq
  by_cases c1 : q < mid
  · exact h1 p q hp hpq c1
  · by_cases c2 : mid < p
    · exact h2 p q (by omega) hpq hq
    · have ep : prio d mid ≤ prio r p := by
        by_cases c3 : p = mid
        · rw [c3, hmid]
        · obtain ⟨k', k1, k2, k3⟩ := hL p hp (by omega)
          rw [k3]
          have := hP.left k' k1 k2
          omega
      have eq : prio r q ≤ prio d mid := by
        by_cases c3 : q = mid
        · rw [c3, hmid]
        · obtain ⟨k', k1, k2, k3⟩ := hR q (by omega) hq
          rw [k3]
          exact hP.right k' k1 k2
      omega

theorem pdqsort_spec :
    ∀ (fuel : Nat) (data : EventListeners) (a b limit : Nat) (wasBalanced wasPartitioned : Bool),
      a ≤ b → b ≤ data.length → b - a < fuel → LowerBound a b data →
      Frame a b data (pdqsort fuel data a b limit wasBalanced wasPartitioned) ∧
        SortedOn a b (pdqsort fuel data a b limit wasBalanced wasPartitioned) := by
  intro fuel
  induction fuel with
  | zero => intro data a b _ _ _ _ _ h _; omega
  | succ fuel ih =>
    intro data a b limit wb wp hab hb hf hlb
    rw [pdqsort]
    simp only []
    by_cases h12 : b - a ≤ 12
    · rw [if_pos h12]
      exact insertionSort_spec data a b hb
    rw [if_neg h12]
    by_cases hl0 : limit = 0
    · rw [if_pos hl0]
      exact heapSort_spec data a b hab hb
    rw [if_neg hl0]
    -- breakPatterns
    have hA : Frame a b data (if (!wb) = true then breakPatterns data a b else data) := by
      split_ifs
      · exact breakPatterns_spec data a b hab hb
      · exact Frame.refl _ _ _
    generalize (if (!wb) = true then breakPatterns data a b else data) = dA at hA ⊢
    generalize (if (!wb) = true then limit - 1 else limit) = limit1
    -- choosePivot
    have hp := choosePivot_bound dA a b (by omega)
    generalize choosePivot dA a b = ph at hp ⊢
    have hB : Frame a b dA (if ph.2 = sortedHint.decreasingHint then reverseRange dA a b
        else dA) := by
      split_ifs
      · exact reverseRange_spec dA a b (by omega) (by rw [hA.len]; exact hb)
      · exact Frame.refl _ _ _
    generalize (if ph.2 = sortedHint.decreasingHint then reverseRange dA a b else dA) = dB
      at hB ⊢
    have hpv : a ≤ (if ph.2 = sortedHint.decreasingHint then b - 1 - (ph.1 - a) else ph.1) ∧
        (if ph.2 = sortedHint.decreasingHint then b - 1 - (ph.1 - a) else ph.1) < b := by
      split_ifs <;> omega
    generalize (if ph.2 = sortedHint.decreasingHint then b - 1 - (ph.1 - a) else ph.1) = pivot
      at hpv ⊢
    generalize (wb && wp && decide ((if ph.2 = sortedHint.decreasingHint
      then sortedHint.increasingHint else ph.2) = sortedHint.increasingHint)) = tp
    have hAB := hA.trans hB
    have hlenB : b ≤ dB.length := by rw [hAB.len]; exact hb
    have hlbB := hlb.frame hAB
    clear hA hB
    have hC : Frame a b dB (if tp = true then partialInsertionSort dB a b else (dB, false)).1 ∧
        ((if tp = true then partialInsertionSort dB a b else (dB, false)).2 = true →
          SortedOn a b (if tp = true then partialInsertionSort dB a b else (dB, false)).1) := by
      split_ifs
      · exact partialInsertionSort_spec dB a b (by omega) hlenB hlbB
      · exact ⟨Frame.refl _ _ _, by intro h; simp at h⟩
    generalize (if tp = true then partialInsertionSort dB a b else (dB, false)) = pis at hC ⊢
    obtain ⟨hC1, hC2⟩ := hC
    have hAC := hAB.trans hC1
    by_cases hdone : pis.2 = true
    · rw [if_pos hdone]
      exact ⟨hAC, hC2 hdone⟩
    rw [if_neg hdone]
    have hlenC : b ≤ pis.1.length := by rw [hAC.len]; exact hb
    have hlbC := hlb.frame hAC
    generalize pis.1 = dC at hAC hlenC hlbC ⊢
    clear hC1 hC2 hdone hAB hlenB hlbB
    by_cases heq : (decide (a > 0) && !dC.Less (a - 1) pivot) = true
    · rw [if_pos heq]
      simp only [Bool.and_eq_true, decide_eq_true_eq, Bool.not_eq_true'] at heq
      obtain ⟨ha0, hless⟩ := heq
      rw [Less_eq_false_iff dC (by omega) (by omega)] at hless
      obtain ⟨e1, e2, e3, e4, e5⟩ := partitionEqual_spec dC a b pivot hpv.1 hpv.2 hlenC
      have hup : ∀ k, a ≤ k → k < b → prio (partitionEqual dC a b pivot).1 k ≤ prio dC (a - 1) :=
        e1.bound (fun x => x ≤ prio dC (a - 1)) (hlbC ha0)
      generalize partitionEqual dC a b pivot = pe at e1 e2 e3 e4 e5 hup ⊢
      have hlenE : b ≤ pe.1.length := by rw [e1.len]; exact hlenC
      have hrec := ih pe.1 pe.2 b limit1 wb wp e3 hlenE (by omega)
        (by
          intro _ k hk1 hk2
          have := e5 k hk1 hk2
          have := e4 (pe.2 - 1) (by omega) (by omega)
          omega)
      refine ⟨hAC.trans (e1.trans (hrec.1.mono (by omega) (Nat.le_refl _))), ?_⟩
      intro p q hp hpq hq
      by_cases c1 : pe.2 ≤ p
      · exact hrec.2 p q c1 hpq hq
      · rw [hrec.1.out p (by omega)]
        have hp1 := e4 p hp (by omega)
        have hp2 := hup p hp (by omega)
        by_cases c2 : pe.2 ≤ q
        · obtain ⟨k', k1, k2, k3⟩ := hrec.1.inn q c2 hq
          rw [k3]
          have := e5 k' k1 k2
          omega
        · rw [hrec.1.out q (by omega)]
          have hq1 := e4 q (by omega) (by omega)
          have hq2 := hup q (by omega) (by omega)
          omega
    rw [if_neg heq]
    clear heq
    obtain ⟨f1, f2⟩ := partition_spec dC a b pivot hpv.1 hpv.2 hlenC
    generalize partition dC a b pivot = pr at f1 f2 ⊢
    have hlenP : b ≤ pr.1.length := by rw [f1.len]; exact hlenC
    have hlbP := hlbC.frame f1
    have hAP := hAC.trans f1
    have hmlo := f2.lo
    have hmhi := f2.hi
    generalize pr.2.1 = mid at f2 hmlo hmhi ⊢
    generalize pr.2.2 = wp1
    generalize pr.1 = dP at f1 f2 hlenP hlbP hAP ⊢
    have hlbL : LowerBound a mid dP := fun h0 k hk1 hk2 => hlbP h0 k hk1 (by omega)
    have hlbR : LowerBound (mid + 1) b dP := by
      intro _ k hk1 hk2
      have := f2.right k (by omega) hk2
      simpa using this
    by_cases hside : mid - a < b - mid
    · rw [if_pos hside]
      generalize decide (mid - a ≥ (b - a) / 8) = wb1
      have r1 := ih dP a mid limit1 true true hmlo (by omega) (by omega) hlbL
      generalize pdqsort fuel dP a mid limit1 true true = d1 at r1 ⊢
      have r2 := ih d1 (mid + 1) b limit1 wb1 wp1 (by omega) (by rw [r1.1.len]; exact hlenP)
        (by omega)
        (by
          intro h0 k hk1 hk2
          rw [r1.1.out k (by omega), r1.1.out (mid + 1 - 1) (by omega)]
          exact hlbR h0 k hk1 hk2)
      generalize pdqsort fuel d1 (mid + 1) b limit1 wb1 wp1 = d2 at r2 ⊢
      refine ⟨hAP.trans ((r1.1.mono (Nat.le_refl _) (by omega)).trans
        (r2.1.mono (by omega) (Nat.le_refl _))), ?_⟩
      apply SortedOn.join f2
      · rw [r2.1.out mid (by omega), r1.1.out mid (by omega)]
      · intro k hk1 hk2
        obtain ⟨k', k1, k2, k3⟩ := r1.1.inn k hk1 hk2
        exact ⟨k', k1, k2, by rw [r2.1.out k (by omega), k3]⟩
      · intro k hk1 hk2
        obtain ⟨k', k1, k2, k3⟩ := r2.1.inn k (by omega) hk2
        exact ⟨k', by omega, k2, by rw [k3, r1.1.out k' (by omega)]⟩
      · intro p q hp hpq hq
        rw [r2.1.out p (by omega), r2.1.out q (by omega)]
        exact r1.2 p q hp hpq hq
      · exact r2.2
    · rw [if_neg hside]
      generalize decide (b - mid ≥ (b - a) / 8) = wb1
      have r1 := ih dP (mid + 1) b limit1 true true (by omega) hlenP (by omega) hlbR
      generalize pdqsort fuel dP (mid + 1) b limit1 true true = d1 at r1 ⊢
      have r2 := ih d1 a mid limit1 wb1 wp1 hmlo (by rw [r1.1.len]; omega) (by omega)
        (by
          intro h0 k hk1 hk2
          rw [r1.1.out k (by omega), r1.1.out (a - 1) (by omega)]
          exact hlbL h0 k hk1 hk2)
      generalize pdqsort fuel d1 a mid limit1 wb1 wp1 = d2 at r2 ⊢
      refine ⟨hAP.trans ((r1.1.mono (by omega) (Nat.le_refl _)).trans
        (r2.1.mono (Nat.le_refl _) (by omega))), ?_⟩
      apply SortedOn.join f2
      · rw [r2.1.out mid (by omega), r1.1.out mid (by omega)]
      · intro k hk1 hk2
        obtain ⟨k', k1, k2, k3⟩ := r2.1.inn k hk1 hk2
        exact ⟨k', k1, k2, by rw [k3, r1.1.out k' (by omega)]⟩
      · intro k hk1 hk2
        obtain ⟨k', k1, k2, k3⟩ := r1.1.inn k (by omega) hk2
        exact ⟨k', by omega, k2, by rw [r2.1.out k (by omega), k3]⟩
      · exact r2.2
      · intro p q hp hpq hq
        rw [r2.1.out p (by omega), r2.1.out q (by omega)]
        exact r1.2 p q hp hpq hq

/-- Go `sort.Sort` returns a permutation of its input in which priorities never increase. -/
theorem sort_Sort_spec (data : EventListeners) :
    (sort_Sort data).Perm data ∧
      List.Pairwise (fun x y => x.Priority ≥ y.Priority) (sort_Sort data) := by
  have key : Frame 0 data.length data (sort_Sort data) ∧
      SortedOn 0 data.length (sort_Sort data) := by
    unfold sort_Sort EventListeners.Len
    simp only []
    by_cases h1 : data.length ≤ 1
    · rw [if_pos h1]
      exact ⟨Frame.refl _ _ _, by intro p q _ _ _; omega⟩
    · rw [if_neg h1]
      exact pdqsort_spec _ data 0 data.length _ true true (Nat.zero_le _) (Nat.le_refl _)
        (by omega) (by intro h; omega)
  refine ⟨key.1.perm, ?_⟩
  rw [List.pairwise_iff_getElem]
  intro i j hi hj hij
  have := key.2 i j (Nat.zero_le _) hij (by rw [← key.1.len]; exact hj)
  unfold prio at this
  rw [List.getElem?_eq_getElem hi, List.getElem?_eq_getElem hj] at this
  exact this

theorem stableInsert_append_of_lt (x y : ListenerPriority) (h : y.Priority < x.Priority) :
    ∀ p : EventListeners, stableInsert x (p ++ [y]) = stableInsert x p ++ [y] := by
  intro p
  induction p with
  | nil =>
    have : ¬ y.Priority ≥ x.Priority := by omega
    simp [stableInsert, this]
  | cons z p ih =>
    by_cases hz : z.Priority ≥ x.Priority
    · simp [stableInsert, hz, ih]
    · simp [stableInsert, hz]

theorem stableInsert_of_all_ge (x : ListenerPriority) :
    ∀ p : EventListeners, (∀ z ∈ p, z.Priority ≥ x.Priority) → stableInsert x p = p ++ [x] := by
  intro p
  induction p with
  | nil => intro _; rfl
  | cons z p ih =>
    intro h
    have hz : z.Priority ≥ x.Priority := h z (List.mem_cons_self _ _)
    simp [stableInsert, hz, ih (fun w hw => h w (List.mem_cons_of_mem _ hw))]

theorem getElem?_adjacent (pre post : EventListeners) (x y : ListenerPriority) :
    (pre ++ y :: x :: post)[pre.length]? = some y ∧
      (pre ++ y :: x :: post)[pre.length + 1]? = some x := by
  constructor
  · rw [List.getElem?_append_right (Nat.le_refl _)]
    simp
  · rw [List.getElem?_append_right (by omega)]
    simp

theorem Swap_adjacent (pre post : EventListeners) (x y : ListenerPriority) :
    EventListeners.Swap (pre ++ y :: x :: post) (pre.length + 1) pre.length =
      pre ++ x :: y :: post := by
  unfold EventListeners.Swap
  rw [(getElem?_adjacent pre post x y).1, (getElem?_adjacent pre post x y).2]
  simp [List.set_append]

theorem Less_adjacent (pre post : EventListeners) (x y : ListenerPriority) :
    EventListeners.Less (pre ++ y :: x :: post) (pre.length + 1) pre.length =
      decide (x.Priority > y.Priority) := by
  unfold EventListeners.Less
  rw [(getElem?_adjacent pre post x y).1, (getElem?_adjacent pre post x y).2]

theorem insertionSortInner_insert (x : ListenerPriority) :
    ∀ (pre post : EventListeners), SortedDesc pre →
      insertionSortInner 0 pre.length (pre ++ x :: post) = stableInsert x pre ++ post := by
  intro pre
  induction pre using List.reverseRecOn with
  | nil =>
    intro post _
    simp [insertionSortInner, stableInsert]
  | append_singleton pre y ih =>
    intro post hs
    have hs' : SortedDesc pre ∧ ∀ z ∈ pre, z.Priority ≥ y.Priority := by
      unfold SortedDesc at hs ⊢
      rw [List.pairwise_append] at hs
      exact ⟨hs.1, fun z hz => hs.2.2 z hz y (List.mem_singleton_self y)⟩
    have hlen : (pre ++ [y]).length = pre.length + 1 := by simp
    rw [hlen, List.append_assoc, List.singleton_append]
    unfold insertionSortInner
    rw [Less_adjacent]
    by_cases hxy : x.Priority > y.Priority
    · simp only [hxy, decide_True, Bool.and_true, gt_iff_lt, Nat.zero_lt_succ, if_true]
      rw [Swap_adjacent, ih (y :: post) hs'.1, stableInsert_append_of_lt x y hxy]
      simp
    · simp only [hxy, decide_False, Bool.and_false, Bool.false_eq_true, if_false]
      rw [stableInsert_of_all_ge x (pre ++ [y])]
      · simp
      · intro z hz
        rw [List.mem_append, List.mem_singleton] at hz
        rcases hz with hz | hz
        · have := hs'.2 z hz; omega
        · subst hz; omega

theorem insertionSortInner_noop (a : Nat) (data : EventListeners) (i : Nat)
    (hi : i < data.length) (h : 0 < i → prio data i ≤ prio data (i - 1)) :
    insertionSortInner a i data = data := by
  cases i with
  | zero => rfl
  | succ j =>
    unfold insertionSortInner
    have := h (by omega)
    simp only [Nat.add_sub_cancel] at this
    rw [← Less_eq_false_iff data hi (by omega)] at this
    simp [this]

theorem insertionSortOuter_done (a b : Nat) (data : EventListeners) :
    ∀ (fuel i : Nat), b ≤ i → insertionSortOuter a b fuel i data = data := by
  intro fuel
  cases fuel with
  | zero => intro i _; rfl
  | succ fuel =>
    intro i h
    unfold insertionSortOuter
    rw [if_neg (by omega)]

theorem prio_append_left (l r : EventListeners) (i : Nat) (h : i < l.length) :
    prio (l ++ r) i = prio l i := by
  unfold prio
  rw [List.getElem?_append_left h]

theorem SortedDesc.prio_le {l : EventListeners} (h : SortedDesc l) (i j : Nat) (hij : i < j)
    (hj : j < l.length) : prio l j ≤ prio l i := by
  unfold SortedDesc at h
  rw [List.pairwise_iff_getElem] at h
  have := h i j (by omega) hj hij
  unfold prio
  rw [List.getElem?_eq_getElem hj, List.getElem?_eq_getElem (by omega : i < l.length)]
  exact this

theorem insertionSortOuter_append (l : EventListeners) (x : ListenerPriority)
    (hs : SortedDesc l) :
    ∀ (fuel i : Nat), l.length + 1 - i ≤ fuel → i ≤ l.length → 
      insertionSortOuter 0 (l.length + 1) fuel i (l ++ [x]) = stableInsert x l := by
  intro fuel
  induction fuel with
  | zero => intro i h1 h2; omega
  | succ fuel ih =>
    intro i h1 h2
    unfold insertionSortOuter
    rw [if_pos (by omega)]
    by_cases hi : i = l.length
    · subst hi
      rw [insertionSortInner_insert x l [] hs, insertionSortOuter_done]
      · simp
      · omega
    · rw [insertionSortInner_noop 0 (l ++ [x]) i (by simp; omega)]
      · exact ih (i + 1) (by omega) (by omega)
      · intro h0
        rw [prio_append_left l [x] i (by omega), prio_append_left l [x] (i - 1) (by omega)]
        exact hs.prio_le (i - 1) i (by omega) (by omega)

/-- Up to twelve entries `sort.Sort` is an insertion sort: appending an entry to a slice
that is in delivery order and sorting places it after the entries of equal priority. -/
theorem sort_Sort_append_small (l : EventListeners) (x : ListenerPriority) (hs : SortedDesc l)
    (hlen : l.length + 1 ≤ 12) : sort_Sort (l ++ [x]) = stableInsert x l := by
  unfold sort_Sort EventListeners.Len
  simp only [List.length_append, List.length_singleton]
  by_cases h1 : l.length + 1 ≤ 1
  · rw [if_pos h1]
    have : l = [] := List.length_eq_zero.mp (by omega)
    subst this
    rfl
  · rw [if_neg h1]
    rw [pdqsort]
    simp only []
    rw [if_pos (by omega)]
    unfold insertionSort
    exact insertionSortOuter_append l x hs _ 1 (by omega) (by omega)

/-! ## Dispatcher lemmas -/

theorem entries_NewDispatcher (e : String) : NewDispatcher.entries e = [] := rfl

theorem entries_AddListener_same (d : EventDispatcher) (e : String) (L : Listener) (p : Int) :
    (d.AddListener e L [p]).entries e =
      sort_Sort (d.entries e ++ [{ Listener := L, Priority := p }]) := by
  unfold EventDispatcher.AddListener EventDispatcher.entries
  simp only [if_true]

theorem entries_AddListener (d : EventDispatcher) (e : String) (L : Listener) (p : List Int)
    (k : String) :
    (d.AddListener e L p).entries k =
      if k = e then
        sort_Sort (d.entries e ++ [{ Listener := L, Priority := match p with
          | x :: _ => x
          | [] => 0 }])
      else d.entries k := by
  unfold EventDispatcher.AddListener EventDispatcher.entries
  by_cases h : k = e
  · subst h
    simp only [if_true]
  · simp only [h, if_false]

theorem Dispatch_eq_loop {σ : Type} (H : Handlers σ) (w : World σ) :
    EventDispatcher.Dispatch H w = dispatchLoop H (w.dispatcher.entries w.event.Name) w := by
  unfold EventDispatcher.Dispatch EventDispatcher.entries
  cases w.dispatcher.listeners w.event.Name <;> rfl

theorem dispatchLoop_invoked_initial {σ : Type} (H : Handlers σ) :
    ∀ (el : EventListeners) (w : World σ), (dispatchLoop H el w).2 <+: el := by
  intro el
  induction el with
  | nil => intro w; exact List.prefix_refl _
  | cons l rest ih =>
    intro w
    unfold dispatchLoop
    simp only []
    split_ifs
    · exact ⟨rest, rfl⟩
    · exact List.prefix_cons_inj l |>.mpr (ih _)

theorem worldAfter_zero {σ : Type} (H : Handlers σ) (el : EventListeners) (w : World σ) :
    worldAfter H el w 0 = w := by
  simp [worldAfter]

theorem worldAfter_cons_succ {σ : Type} (H : Handlers σ) (l : ListenerPriority)
    (rest : EventListeners) (w : World σ) (n : Nat) :
    worldAfter H (l :: rest) w (n + 1) = worldAfter H rest (H l.Listener w).1 n := by
  simp [worldAfter]

theorem dispatchLoop_neverStops {σ : Type} (H : Handlers σ) (hH : NeverStops H) :
    ∀ (el : EventListeners) (w : World σ), w.event.IsPropagationStopped = false →
      (dispatchLoop H el w).2 = el ∧
        (dispatchLoop H el w).1 = worldAfter H el w el.length ∧
        (dispatchLoop H el w).1.event.IsPropagationStopped = false := by
  intro el
  induction el with
  | nil => intro w hw; exact ⟨rfl, (worldAfter_zero H [] w).symm, hw⟩
  | cons l rest ih =>
    intro w hw
    have h1 := hH l.Listener w hw
    obtain ⟨i1, i2, i3⟩ := ih (H l.Listener w).1 h1
    unfold dispatchLoop
    simp only [h1, Bool.false_eq_true, if_false, List.length_cons, worldAfter_cons_succ]
    exact ⟨by rw [i1], i2, i3⟩

theorem dispatchLoop_stop {σ : Type} (H : Handlers σ) :
    ∀ (el : EventListeners) (w : World σ) (k : Nat), k < el.length →
      (worldAfter H el w (k + 1)).event.IsPropagationStopped = true →
      (∀ i, i < k → (worldAfter H el w (i + 1)).event.IsPropagationStopped = false) →
      (dispatchLoop H el w).2 = el.take (k + 1) ∧
        (dispatchLoop H el w).1 = worldAfter H el w (k + 1) := by
  intro el
  induction el with
  | nil => intro w k hk; simp at hk
  | cons l rest ih =>
    intro w k hk hstop hbefore
    unfold dispatchLoop
    simp only []
    cases k with
    | zero =>
      rw [worldAfter_cons_succ, worldAfter_zero] at hstop
      rw [if_pos hstop, worldAfter_cons_succ, worldAfter_zero]
      simp
    | succ k =>
      have h0 := hbefore 0 (by omega)
      rw [worldAfter_cons_succ, worldAfter_zero] at h0
      rw [worldAfter_cons_succ] at hstop
      have := ih (H l.Listener w).1 k (by simpa using hk) hstop (by
        intro i hi
        have := hbefore (i + 1) (by omega)
        rwa [worldAfter_cons_succ] at this)
      simp only [h0, Bool.false_eq_true, if_false, worldAfter_cons_succ, List.take_succ_cons]
      exact ⟨by rw [this.1], this.2⟩

theorem dispatchLoop_withResults {σ : Type} (H : Handlers σ) (r : Listener → World σ → Bool) :
    ∀ (el : EventListeners) (w : World σ),
      dispatchLoop (withResults H r) el w = dispatchLoop H el w := by
  intro el
  induction el with
  | nil => intro w; rfl
  | cons l rest ih =>
    intro w
    unfold dispatchLoop
    simp only [withResults, ih]

theorem ifaceEq_ok {x y : Listener} {b : Bool} (h : ifaceEq x y = .ok b) :
    b = decide (x = y) := by
  cases x <;> cases y <;> simp [ifaceEq] at h ⊢ <;> first | exact h.symm | (subst h; simp)

theorem ifaceEq_comparable (x : Listener) (t v : Nat) :
    ifaceEq x (.comparable t v) = .ok (decide (x = .comparable t v)) := by
  cases x <;> simp [ifaceEq]

theorem removeListenerLoop_ok (L : Listener) :
    ∀ (el acc r : EventListeners), removeListenerLoop L acc el = .ok r →
      r = acc ++ el.filter (fun x => decide (x.Listener ≠ L)) := by
  intro el
  induction el with
  | nil =>
    intro acc r h
    simp [removeListenerLoop] at h
    simp [h]
  | cons x rest ih =>
    intro acc r h
    unfold removeListenerLoop at h
    cases hx : ifaceEq x.Listener L with
    | error msg => rw [hx] at h; simp at h
    | ok b =>
      rw [hx] at h
      simp only [] at h
      have hb := ifaceEq_ok hx
      have := ih _ _ h
      rw [this]
      by_cases hxl : x.Listener = L
      · simp [hb, hxl]
      · simp [hb, hxl]

theorem removeListenerLoop_comparable (t v : Nat) :
    ∀ (el acc : EventListeners),
      removeListenerLoop (.comparable t v) acc el =
        .ok (acc ++ el.filter (fun x => decide (x.Listener ≠ .comparable t v))) := by
  intro el
  induction el with
  | nil => intro acc; simp [removeListenerLoop]
  | cons x rest ih =>
    intro acc
    unfold removeListenerLoop
    rw [ifaceEq_comparable]
    simp only []
    rw [ih]
    by_cases hxl : x.Listener = .comparable t v
    · simp [hxl]
    · simp [hxl]

theorem hasListenerLoop_comparable (t v : Nat) :
    ∀ (el : EventListeners),
      hasListenerLoop (.comparable t v) el =
        .ok (el.any (fun x => decide (x.Listener = .comparable t v))) := by
  intro el
  induction el with
  | nil => rfl
  | cons x rest ih =>
    unfold hasListenerLoop
    rw [ifaceEq_comparable]
    by_cases hxl : x.Listener = .comparable t v
    · simp [hxl]
    · simp [hxl, ih]

theorem entries_RemoveListener {d d1 : EventDispatcher} {e : String} {L : Listener}
    (h : d.RemoveListener e L = .ok d1) (k : String) :
    d1.entries k =
      if k = e then (d.entries e).filter (fun x => decide (x.Listener ≠ L)) else d.entries k := by
  unfold EventDispatcher.RemoveListener at h
  cases hl : d.listeners e with
  | none =>
    rw [hl] at h
    simp only [Except.ok.injEq] at h
    subst h
    by_cases hk : k = e
    · subst hk
      simp [EventDispatcher.entries, hl]
    · simp [hk]
  | some el =>
    rw [hl] at h
    simp only [] at h
    cases hr : removeListenerLoop L [] el with
    | error msg => rw [hr] at h; simp at h
    | ok r =>
      rw [hr] at h
      simp only [Except.ok.injEq] at h
      subst h
      have := removeListenerLoop_ok L el [] r hr
      by_cases hk : k = e
      · subst hk
        simp [EventDispatcher.entries, hl, this]
      · simp [EventDispatcher.entries, hk]

theorem SortedDesc_registerAll_aux (e : String) :
    ∀ (regs : EventListeners) (d : EventDispatcher), SortedDesc (d.entries e) →
      SortedDesc ((registerAll d e regs).entries e) ∧
        ((registerAll d e regs).entries e).Perm (d.entries e ++ regs) := by
  intro regs
  induction regs with
  | nil => intro d h; exact ⟨h, by simp [registerAll]⟩
  | cons r regs ih =>
    intro d _
    have hs := sort_Sort_spec (d.entries e ++ [{ Listener := r.Listener, Priority := r.Priority }])
    have := ih (d.AddListener e r.Listener [r.Priority])
      (by rw [entries_AddListener_same]; exact hs.2)
    refine ⟨this.1, this.2.trans ?_⟩
    rw [entries_AddListener_same]
    have e1 : d.entries e ++ r :: regs = (d.entries e ++ [r]) ++ regs := by simp
    rw [e1]
    exact List.Perm.append_right _ hs.1

theorem registerAll_append (d : EventDispatcher) (e : String) (regs : EventListeners)
    (r : ListenerPriority) :
    registerAll d e (regs ++ [r]) = (registerAll d e regs).AddListener e r.Listener [r.Priority] := by
  simp [registerAll, List.foldl_append]

theorem entries_registerAll_small (e : String) :
    ∀ (regs : EventListeners), regs.length ≤ 12 →
      (registerAll NewDispatcher e regs).entries e = stableOrder regs := by
  intro regs
  induction regs using List.reverseRecOn with
  | nil => intro _; rfl
  | append_singleton regs r ih =>
    intro hlen
    simp only [List.length_append, List.length_singleton] at hlen
    have h1 := ih (by omega)
    have h2 := SortedDesc_registerAll_aux e regs NewDispatcher List.Pairwise.nil
    rw [registerAll_append, entries_AddListener_same]
    have hl : ((registerAll NewDispatcher e regs).entries e).length = regs.length := by
      have := h2.2.length_eq
      simpa [entries_NewDispatcher] using this
    rw [sort_Sort_append_small _ _ h2.1 (by omega), h1]
    simp [stableOrder, List.foldl_append]

/-! ## C1: delivery order -/

/-- C1 (failing input): with twelve registrations at priority 0 followed by one at priority 1,
`Dispatch` delivers the priority-0 listeners in the order 7, 3, 4, 5, 6, 1, 8, ..., 12, 2, not
in registration order, so the delivery order is not the stable sort of the registrations. -/
theorem C1_ties_not_in_registration_order :
    ((EventDispatcher.Dispatch quietHandlers
        { dispatcher := registerAll NewDispatcher "e" thirteenRegistrations,
          event := NewEvent "e" [], user := () }).2.map (fun r => r.Listener)
      = [ptr 13, ptr 7, ptr 3, ptr 4, ptr 5, ptr 6, ptr 1, ptr 8, ptr 9, ptr 10, ptr 11,
          ptr 12, ptr 2]) ∧
    (EventDispatcher.Dispatch quietHandlers
        { dispatcher := registerAll NewDispatcher "e" thirteenRegistrations,
          event := NewEvent "e" [], user := () }).2 ≠ stableOrder thirteenRegistrations := by
  decide

/-- What `Dispatch` does deliver: for every sequence of `AddListener` calls for one event
name on a fresh dispatcher, with listeners that never stop propagation, `Dispatch` of an
event of that name invokes every registration exactly once (the invoked entries are a
permutation of the registrations), in priority-descending order; when at most twelve
registrations were made the order is the stable sort of the registration sequence (equal
priorities in registration order). -/
theorem delivery_sorted_permutation {σ : Type} (e : String) (regs : EventListeners) (H : Handlers σ)
    (ev : BaseEvent) (s : σ) (hname : ev.Name = e) (hev : ev.IsPropagationStopped = false)
    (hH : NeverStops H) :
    ((EventDispatcher.Dispatch H
        { dispatcher := registerAll NewDispatcher e regs, event := ev, user := s }).2).Perm regs ∧
    SortedDesc (EventDispatcher.Dispatch H
        { dispatcher := registerAll NewDispatcher e regs, event := ev, user := s }).2 ∧
    (regs.length ≤ 12 →
      (EventDispatcher.Dispatch H
        { dispatcher := registerAll NewDispatcher e regs, event := ev, user := s }).2
        = stableOrder regs) := by
  rw [Dispatch_eq_loop]
  simp only [hname]
  rw [(dispatchLoop_neverStops H hH _ _ hev).1]
  have h := SortedDesc_registerAll_aux e regs NewDispatcher List.Pairwise.nil
  refine ⟨by simpa [entries_NewDispatcher] using h.2, h.1, ?_⟩
  intro hlen
  exact entries_registerAll_small e regs hlen

/-- The scenario `A@10, B@50, C@50` is delivered as `[B, C, A]`. -/
theorem delivery_sorted_permutation_example :
    (NewEvent "e" []).Name = "e" ∧ (NewEvent "e" []).IsPropagationStopped = false ∧
    NeverStops quietHandlers ∧
    (EventDispatcher.Dispatch quietHandlers
        { dispatcher := registerAll NewDispatcher "e" scenarioABC,
          event := NewEvent "e" [], user := () }).2 = [⟨ptr 2, 50⟩, ⟨ptr 3, 50⟩, ⟨ptr 1, 10⟩] :=
  ⟨rfl, rfl, fun _ _ h => h,
    ((delivery_sorted_permutation "e" scenarioABC quietHandlers (NewEvent "e" []) () rfl rfl
      (fun _ _ h => h)).2.2 (by decide)).trans (by decide)⟩

/-! ## C2: propagation stop -/

/-- C2: if the event reports `IsPropagationStopped()` after the listener at position `k` and
not after any earlier position, `Dispatch` invokes exactly the entries at positions `0..k`,
once each and in order, and returns the event with the stop flag set. -/
theorem C2_stop_after_position {σ : Type} (H : Handlers σ) (w : World σ)
    (el : EventListeners) (k : Nat)
    (hreg : w.dispatcher.listeners w.event.Name = some el) (hk : k < el.length)
    (hstop : (worldAfter H el w (k + 1)).event.IsPropagationStopped = true)
    (hbefore : ∀ i, i < k → (worldAfter H el w (i + 1)).event.IsPropagationStopped = false) :
    (EventDispatcher.Dispatch H w).2 = el.take (k + 1) ∧
    (EventDispatcher.Dispatch H w).1 = worldAfter H el w (k + 1) ∧
    (EventDispatcher.Dispatch H w).1.event.IsPropagationStopped = true := by
  have h := dispatchLoop_stop H el w k hk hstop hbefore
  unfold EventDispatcher.Dispatch
  rw [hreg]
  exact ⟨h.1, h.2, by rw [h.2]; exact hstop⟩

/-- C2 (witness): in `TestDispatcher_DispatchStopPropagation` the registry is
`[listener1@100, stopListener@100, listener2@90]`; the stop comes after position 1, so
`listener1` and `stopListener` are invoked and `listener2` is not. -/
theorem C2_stop_after_position_witness :
    stopScenario.listeners "user.created"
      = some [⟨ptr 1, 100⟩, ⟨Listener.func 0, 100⟩, ⟨ptr 2, 90⟩] ∧
    (worldAfter stoppingHandlers [⟨ptr 1, 100⟩, ⟨Listener.func 0, 100⟩, ⟨ptr 2, 90⟩]
        { dispatcher := stopScenario, event := NewEvent "user.created" [], user := () }
        2).event.IsPropagationStopped = true ∧
    (worldAfter stoppingHandlers [⟨ptr 1, 100⟩, ⟨Listener.func 0, 100⟩, ⟨ptr 2, 90⟩]
        { dispatcher := stopScenario, event := NewEvent "user.created" [], user := () }
        1).event.IsPropagationStopped = false ∧
    (EventDispatcher.Dispatch stoppingHandlers
        { dispatcher := stopScenario, event := NewEvent "user.created" [], user := () }).2
      = [⟨ptr 1, 100⟩, ⟨Listener.func 0, 100⟩] ∧
    (EventDispatcher.Dispatch stoppingHandlers
        { dispatcher := stopScenario, event := NewEvent "user.created" [],
          user := () }).1.event.IsPropagationStopped = true :=
  have h := C2_stop_after_position stoppingHandlers
    { dispatcher := stopScenario, event := NewEvent "user.created" [], user := () }
    [⟨ptr 1, 100⟩, ⟨Listener.func 0, 100⟩, ⟨ptr 2, 90⟩] 1 (by decide) (by decide) (by rfl)
    (by intro i hi; have : i = 0 := by omega
        subst this; rfl)
  ⟨by decide, by rfl, by rfl, h.1, h.2.2⟩

/-! ## C3: the registry is kept in delivery order -/

/-- C3: in every dispatcher state reached from `NewDispatcher()` by `AddListener` and
`RemoveListener` calls, the entries stored for every event name have non-increasing
priorities, and `Dispatch` walks the stored slice as it is: what it invokes is a prefix of
the stored entries. -/
theorem C3_registry_sorted {σ : Type} (d : EventDispatcher) (hd : Reachable d) :
    (∀ e : String, SortedDesc (d.entries e)) ∧
    (∀ (H : Handlers σ) (ev : BaseEvent) (s : σ),
      (EventDispatcher.Dispatch H { dispatcher := d, event := ev, user := s }).2
        <+: d.entries ev.Name) := by
  constructor
  · induction hd with
    | init => intro e; exact List.Pairwise.nil
    | add d e L p _ ih =>
      intro k
      rw [entries_AddListener]
      by_cases hk : k = e
      · rw [if_pos hk]; exact (sort_Sort_spec _).2
      · rw [if_neg hk]; exact ih k
    | remove d d1 e L _ hr ih =>
      intro k
      rw [entries_RemoveListener hr]
      by_cases hk : k = e
      · rw [if_pos hk]; exact List.Pairwise.sublist (List.filter_sublist _) (ih e)
      · rw [if_neg hk]; exact ih k
  · intro H ev s
    rw [Dispatch_eq_loop]
    exact dispatchLoop_invoked_initial H _ _

/-- C3 (witness): the registry of `TestDispatcher_DispatchStopPropagation`, with the
listener registered at priority 90 then removed, is a reachable state. -/
theorem C3_registry_sorted_witness :
    Reachable (stateAfter stopScenario (stopScenario.RemoveListener "user.created" (ptr 2))) ∧
    SortedDesc ((stateAfter stopScenario
      (stopScenario.RemoveListener "user.created" (ptr 2))).entries "user.created") :=
  have hr : Reachable (stateAfter stopScenario
      (stopScenario.RemoveListener "user.created" (ptr 2))) :=
    Reachable.remove stopScenario _ "user.created" (ptr 2)
      (Reachable.add _ _ _ _ (Reachable.add _ _ _ _ (Reachable.add _ _ _ _ Reachable.init))) rfl
  ⟨hr, (@C3_registry_sorted Unit _ hr).1 "user.created"⟩

/-! ## C4 to C7: listener comparison -/

/-- C4 (failing input): after `AddListener("user.created", f)` with `f` a `ListenerFunc`,
`HasListener("user.created", f)` panics instead of returning true. -/
theorem C4_hasListener_after_add_panics :
    (NewDispatcher.AddListener "user.created" (Listener.func 0) []).HasListener "user.created"
        (Listener.func 0)
      = Except.error "runtime error: comparing uncomparable type event.ListenerFunc" := by
  rfl

/-- C5 (failing input): with `f` a `ListenerFunc` registered twice for "e",
`RemoveListener("e", f)` panics and removes nothing. -/
theorem C5_removeListener_registered_func_panics :
    ((NewDispatcher.AddListener "e" (Listener.func 0) [10]).AddListener "e" (Listener.func 0)
        [20]).RemoveListener "e" (Listener.func 0)
      = Except.error "runtime error: comparing uncomparable type event.ListenerFunc" := by
  rfl

/-- C6 (failing input): with a pointer listener at priority 5 and the `ListenerFunc` `f` at
priority 0 registered for "e", `HasListener("e", f)` panics instead of returning true. -/
theorem C6_hasListener_func_entry_panics :
    ((NewDispatcher.AddListener "e" (ptr 1) [5]).AddListener "e" (Listener.func 7)
        [0]).HasListener "e" (Listener.func 7)
      = Except.error "runtime error: comparing uncomparable type event.ListenerFunc" := by
  rfl

/-- C7 (failing input): with the `ListenerFunc` `f` registered for "e" and `g` another
`ListenerFunc` that has no entry, `RemoveListener("e", g)` panics instead of being a no-op. -/
theorem C7_removeListener_absent_func_panics :
    (NewDispatcher.AddListener "e" (Listener.func 0) [0]).RemoveListener "e" (Listener.func 1)
      = Except.error "runtime error: comparing uncomparable type event.ListenerFunc" := by
  rfl

/-- For a listener of comparable dynamic type, `HasListener` returns whether some entry of
the event name holds that listener. -/
theorem HasListener_comparable (d : EventDispatcher) (e : String) (t v : Nat) :
    d.HasListener e (Listener.comparable t v) =
      .ok ((d.entries e).any (fun x => decide (x.Listener = Listener.comparable t v))) := by
  unfold EventDispatcher.HasListener EventDispatcher.entries
  cases d.listeners e with
  | none => rfl
  | some el => exact hasListenerLoop_comparable t v el

/-- For a listener of comparable dynamic type, `RemoveListener` returns, and the entries of
the event name become the previous entries without those holding that listener; other event
names keep their entries. -/
theorem RemoveListener_comparable (d : EventDispatcher) (e : String) (t v : Nat) :
    ∃ d1, d.RemoveListener e (Listener.comparable t v) = .ok d1 ∧
      ∀ k, d1.entries k =
        if k = e then (d.entries e).filter (fun x => decide (x.Listener ≠ Listener.comparable t v))
        else d.entries k := by
  have hex : ∃ d1, d.RemoveListener e (Listener.comparable t v) = .ok d1 := by
    unfold EventDispatcher.RemoveListener
    cases d.listeners e with
    | none => exact ⟨_, rfl⟩
    | some el =>
      simp only [removeListenerLoop_comparable]
      exact ⟨_, rfl⟩
  obtain ⟨d1, h1⟩ := hex
  exact ⟨d1, h1, entries_RemoveListener h1⟩

/-- For a listener of comparable dynamic type: `HasListener` is true right after
`AddListener`, and false after a following `RemoveListener`. -/
theorem HasListener_add_remove_comparable (d : EventDispatcher) (e : String) (t v : Nat)
    (p : List Int) :
    (d.AddListener e (Listener.comparable t v) p).HasListener e (Listener.comparable t v)
      = .ok true ∧
    ∃ d1, (d.AddListener e (Listener.comparable t v) p).RemoveListener e
        (Listener.comparable t v) = .ok d1 ∧
      d1.HasListener e (Listener.comparable t v) = .ok false := by
  constructor
  · rw [HasListener_comparable, entries_AddListener, if_pos rfl]
    congr 1
    rw [List.any_eq_true]
    refine ⟨_, ((sort_Sort_spec _).1.mem_iff).mpr
      (List.mem_append_right _ (List.mem_singleton_self _)), by simp⟩
  · obtain ⟨d1, h1, h2⟩ := RemoveListener_comparable
      (d.AddListener e (Listener.comparable t v) p) e t v
    refine ⟨d1, h1, ?_⟩
    rw [HasListener_comparable, h2 e, if_pos rfl]
    congr 1
    rw [List.any_eq_false]
    intro x hx
    have := (List.mem_filter.mp hx).2
    simpa using this

/-! ## C8: no registrations -/

/-- C8: when the event's name has no entries (the name was never registered, or every
listener for it has been removed), `Dispatch` invokes no listener and returns the world, and
so the event (name, arguments and stop flag), unchanged. -/
theorem C8_no_registrations {σ : Type} (H : Handlers σ) (w : World σ)
    (h : w.dispatcher.entries w.event.Name = []) :
    EventDispatcher.Dispatch H w = (w, []) := by
  rw [Dispatch_eq_loop, h]
  rfl

/-- C8 (witness): after `AddListener("e", L)` and `RemoveListener("e", L)` the name "e" has
no entries, and a dispatch with a stopping handler table invokes nothing and returns the
event as it was. -/
theorem C8_no_registrations_witness :
    (stateAfter (NewDispatcher.AddListener "e" (ptr 1) [])
      ((NewDispatcher.AddListener "e" (ptr 1) []).RemoveListener "e" (ptr 1))).entries "e" = [] ∧
    (EventDispatcher.Dispatch stoppingHandlers
      { dispatcher := stateAfter (NewDispatcher.AddListener "e" (ptr 1) [])
          ((NewDispatcher.AddListener "e" (ptr 1) []).RemoveListener "e" (ptr 1)),
        event := NewEvent "e" [some [("user_id", Value.int 123)]], user := () }).1.event
      = NewEvent "e" [some [("user_id", Value.int 123)]] ∧
    (EventDispatcher.Dispatch stoppingHandlers
      { dispatcher := stateAfter (NewDispatcher.AddListener "e" (ptr 1) [])
          ((NewDispatcher.AddListener "e" (ptr 1) []).RemoveListener "e" (ptr 1)),
        event := NewEvent "e" [some [("user_id", Value.int 123)]], user := () }).2 = [] :=
  have h := C8_no_registrations stoppingHandlers
    { dispatcher := stateAfter (NewDispatcher.AddListener "e" (ptr 1) [])
        ((NewDispatcher.AddListener "e" (ptr 1) []).RemoveListener "e" (ptr 1)),
      event := NewEvent "e" [some [("user_id", Value.int 123)]], user := () } rfl
  ⟨rfl, by rw [h], by rw [h]⟩

/-! ## C9: the boolean result of a listener -/

/-- C9: replacing the boolean results of the listeners by any other results changes neither
the final world nor the invoked entries of a `Dispatch`; and when no listener stops
propagation, every stored entry is invoked once, in stored order. -/
theorem C9_result_ignored {σ : Type} (H : Handlers σ) (r : Listener → World σ → Bool)
    (w : World σ) :
    EventDispatcher.Dispatch (withResults H r) w = EventDispatcher.Dispatch H w ∧
    (NeverStops H → w.event.IsPropagationStopped = false →
      (EventDispatcher.Dispatch (withResults H r) w).2 = w.dispatcher.entries w.event.Name) := by
  have h1 : EventDispatcher.Dispatch (withResults H r) w = EventDispatcher.Dispatch H w := by
    rw [Dispatch_eq_loop, Dispatch_eq_loop, dispatchLoop_withResults]
  refine ⟨h1, ?_⟩
  intro hH hw
  rw [h1, Dispatch_eq_loop]
  exact (dispatchLoop_neverStops H hH _ _ hw).1

/-- C9 (witness): in the scenario `A@10, B@50, C@50`, with every listener returning false
the dispatch still invokes `[B, C, A]`. -/
theorem C9_result_ignored_witness :
    NeverStops quietHandlers ∧
    (EventDispatcher.Dispatch (withResults quietHandlers (fun _ _ => false))
        { dispatcher := registerAll NewDispatcher "e" scenarioABC,
          event := NewEvent "e" [], user := () }).2 = [⟨ptr 2, 50⟩, ⟨ptr 3, 50⟩, ⟨ptr 1, 10⟩] :=
  ⟨fun _ _ h => h,
    ((C9_result_ignored quietHandlers (fun _ _ => false)
      { dispatcher := registerAll NewDispatcher "e" scenarioABC,
        event := NewEvent "e" [], user := () }).2 (fun _ _ h => h) rfl).trans (by decide)⟩

/-! ## C10: one listener registered twice -/

theorem pairwise_getElem?_lt {el : EventListeners} (hs : SortedDesc el) {x y : ListenerPriority}
    (hx : x ∈ el) (hy : y ∈ el) (hxy : x.Priority > y.Priority) :
    ∃ i j : Nat, i < j ∧ el[i]? = some x ∧ el[j]? = some y := by
  obtain ⟨i, hi, rfl⟩ := List.getElem_of_mem hx
  obtain ⟨j, hj, rfl⟩ := List.getElem_of_mem hy
  refine ⟨i, j, ?_, List.getElem?_eq_getElem hi, List.getElem?_eq_getElem hj⟩
  unfold SortedDesc at hs
  rw [List.pairwise_iff_getElem] at hs
  by_cases hij : i < j
  · exact hij
  · by_cases hji : j < i
    · have := hs j i hj hi hji
      omega
    · have : i = j := by omega
      subst this
      omega

theorem twice_of_sorted_perm {old tr : EventListeners} {L : Listener} {p1 p2 : Int}
    (hp : p1 > p2) (hs : SortedDesc tr)
    (hperm : tr.Perm (old ++ [⟨L, p1⟩, ⟨L, p2⟩])) :
    (tr.filter (fun x => decide (x.Listener = L))).length
        = (old.filter (fun x => decide (x.Listener = L))).length + 2 ∧
    (∃ i j : Nat, i < j ∧ tr[i]? = some (ListenerPriority.mk L p1) ∧
      tr[j]? = some (ListenerPriority.mk L p2)) ∧
    ((∀ x ∈ old, x.Listener ≠ L) →
      tr.filter (fun x => decide (x.Listener = L)) = [⟨L, p1⟩, ⟨L, p2⟩]) := by
  have hf := hperm.filter (fun x => decide (x.Listener = L))
  have hfold : (old ++ [ListenerPriority.mk L p1, ListenerPriority.mk L p2]).filter
      (fun x => decide (x.Listener = L))
      = old.filter (fun x => decide (x.Listener = L)) ++
        [ListenerPriority.mk L p1, ListenerPriority.mk L p2] := by
    simp [List.filter_append, List.filter_cons]
  rw [hfold] at hf
  refine ⟨by simpa using hf.length_eq, ?_, ?_⟩
  · exact pairwise_getElem?_lt hs (hperm.mem_iff.mpr (by simp)) (hperm.mem_iff.mpr (by simp)) hp
  · intro hfresh
    have hnil : old.filter (fun x => decide (x.Listener = L)) = [] := by
      rw [List.filter_eq_nil_iff]
      intro x hx
      simpa using hfresh x hx
    rw [hnil, List.nil_append] at hf
    have hsf : SortedDesc (tr.filter (fun x => decide (x.Listener = L))) :=
      List.Pairwise.sublist (List.filter_sublist _) hs
    generalize tr.filter (fun x => decide (x.Listener = L)) = f at hf hsf
    have hlen := hf.length_eq
    match f, hlen with
    | [a, b], _ =>
      have ha : a ∈ [(⟨L, p1⟩ : ListenerPriority), ⟨L, p2⟩] := hf.mem_iff.mp (by simp)
      have hb : b ∈ [(⟨L, p1⟩ : ListenerPriority), ⟨L, p2⟩] := hf.mem_iff.mp (by simp)
      have hab : a.Priority ≥ b.Priority := by
        unfold SortedDesc at hsf
        simpa using hsf
      have h1 : (⟨L, p1⟩ : ListenerPriority) ∈ [a, b] := hf.mem_iff.mpr (by simp)
      have h2 : (⟨L, p2⟩ : ListenerPriority) ∈ [a, b] := hf.mem_iff.mpr (by simp)
      simp only [List.mem_cons, List.mem_singleton, List.not_mem_nil, or_false] at ha hb h1 h2
      rcases ha with ha | ha <;> rcases hb with hb | hb <;> subst ha <;> subst hb
      · rcases h2 with h2 | h2
        · have h3 := congrArg ListenerPriority.Priority h2
          simp at h3; omega
        · have h3 := congrArg ListenerPriority.Priority h2
          simp at h3; omega
      · rfl
      · simp at hab; omega
      · rcases h1 with h1 | h1
        · have h3 := congrArg ListenerPriority.Priority h1
          simp at h3; omega
        · have h3 := congrArg ListenerPriority.Priority h1
          simp at h3; omega

/-- C10: there is no uniqueness constraint.  After registering the listener `L` twice for
one event name, at priorities `p1 > p2` (in either order of the two calls), a `Dispatch`
that is not stopped invokes all stored entries in priority-descending order: the two new
entries on top of the old ones (`L` is invoked two more times than before), the entry
`(L, p1)` at an earlier position than the entry `(L, p2)`; if `L` had no entry before, the
invocations of `L` are exactly `(L, p1)` then `(L, p2)`. -/
theorem C10_same_listener_twice {σ : Type} (d d2 : EventDispatcher) (e : String)
    (L : Listener) (p1 p2 : Int) (H : Handlers σ) (ev : BaseEvent) (s : σ) (hp : p1 > p2)
    (hd2 : d2 = (d.AddListener e L [p1]).AddListener e L [p2] ∨
      d2 = (d.AddListener e L [p2]).AddListener e L [p1])
    (hname : ev.Name = e) (hev : ev.IsPropagationStopped = false) (hH : NeverStops H) :
    ((EventDispatcher.Dispatch H { dispatcher := d2, event := ev, user := s }).2).Perm
        (d.entries e ++ [⟨L, p1⟩, ⟨L, p2⟩]) ∧
    SortedDesc (EventDispatcher.Dispatch H { dispatcher := d2, event := ev, user := s }).2 ∧
    ((EventDispatcher.Dispatch H { dispatcher := d2, event := ev, user := s }).2.filter
        (fun x => decide (x.Listener = L))).length
      = ((d.entries e).filter (fun x => decide (x.Listener = L))).length + 2 ∧
    (∃ i j : Nat, i < j ∧
      ((EventDispatcher.Dispatch H { dispatcher := d2, event := ev, user := s }).2)[i]?
        = some (ListenerPriority.mk L p1) ∧
      ((EventDispatcher.Dispatch H { dispatcher := d2, event := ev, user := s }).2)[j]?
        = some (ListenerPriority.mk L p2)) ∧
    ((∀ x ∈ d.entries e, x.Listener ≠ L) →
      (EventDispatcher.Dispatch H { dispatcher := d2, event := ev, user := s }).2.filter
        (fun x => decide (x.Listener = L)) = [⟨L, p1⟩, ⟨L, p2⟩]) := by
  rw [Dispatch_eq_loop]
  simp only [hname]
  rw [(dispatchLoop_neverStops H hH _ _ hev).1]
  have hsp : SortedDesc (d2.entries e) ∧ (d2.entries e).Perm (d.entries e ++ [⟨L, p1⟩, ⟨L, p2⟩]) := by
    rcases hd2 with h | h
    · subst h
      rw [entries_AddListener_same, entries_AddListener_same]
      refine ⟨(sort_Sort_spec _).2, (sort_Sort_spec _).1.trans ?_⟩
      have := (sort_Sort_spec (d.entries e ++ [⟨L, p1⟩])).1.append_right [⟨L, p2⟩]
      simpa using this
    · subst h
      rw [entries_AddListener_same, entries_AddListener_same]
      refine ⟨(sort_Sort_spec _).2, (sort_Sort_spec _).1.trans ?_⟩
      have := (sort_Sort_spec (d.entries e ++ [⟨L, p2⟩])).1.append_right [⟨L, p1⟩]
      refine this.trans ?_
      rw [List.append_assoc]
      exact List.Perm.append_left _ (List.Perm.swap _ _ _)
  obtain ⟨h1, h2, h3⟩ := twice_of_sorted_perm hp hsp.1 hsp.2
  exact ⟨hsp.2, hsp.1, h1, h2, h3⟩

/-- C10 (witness): with `B@50` registered, the listener `A` is registered at priority 10 and
then at priority 100; the dispatch invokes `[A@100, B@50, A@10]`. -/
theorem C10_same_listener_twice_witness :
    ((100 : Int) > 10) ∧ NeverStops quietHandlers ∧
    (EventDispatcher.Dispatch quietHandlers
      { dispatcher := ((NewDispatcher.AddListener "e" (ptr 2) [50]).AddListener "e" (ptr 1)
          [10]).AddListener "e" (ptr 1) [100],
        event := NewEvent "e" [], user := () }).2.filter (fun x => decide (x.Listener = ptr 1))
      = [⟨ptr 1, 100⟩, ⟨ptr 1, 10⟩] ∧
    (EventDispatcher.Dispatch quietHandlers
      { dispatcher := ((NewDispatcher.AddListener "e" (ptr 2) [50]).AddListener "e" (ptr 1)
          [10]).AddListener "e" (ptr 1) [100],
        event := NewEvent "e" [], user := () }).2
      = [⟨ptr 1, 100⟩, ⟨ptr 2, 50⟩, ⟨ptr 1, 10⟩] :=
  ⟨by decide, fun _ _ h => h,
    (C10_same_listener_twice (NewDispatcher.AddListener "e" (ptr 2) [50]) _ "e" (ptr 1) 100 10
      quietHandlers (NewEvent "e" []) () (by decide) (Or.inr rfl) rfl rfl
      (fun _ _ h => h)).2.2.2.2 (by decide),
    by decide⟩


/-! ## Lemmas on the dispatch loop and the argument bag -/

theorem dispatchLoop_char {σ : Type} (H : Handlers σ) :
    ∀ (el : EventListeners) (w : World σ),
      (dispatchLoop H el w).1 = worldAfter H el w (dispatchLoop H el w).2.length ∧
      ((dispatchLoop H el w).2.length < el.length →
        (dispatchLoop H el w).1.event.IsPropagationStopped = true) ∧
      (∀ i, 0 < i → i < (dispatchLoop H el w).2.length →
        (worldAfter H el w i).event.IsPropagationStopped = false) := by
  intro el
  induction el with
  | nil =>
    intro w
    refine ⟨(worldAfter_zero H [] w).symm, ?_, ?_⟩
    · intro h; simp [dispatchLoop] at h
    · intro i h1 h2; simp [dispatchLoop] at h2
  | cons l rest ih =>
    intro w
    obtain ⟨i1, i2, i3⟩ := ih (H l.Listener w).1
    unfold dispatchLoop
    simp only []
    by_cases hs : (H l.Listener w).1.event.IsPropagationStopped = true
    · rw [if_pos hs]
      refine ⟨by simp [worldAfter_cons_succ, worldAfter_zero], fun _ => hs, ?_⟩
      intro i h1 h2
      simp at h2
      omega
    · rw [if_neg hs]
      simp only [List.length_cons, worldAfter_cons_succ]
      refine ⟨i1, fun h => i2 (by omega), ?_⟩
      intro i h1 h2
      obtain ⟨j, rfl⟩ : ∃ j, i = j + 1 := ⟨i - 1, by omega⟩
      rw [worldAfter_cons_succ]
      by_cases hj : j = 0
      · subst hj
        rw [worldAfter_zero]
        simpa using hs
      · exact i3 j (by omega) (by omega)

theorem worldAfter_succ {σ : Type} (H : Handlers σ) (el : EventListeners) (w : World σ)
    (m : Nat) (l : ListenerPriority) (hl : el[m]? = some l) :
    worldAfter H el w (m + 1) = (H l.Listener (worldAfter H el w m)).1 := by
  unfold worldAfter
  rw [List.take_succ, hl, List.foldl_append]
  rfl

theorem argsGet_argsSet (m : List (String × Value)) (key : String) (v : Value) :
    argsSet (some m) key v = .ok (some ((key, v) :: m.filter (fun p => p.1 ≠ key))) ∧
      argsGet (some ((key, v) :: m.filter (fun p => p.1 ≠ key))) key = some v := by
  constructor
  · rfl
  · simp [argsGet, List.lookup]

theorem applyOps_keeps_stopped :
    ∀ (ops : List EventOp) (e e1 : BaseEvent), applyOps ops e = .ok e1 →
      e.IsPropagationStopped = true → e1.IsPropagationStopped = true := by
  intro ops
  induction ops with
  | nil =>
    intro e e1 h hs
    simp only [applyOps, Except.ok.injEq] at h
    subst h
    exact hs
  | cons op rest ih =>
    intro e e1 h hs
    unfold applyOps at h
    cases hop : op.apply e with
    | error msg => rw [hop] at h; simp at h
    | ok e2 =>
      rw [hop] at h
      simp only [] at h
      refine ih e2 e1 h ?_
      cases op with
      | Name => simp only [EventOp.apply, Except.ok.injEq] at hop; subst hop; exact hs
      | Arguments => simp only [EventOp.apply, Except.ok.injEq] at hop; subst hop; exact hs
      | StopPropagation => simp only [EventOp.apply, Except.ok.injEq] at hop; subst hop; rfl
      | IsPropagationStopped =>
        simp only [EventOp.apply, Except.ok.injEq] at hop; subst hop; exact hs
      | setArgument key v =>
        simp only [EventOp.apply, BaseEvent.setArgument] at hop
        cases ha : argsSet e.Arguments key v with
        | error msg => rw [ha] at hop; simp at hop
        | ok m =>
          rw [ha] at hop
          simp only [Except.ok.injEq] at hop
          subst hop
          exact hs
      | deleteArgument key =>
        simp only [EventOp.apply, Except.ok.injEq] at hop; subst hop; exact hs

theorem stopTimes_succ : ∀ (n : Nat) (e : BaseEvent),
    stopTimes (n + 1) e = e.StopPropagation := by
  intro n
  induction n with
  | zero => intro e; rfl
  | succ n ih =>
    intro e
    have h := ih e.StopPropagation
    unfold stopTimes
    rw [h]
    rfl

/-! ## C11: snapshot isolation within one dispatch -/

/-- C11: whatever the listeners do while they are invoked, including `AddListener` and
`RemoveListener` calls for the same event name on the same dispatcher, the entries invoked
by a `Dispatch` are the entries `el` that were registered when it started, in that order,
up to the first propagation stop: they are a prefix of `el`, a proper prefix only if the
event is stopped at the end, and no stop was reported before the last invoked listener.  The
registry left by the listeners is the one a later `Dispatch` delivers from. -/
theorem C11_snapshot_isolation {σ : Type} (H : Handlers σ) (w : World σ) (el : EventListeners)
    (hreg : w.dispatcher.listeners w.event.Name = some el) :
    (EventDispatcher.Dispatch H w).2 <+: el ∧
    (EventDispatcher.Dispatch H w).1 = worldAfter H el w (EventDispatcher.Dispatch H w).2.length ∧
    ((EventDispatcher.Dispatch H w).2.length < el.length →
      (EventDispatcher.Dispatch H w).1.event.IsPropagationStopped = true) ∧
    (∀ i, 0 < i → i < (EventDispatcher.Dispatch H w).2.length →
      (worldAfter H el w i).event.IsPropagationStopped = false) ∧
    (EventDispatcher.Dispatch H (EventDispatcher.Dispatch H w).1).2 <+:
      (EventDispatcher.Dispatch H w).1.dispatcher.entries
        (EventDispatcher.Dispatch H w).1.event.Name := by
  have hd : EventDispatcher.Dispatch H w = dispatchLoop H el w := by
    unfold EventDispatcher.Dispatch
    rw [hreg]
  obtain ⟨h1, h2, h3⟩ := dispatchLoop_char H el w
  rw [hd]
  refine ⟨dispatchLoop_invoked_initial H el w, h1, h2, h3, ?_⟩
  rw [Dispatch_eq_loop]
  exact dispatchLoop_invoked_initial H _ _

/-- C11 (witness): with `[A@10, C@5]` registered for "e", the listener `A` adds `B@100` and
removes `C` while it is invoked; the dispatch in flight still invokes `[A, C]`, and the next
dispatch invokes `[B, A]`. -/
theorem C11_snapshot_isolation_witness :
    ((NewDispatcher.AddListener "e" (ptr 1) [10]).AddListener "e" (ptr 3) [5]).listeners "e"
      = some [⟨ptr 1, 10⟩, ⟨ptr 3, 5⟩] ∧
    (EventDispatcher.Dispatch reentrantHandlers
      { dispatcher := (NewDispatcher.AddListener "e" (ptr 1) [10]).AddListener "e" (ptr 3) [5],
        event := NewEvent "e" [], user := () }).2 = [⟨ptr 1, 10⟩, ⟨ptr 3, 5⟩] ∧
    (EventDispatcher.Dispatch reentrantHandlers
      { dispatcher := (NewDispatcher.AddListener "e" (ptr 1) [10]).AddListener "e" (ptr 3) [5],
        event := NewEvent "e" [], user := () }).1.dispatcher.entries "e"
      = [⟨ptr 2, 100⟩, ⟨ptr 1, 10⟩] ∧
    (EventDispatcher.Dispatch reentrantHandlers
      (EventDispatcher.Dispatch reentrantHandlers
        { dispatcher := (NewDispatcher.AddListener "e" (ptr 1) [10]).AddListener "e" (ptr 3) [5],
          event := NewEvent "e" [], user := () }).1).2 = [⟨ptr 2, 100⟩, ⟨ptr 1, 10⟩] :=
  have h := C11_snapshot_isolation reentrantHandlers
    { dispatcher := (NewDispatcher.AddListener "e" (ptr 1) [10]).AddListener "e" (ptr 3) [5],
      event := NewEvent "e" [], user := () } [⟨ptr 1, 10⟩, ⟨ptr 3, 5⟩] (by decide)
  ⟨by decide, List.IsPrefix.eq_of_length h.1 (by rfl), by rfl, by rfl⟩


/-! ## C16: the default priority -/

theorem sorted_position {el : EventListeners} (hs : SortedDesc el) {i j : Nat}
    {x y : ListenerPriority} (hx : el[i]? = some x) (hy : el[j]? = some y)
    (hlt : y.Priority < x.Priority) : i < j := by
  obtain ⟨hi, rfl⟩ := List.getElem?_eq_some.mp hx
  obtain ⟨hj, rfl⟩ := List.getElem?_eq_some.mp hy
  unfold SortedDesc at hs
  rw [List.pairwise_iff_getElem] at hs
  by_cases hij : i < j
  · exact hij
  · by_cases hji : j < i
    · have := hs j i hj hi hji
      omega
    · have : i = j := by omega
      subst this
      omega

/-- C16: `AddListener(e, L)` without a priority leaves the dispatcher in the same state as
`AddListener(e, L, 0)`; in a `Dispatch` that is not stopped the new entry `(L, 0)` is
invoked, after every entry of positive priority and before every entry of negative
priority. -/
theorem C16_default_priority {σ : Type} (d : EventDispatcher) (e : String) (L : Listener)
    (H : Handlers σ) (ev : BaseEvent) (s : σ) (hname : ev.Name = e)
    (hev : ev.IsPropagationStopped = false) (hH : NeverStops H) :
    d.AddListener e L [] = d.AddListener e L [0] ∧
    (ListenerPriority.mk L 0) ∈
      (EventDispatcher.Dispatch H { dispatcher := d.AddListener e L [], event := ev, user := s }).2 ∧
    (∀ (i j : Nat) (x : ListenerPriority),
      ((EventDispatcher.Dispatch H
        { dispatcher := d.AddListener e L [], event := ev, user := s }).2)[i]?
          = some (ListenerPriority.mk L 0) →
      ((EventDispatcher.Dispatch H
        { dispatcher := d.AddListener e L [], event := ev, user := s }).2)[j]? = some x →
      (0 < x.Priority → j < i) ∧ (x.Priority < 0 → i < j)) := by
  refine ⟨rfl, ?_⟩
  rw [Dispatch_eq_loop]
  simp only [hname]
  rw [(dispatchLoop_neverStops H hH _ _ hev).1]
  have he : (d.AddListener e L []).entries e
      = sort_Sort (d.entries e ++ [{ Listener := L, Priority := 0 }]) := by
    rw [entries_AddListener, if_pos rfl]
  rw [he]
  have hsp := sort_Sort_spec (d.entries e ++ [{ Listener := L, Priority := 0 }])
  refine ⟨hsp.1.mem_iff.mpr (by simp), ?_⟩
  intro i j x hi hj
  exact ⟨fun h => sorted_position hsp.2 hj hi (by simpa using h),
    fun h => sorted_position hsp.2 hi hj (by simpa using h)⟩

/-- C16 (witness): with `P@5` and `N@-5` registered, `AddListener("e", L)` without priority
puts `L` between them. -/
theorem C16_default_priority_witness :
    (NewEvent "e" []).Name = "e" ∧ NeverStops quietHandlers ∧
    (EventDispatcher.Dispatch quietHandlers
      { dispatcher := ((NewDispatcher.AddListener "e" (ptr 1) [5]).AddListener "e" (ptr 2)
          [-5]).AddListener "e" (ptr 3) [],
        event := NewEvent "e" [], user := () }).2
      = [⟨ptr 1, 5⟩, ⟨ptr 3, 0⟩, ⟨ptr 2, -5⟩] ∧
    (ListenerPriority.mk (ptr 3) 0) ∈
      (EventDispatcher.Dispatch quietHandlers
        { dispatcher := ((NewDispatcher.AddListener "e" (ptr 1) [5]).AddListener "e" (ptr 2)
            [-5]).AddListener "e" (ptr 3) [],
          event := NewEvent "e" [], user := () }).2 :=
  ⟨rfl, fun _ _ h => h, by decide,
    (C16_default_priority ((NewDispatcher.AddListener "e" (ptr 1) [5]).AddListener "e" (ptr 2)
      [-5]) "e" (ptr 3) quietHandlers (NewEvent "e" []) () rfl rfl (fun _ _ h => h)).2.1⟩

/-! ## C17 and C18: the event -/

/-- C17: a new event is not stopped; after `StopPropagation()` it is; any further number of
`StopPropagation()` calls leaves the event in the same state; no sequence of operations on
the event (its four methods, and writes and deletes through `Arguments()`) brings a stopped
event back to not stopped; `StopPropagation()` changes neither `Name()` nor `Arguments()`. -/
theorem C17_stop_flag_one_way (name : String) (arguments : List (Option (List (String × Value))))
    (e : BaseEvent) :
    (NewEvent name arguments).IsPropagationStopped = false ∧
    e.StopPropagation.IsPropagationStopped = true ∧
    (∀ n : Nat, stopTimes n e.StopPropagation = e.StopPropagation) ∧
    (∀ (ops : List EventOp) (e1 : BaseEvent), applyOps ops e = .ok e1 →
      e.IsPropagationStopped = true → e1.IsPropagationStopped = true) ∧
    e.StopPropagation.Name = e.Name ∧ e.StopPropagation.Arguments = e.Arguments := by
  refine ⟨rfl, rfl, ?_, fun ops e1 h hs => applyOps_keeps_stopped ops e e1 h hs, rfl, rfl⟩
  intro n
  cases n with
  | zero => rfl
  | succ n => exact stopTimes_succ n e.StopPropagation

/-- C17 (witness): a stopped event stays stopped through a write, a delete, a further stop
and the read-only methods. -/
theorem C17_stop_flag_one_way_witness :
    applyOps [EventOp.setArgument "k" (Value.int 1), EventOp.deleteArgument "k",
        EventOp.StopPropagation, EventOp.Name, EventOp.Arguments, EventOp.IsPropagationStopped]
      (NewEvent "user.created" []).StopPropagation
      = .ok { name := "user.created", arguments := some [], propagationStopped := true } ∧
    (NewEvent "user.created" []).StopPropagation.IsPropagationStopped = true ∧
    ({ name := "user.created", arguments := some [],
       propagationStopped := true } : BaseEvent).IsPropagationStopped = true :=
  ⟨rfl, rfl,
    (C17_stop_flag_one_way "user.created" [] (NewEvent "user.created" []).StopPropagation).2.2.2.1
      [EventOp.setArgument "k" (Value.int 1), EventOp.deleteArgument "k",
        EventOp.StopPropagation, EventOp.Name, EventOp.Arguments, EventOp.IsPropagationStopped]
      _ rfl rfl⟩

/-- C18: `NewEvent(name, m)` has the name `name` (also the empty one) and the argument
mapping `m`; `NewEvent(name)` has an empty mapping that is not nil and takes a write; in
both cases the event is not stopped. -/
theorem C18_new_event_round_trip (name : String) (m : Option (List (String × Value)))
    (more : List (Option (List (String × Value)))) (key : String) (v : Value) :
    (NewEvent name (m :: more)).Name = name ∧
    (NewEvent name (m :: more)).Arguments = m ∧
    (NewEvent name (m :: more)).IsPropagationStopped = false ∧
    (NewEvent name []).Name = name ∧
    (NewEvent name []).Arguments = some [] ∧
    (NewEvent name []).IsPropagationStopped = false ∧
    (NewEvent name []).setArgument key v
      = .ok { name := name, arguments := some [(key, v)], propagationStopped := false } ∧
    argsGet (some [(key, v)]) key = some v ∧
    (NewEvent "" (m :: more)).Name = "" := by
  refine ⟨rfl, rfl, rfl, rfl, rfl, rfl, rfl, ?_, rfl⟩
  simp [argsGet, List.lookup]

/-! ## Lemmas on changes of one key of the argument bag -/

theorem lookup_filter_ne (l : List (String × Value)) (k key : String) (h : k ≠ key) :
    List.lookup key (l.filter (fun p => p.1 ≠ k)) = List.lookup key l := by
  induction l with
  | nil => rfl
  | cons x xs ih =>
    by_cases hx : x.1 = k
    · have hne : ¬ (key = x.1) := fun hk => h (hk.trans hx).symm
      have hb : (key == x.1) = false := by simpa using hne
      rw [List.filter_cons_of_neg (by simpa using hx)]
      rw [ih]
      obtain ⟨a, b⟩ := x
      simp only [List.lookup, hb]
    · rw [List.filter_cons_of_pos (by simpa using hx)]
      obtain ⟨a, b⟩ := x
      cases hb : (key == a) with
      | true => simp only [List.lookup, hb]
      | false => simp only [List.lookup, hb, ih]

theorem lookup_filter_self (l : List (String × Value)) (key : String) :
    List.lookup key (l.filter (fun p => p.1 ≠ key)) = none := by
  induction l with
  | nil => rfl
  | cons x xs ih =>
    by_cases hx : x.1 = key
    · rw [List.filter_cons_of_neg (by simpa using hx)]
      exact ih
    · rw [List.filter_cons_of_pos (by simpa using hx)]
      obtain ⟨a, b⟩ := x
      have hb : (key == a) = false := by
        simp only [beq_eq_false_iff_ne, ne_eq]
        exact fun hk => hx hk.symm
      simp only [List.lookup, hb, ih]

theorem keyChange_apply (key : String) (change : Option Value) (e e1 : BaseEvent)
    (h : (keyChange key change).apply e = .ok e1) : argsGet e1.Arguments key = change := by
  obtain ⟨n, args, st⟩ := e
  cases change with
  | some v =>
    cases args with
    | none => simp [keyChange, EventOp.apply, BaseEvent.setArgument, BaseEvent.Arguments, argsSet] at h
    | some l =>
      simp only [keyChange, EventOp.apply, BaseEvent.setArgument, BaseEvent.Arguments, argsSet,
        Except.ok.injEq] at h
      subst h
      simp [BaseEvent.Arguments, argsGet, List.lookup]
  | none =>
    simp only [keyChange, EventOp.apply, Except.ok.injEq] at h
    subst h
    cases args with
    | none => rfl
    | some l =>
      simp only [BaseEvent.deleteArgument, BaseEvent.Arguments, argsDelete, argsGet]
      exact lookup_filter_self l key

theorem EventOp.apply_untouched (key : String) (op : EventOp) (e e1 : BaseEvent)
    (ht : op.touches key = false) (h : op.apply e = .ok e1) :
    argsGet e1.Arguments key = argsGet e.Arguments key := by
  obtain ⟨n, args, st⟩ := e
  cases op with
  | Name => simp only [EventOp.apply, Except.ok.injEq] at h; subst h; rfl
  | Arguments => simp only [EventOp.apply, Except.ok.injEq] at h; subst h; rfl
  | StopPropagation => simp only [EventOp.apply, Except.ok.injEq] at h; subst h; rfl
  | IsPropagationStopped => simp only [EventOp.apply, Except.ok.injEq] at h; subst h; rfl
  | setArgument k v =>
    have hk : k ≠ key := by simpa [EventOp.touches] using ht
    cases args with
    | none => simp [EventOp.apply, BaseEvent.setArgument, BaseEvent.Arguments, argsSet] at h
    | some l =>
      simp only [EventOp.apply, BaseEvent.setArgument, BaseEvent.Arguments, argsSet,
        Except.ok.injEq] at h
      subst h
      have hb : (key == k) = false := by
        simp only [beq_eq_false_iff_ne, ne_eq]
        exact fun hh => hk hh.symm
      simp only [BaseEvent.Arguments, argsGet, List.lookup, hb]
      exact lookup_filter_ne l k key hk
  | deleteArgument k =>
    have hk : k ≠ key := by simpa [EventOp.touches] using ht
    simp only [EventOp.apply, Except.ok.injEq] at h
    subst h
    cases args with
    | none => rfl
    | some l =>
      simp only [BaseEvent.deleteArgument, BaseEvent.Arguments, argsDelete, argsGet]
      exact lookup_filter_ne l k key hk

theorem applyOps_untouched (key : String) :
    ∀ (ops : List EventOp) (e e1 : BaseEvent), (∀ op ∈ ops, op.touches key = false) →
      applyOps ops e = .ok e1 → argsGet e1.Arguments key = argsGet e.Arguments key := by
  intro ops
  induction ops with
  | nil =>
    intro e e1 _ h
    simp only [applyOps, Except.ok.injEq] at h
    subst h
    rfl
  | cons op rest ih =>
    intro e e1 ht h
    unfold applyOps at h
    cases hop : op.apply e with
    | error msg => rw [hop] at h; simp at h
    | ok e2 =>
      rw [hop] at h
      simp only [] at h
      rw [ih e2 e1 (fun o ho => ht o (List.mem_cons_of_mem _ ho)) h]
      exact EventOp.apply_untouched key op e e2 (ht op (List.mem_cons_self _ _)) hop

theorem applyOps_append_ok :
    ∀ (a b : List EventOp) (e e2 : BaseEvent), applyOps (a ++ b) e = .ok e2 →
      ∃ e1, applyOps a e = .ok e1 ∧ applyOps b e1 = .ok e2 := by
  intro a
  induction a with
  | nil => intro b e e2 h; exact ⟨e, rfl, h⟩
  | cons op rest ih =>
    intro b e e2 h
    rw [List.cons_append] at h
    unfold applyOps at h
    cases hop : op.apply e with
    | error msg => rw [hop] at h; simp at h
    | ok e3 =>
      rw [hop] at h
      simp only [] at h
      obtain ⟨e1, h1, h2⟩ := ih b e3 e2 h
      refine ⟨e1, ?_, h2⟩
      unfold applyOps
      rw [hop]
      exact h1

theorem applyOps_keyChange (key : String) (change : Option Value)
    (before after : List EventOp) (e e2 : BaseEvent)
    (h : applyOps (before ++ keyChange key change :: after) e = .ok e2)
    (hafter : ∀ op ∈ after, op.touches key = false) :
    argsGet e2.Arguments key = change := by
  obtain ⟨e1, _, h2⟩ := applyOps_append_ok before _ e e2 h
  unfold applyOps at h2
  cases hop : (keyChange key change).apply e1 with
  | error msg => rw [hop] at h2; simp at h2
  | ok e3 =>
    rw [hop] at h2
    simp only [] at h2
    rw [applyOps_untouched key after e3 e2 hafter h2]
    exact keyChange_apply key change e1 e3 hop


/-! ## C19: the live argument bag -/

/-- C19: listeners and the caller share the event's argument bag.  Let the listener at
position `k` be invoked, and let its effect on the event be a sequence of operations of
`Event` that contains the change of `key` (`e.Arguments()[key] = v` for `change = some v`,
`delete(e.Arguments(), key)` for `change = none`) with no later operation on that key.
Then looking `key` up in `Arguments()` gives `change` in the world that listener leaves;
every listener is invoked on exactly the world its predecessor left, and `Dispatch` returns
the event of the world the last invoked listener left; so the listener at position `k + 1`
finds the change, a listener at a later position `m` finds it when the listeners in between
leave the binding of `key` as they found it, and so does the caller. -/
theorem C19_live_arguments {σ : Type} (H : Handlers σ) (w : World σ) (el : EventListeners)
    (key : String) (change : Option Value) (before after : List EventOp)
    (k : Nat) (lk : ListenerPriority)
    (hreg : w.dispatcher.listeners w.event.Name = some el)
    (hk : k < (EventDispatcher.Dispatch H w).2.length)
    (hlk : el[k]? = some lk)
    (hchange : applyOps (before ++ keyChange key change :: after) (worldAfter H el w k).event
      = .ok (H lk.Listener (worldAfter H el w k)).1.event)
    (hafter : ∀ op ∈ after, op.touches key = false) :
    argsGet (worldAfter H el w (k + 1)).event.Arguments key = change ∧
    (∀ (m : Nat) (l : ListenerPriority), el[m]? = some l →
      worldAfter H el w (m + 1) = (H l.Listener (worldAfter H el w m)).1) ∧
    (EventDispatcher.Dispatch H w).1
      = worldAfter H el w (EventDispatcher.Dispatch H w).2.length ∧
    (∀ m : Nat, k < m → m ≤ (EventDispatcher.Dispatch H w).2.length →
      (∀ (j : Nat) (l : ListenerPriority), k < j → j < m → el[j]? = some l →
        argsGet (H l.Listener (worldAfter H el w j)).1.event.Arguments key
          = argsGet (worldAfter H el w j).event.Arguments key) →
      argsGet (worldAfter H el w m).event.Arguments key = change) ∧
    ((∀ (j : Nat) (l : ListenerPriority), k < j →
        j < (EventDispatcher.Dispatch H w).2.length → el[j]? = some l →
        argsGet (H l.Listener (worldAfter H el w j)).1.event.Arguments key
          = argsGet (worldAfter H el w j).event.Arguments key) →
      argsGet (EventDispatcher.Dispatch H w).1.event.Arguments key = change) := by
  have hd : EventDispatcher.Dispatch H w = dispatchLoop H el w := by
    unfold EventDispatcher.Dispatch
    rw [hreg]
  have hlen : (EventDispatcher.Dispatch H w).2.length ≤ el.length := by
    rw [hd]
    exact (dispatchLoop_invoked_initial H el w).length_le
  have hret : (EventDispatcher.Dispatch H w).1
      = worldAfter H el w (EventDispatcher.Dispatch H w).2.length := by
    rw [hd]
    exact (dispatchLoop_char H el w).1
  have h1 : argsGet (worldAfter H el w (k + 1)).event.Arguments key = change := by
    rw [worldAfter_succ H el w k lk hlk]
    exact applyOps_keyChange key change before after _ _ hchange hafter
  have hlater : ∀ m : Nat, k < m → m ≤ (EventDispatcher.Dispatch H w).2.length →
      (∀ (j : Nat) (l : ListenerPriority), k < j → j < m → el[j]? = some l →
        argsGet (H l.Listener (worldAfter H el w j)).1.event.Arguments key
          = argsGet (worldAfter H el w j).event.Arguments key) →
      argsGet (worldAfter H el w m).event.Arguments key = change := by
    intro m hkm hm hkeep
    have key1 : ∀ n, k + 1 + n ≤ m →
        argsGet (worldAfter H el w (k + 1 + n)).event.Arguments key = change := by
      intro n
      induction n with
      | zero => intro _; exact h1
      | succ n ih =>
        intro hn
        have hj : k + 1 + n < el.length := by omega
        have hl : el[k + 1 + n]? = some (el[k + 1 + n]) := List.getElem?_eq_getElem hj
        have e : k + 1 + (n + 1) = (k + 1 + n) + 1 := by omega
        rw [e, worldAfter_succ H el w _ _ hl, hkeep (k + 1 + n) _ (by omega) (by omega) hl]
        exact ih (by omega)
    have h3 := key1 (m - (k + 1)) (by omega)
    have e : k + 1 + (m - (k + 1)) = m := by omega
    rwa [e] at h3
  refine ⟨h1, fun m l hl => worldAfter_succ H el w m l hl, hret, hlater, ?_⟩
  intro hkeep
  rw [hret]
  exact hlater _ hk (le_refl _) hkeep

/-- C19 (witness): in the middleware example the timing listener (position 0) executes
`args["_timing_start"] = start`; the cleanup listener (position 3) is invoked on a bag that
holds the value, logs it and executes `delete(args, "_timing_start")`, and the event returned
to the caller no longer has the key. -/
theorem C19_live_arguments_witness :
    middlewareDispatcher.listeners "order.created"
      = some [⟨ptr 1, 1000⟩, ⟨ptr 2, 900⟩, ⟨ptr 4, 100⟩, ⟨ptr 3, -1000⟩] ∧
    argsGet (worldAfter middlewareHandlers
        [⟨ptr 1, 1000⟩, ⟨ptr 2, 900⟩, ⟨ptr 4, 100⟩, ⟨ptr 3, -1000⟩]
        { dispatcher := middlewareDispatcher, event := NewEvent "order.created" [], user := [] }
        1).event.Arguments "_timing_start" = some (Value.int 42) ∧
    (EventDispatcher.Dispatch middlewareHandlers
      { dispatcher := middlewareDispatcher, event := NewEvent "order.created" [],
        user := [] }).1.user = [some (Value.int 42)] ∧
    argsGet (EventDispatcher.Dispatch middlewareHandlers
      { dispatcher := middlewareDispatcher, event := NewEvent "order.created" [],
        user := [] }).1.event.Arguments "_timing_start" = none :=
  ⟨by decide,
    (C19_live_arguments middlewareHandlers
      { dispatcher := middlewareDispatcher, event := NewEvent "order.created" [], user := [] }
      [⟨ptr 1, 1000⟩, ⟨ptr 2, 900⟩, ⟨ptr 4, 100⟩, ⟨ptr 3, -1000⟩]
      "_timing_start" (some (Value.int 42)) [] [] 0 ⟨ptr 1, 1000⟩ (by decide)
      (lt_of_lt_of_eq (by decide : 0 < 4) (by rfl)) (by rfl) (by rfl)
      (fun _ h => absurd h (List.not_mem_nil _))).1,
    by rfl,
    (C19_live_arguments middlewareHandlers
      { dispatcher := middlewareDispatcher, event := NewEvent "order.created" [], user := [] }
      [⟨ptr 1, 1000⟩, ⟨ptr 2, 900⟩, ⟨ptr 4, 100⟩, ⟨ptr 3, -1000⟩]
      "_timing_start" none [] [] 3 ⟨ptr 3, -1000⟩ (by decide)
      (lt_of_lt_of_eq (by decide : 3 < 4) (by rfl)) (by rfl) (by rfl)
      (fun _ h => absurd h (List.not_mem_nil _))).2.2.2.2
      (fun j l h1 h2 _ => absurd h2 (by
        have e : (EventDispatcher.Dispatch middlewareHandlers
          { dispatcher := middlewareDispatcher, event := NewEvent "order.created" [],
            user := [] }).2.length = 4 := by rfl
        rw [e]
        omega))⟩

/-! ## C20: comparing function listeners -/

/-- C20 (failing input): with the `ListenerFunc` `f` registered for "user.created" and `g`
another `ListenerFunc`, both `HasListener("user.created", g)` and
`RemoveListener("user.created", g)` panic. -/
theorem C20_function_listeners_panic :
    (NewDispatcher.AddListener "user.created" (Listener.func 10) [5]).HasListener "user.created"
        (Listener.func 11)
      = Except.error "runtime error: comparing uncomparable type event.ListenerFunc" ∧
    (NewDispatcher.AddListener "user.created" (Listener.func 10) [5]).RemoveListener
        "user.created" (Listener.func 11)
      = Except.error "runtime error: comparing uncomparable type event.ListenerFunc" := by
  exact ⟨rfl, rfl⟩


/-! ## Lemmas on subscriber registration -/

theorem registerConfigs_spec {σ : Type} (S : Subscriber σ) (name : String) :
    ∀ (configs : List SubscriberConfig) (rt : Runtime σ),
      (registerConfigs S name configs rt).nextFunc = rt.nextFunc + configs.length ∧
      ((registerConfigs S name configs rt).dispatcher.entries name).Perm
        (rt.dispatcher.entries name ++ closureEntries rt.nextFunc configs) ∧
      (∀ k, k ≠ name →
        (registerConfigs S name configs rt).dispatcher.entries k = rt.dispatcher.entries k) ∧
      (∀ L, (∀ i, i < configs.length → L ≠ Listener.func (rt.nextFunc + i)) →
        (registerConfigs S name configs rt).handlers L = rt.handlers L) ∧
      (∀ (i : Nat) (c : SubscriberConfig), configs[i]? = some c →
        (registerConfigs S name configs rt).handlers (Listener.func (rt.nextFunc + i))
          = createListenerFromSubscriber S c.Method) := by
  intro configs
  induction configs with
  | nil =>
    intro rt
    refine ⟨rfl, by simp [registerConfigs, closureEntries], fun _ _ => rfl, fun _ _ => rfl, ?_⟩
    intro i c h
    simp at h
  | cons c0 rest ih =>
    intro rt
    unfold registerConfigs
    simp only []
    obtain ⟨h1, h2, h3, h4, h5⟩ := ih
      { handlers := fun L =>
          if L = Listener.func rt.nextFunc then createListenerFromSubscriber S c0.Method
          else rt.handlers L,
        nextFunc := rt.nextFunc + 1,
        dispatcher := rt.dispatcher.AddListener name (Listener.func rt.nextFunc) [c0.Priority] }
    simp only [] at h1 h2 h3 h4 h5
    refine ⟨by rw [h1]; simp only [List.length_cons]; omega, ?_, ?_, ?_, ?_⟩
    · refine h2.trans ?_
      rw [entries_AddListener_same]
      have hs := (sort_Sort_spec (rt.dispatcher.entries name ++
        [{ Listener := Listener.func rt.nextFunc, Priority := c0.Priority }])).1
      have := hs.append_right (closureEntries (rt.nextFunc + 1) rest)
      simpa [closureEntries] using this
    · intro k hk
      rw [h3 k hk, entries_AddListener, if_neg hk]
    · intro L hL
      rw [h4 L (by
        intro i hi
        have := hL (i + 1) (by simp only [List.length_cons]; omega)
        have e : rt.nextFunc + (i + 1) = rt.nextFunc + 1 + i := by omega
        rwa [e] at this)]
      have h0 := hL 0 (by simp)
      simp only [Nat.add_zero] at h0
      simp only [h0, if_false]
    · intro i c hc
      cases i with
      | zero =>
        simp only [List.getElem?_cons_zero, Option.some.injEq] at hc
        subst hc
        rw [Nat.add_zero, h4 _ (by
          intro i _ h
          injection h with h
          omega)]
        simp
      | succ j =>
        simp only [List.getElem?_cons_succ] at hc
        have := h5 j c hc
        have e : rt.nextFunc + (j + 1) = rt.nextFunc + 1 + j := by omega
        rw [e]
        exact this

theorem registerEvents_spec {σ : Type} (S : Subscriber σ) :
    ∀ (events : List (String × List SubscriberConfig)) (rt : Runtime σ),
      (events.map Prod.fst).Nodup →
      rt.nextFunc ≤ (registerEvents S events rt).nextFunc ∧
      (∀ name configs, (name, configs) ∈ events →
        ∃ n, rt.nextFunc ≤ n ∧ n + configs.length ≤ (registerEvents S events rt).nextFunc ∧
          ((registerEvents S events rt).dispatcher.entries name).Perm
            (rt.dispatcher.entries name ++ closureEntries n configs) ∧
          (∀ (i : Nat) (c : SubscriberConfig), configs[i]? = some c →
            (registerEvents S events rt).handlers (Listener.func (n + i))
              = createListenerFromSubscriber S c.Method)) ∧
      (∀ k, k ∉ events.map Prod.fst →
        (registerEvents S events rt).dispatcher.entries k = rt.dispatcher.entries k) ∧
      (∀ L, (∀ id, rt.nextFunc ≤ id → id < (registerEvents S events rt).nextFunc →
          L ≠ Listener.func id) →
        (registerEvents S events rt).handlers L = rt.handlers L) := by
  intro events
  induction events with
  | nil =>
    intro rt _
    refine ⟨Nat.le_refl _, ?_, fun _ _ => rfl, fun _ _ => rfl⟩
    intro name configs h
    simp at h
  | cons ev rest ih =>
    obtain ⟨name0, configs0⟩ := ev
    intro rt hnd
    simp only [List.map_cons, List.nodup_cons] at hnd
    obtain ⟨hnot, hnd'⟩ := hnd
    obtain ⟨c1, c2, c3, c4, c5⟩ := registerConfigs_spec S name0 configs0 rt
    obtain ⟨i1, i2, i3, i4⟩ := ih (registerConfigs S name0 configs0 rt) hnd'
    unfold registerEvents
    refine ⟨by omega, ?_, ?_, ?_⟩
    · intro name configs hmem
      rcases List.mem_cons.mp hmem with heq | hin
      · injection heq with e1 e2
        subst e1; subst e2
        refine ⟨rt.nextFunc, Nat.le_refl _, by omega, ?_, ?_⟩
        · rw [i3 name hnot]
          exact c2
        · intro i c hc
          have hi : i < configs.length := (List.getElem?_eq_some.mp hc).1
          rw [i4 _ (by
            intro id h1 _ h
            injection h with h
            omega)]
          exact c5 i c hc
      · obtain ⟨n, n1, n2, n3, n4⟩ := i2 name configs hin
        have hne : name ≠ name0 := by
          intro h
          subst h
          exact hnot (List.mem_map.mpr ⟨(name, configs), hin, rfl⟩)
        refine ⟨n, by omega, n2, ?_, n4⟩
        rw [← c3 name hne]
        exact n3
    · intro k hk
      simp only [List.map_cons, List.mem_cons, not_or] at hk
      rw [i3 k hk.2, c3 k hk.1]
    · intro L hL
      rw [i4 L (fun id h1 h2 => hL id (by omega) h2)]
      exact c4 L (fun i hi => hL _ (by omega) (by omega))

theorem registerListenerConfigs_spec (name m : String) (L : Listener) :
    ∀ (configs : List SubscriberConfig) (d : EventDispatcher),
      ((registerListenerConfigs name m L configs d).entries name).Perm
        (d.entries name ++
          (configs.filter (fun c => decide (c.Method = m))).map
            (fun c => { Listener := L, Priority := c.Priority })) ∧
      (∀ k, k ≠ name → (registerListenerConfigs name m L configs d).entries k = d.entries k) := by
  intro configs
  induction configs with
  | nil => intro d; exact ⟨by simp [registerListenerConfigs], fun _ _ => rfl⟩
  | cons c rest ih =>
    intro d
    unfold registerListenerConfigs
    by_cases hc : c.Method = m
    · rw [if_pos hc]
      obtain ⟨h1, h2⟩ := ih (d.AddListener name L [c.Priority])
      refine ⟨h1.trans ?_, ?_⟩
      · rw [entries_AddListener_same]
        have hs := (sort_Sort_spec (d.entries name ++
          [{ Listener := L, Priority := c.Priority }])).1
        have := hs.append_right ((rest.filter (fun c => decide (c.Method = m))).map
          (fun c => ({ Listener := L, Priority := c.Priority } : ListenerPriority)))
        simpa [List.filter_cons, hc] using this
      · intro k hk
        rw [h2 k hk, entries_AddListener, if_neg hk]
    · rw [if_neg hc]
      obtain ⟨h1, h2⟩ := ih d
      refine ⟨?_, h2⟩
      simpa [List.filter_cons, hc] using h1

theorem registerListenerEvents_spec (m : String) (L : Listener) :
    ∀ (events : List (String × List SubscriberConfig)) (d : EventDispatcher),
      (events.map Prod.fst).Nodup →
      (∀ name configs, (name, configs) ∈ events →
        ((registerListenerEvents m L events d).entries name).Perm
          (d.entries name ++
            (configs.filter (fun c => decide (c.Method = m))).map
              (fun c => { Listener := L, Priority := c.Priority }))) ∧
      (∀ k, k ∉ events.map Prod.fst → (registerListenerEvents m L events d).entries k = d.entries k) := by
  intro events
  induction events with
  | nil =>
    intro d _
    refine ⟨?_, fun _ _ => rfl⟩
    intro name configs h
    simp at h
  | cons ev rest ih =>
    obtain ⟨name0, configs0⟩ := ev
    intro d hnd
    simp only [List.map_cons, List.nodup_cons] at hnd
    obtain ⟨hnot, hnd'⟩ := hnd
    obtain ⟨c1, c2⟩ := registerListenerConfigs_spec name0 m L configs0 d
    obtain ⟨i1, i2⟩ := ih (registerListenerConfigs name0 m L configs0 d) hnd'
    unfold registerListenerEvents
    refine ⟨?_, ?_⟩
    · intro name configs hmem
      rcases List.mem_cons.mp hmem with heq | hin
      · injection heq with e1 e2
        subst e1; subst e2
        rw [i2 name hnot]
        exact c1
      · have hne : name ≠ name0 := by
          intro h
          subst h
          exact hnot (List.mem_map.mpr ⟨(name, configs), hin, rfl⟩)
        rw [← c2 name hne]
        exact i1 name configs hin
    · intro k hk
      simp only [List.map_cons, List.mem_cons, not_or] at hk
      rw [i2 k hk.2, c2 k hk.1]

theorem dispatchLoopE_cons {σ : Type} (H : HandlersE σ) (l : ListenerPriority)
    (rest : EventListeners) (w : World σ) :
    dispatchLoopE H (l :: rest) w =
      match H l.Listener w with
      | .error msg => .error msg
      | .ok r1 =>
        if r1.1.event.IsPropagationStopped then .ok (r1.1, [l])
        else
          match dispatchLoopE H rest r1.1 with
          | .error msg => .error msg
          | .ok r => .ok (r.1, l :: r.2) := rfl

theorem dispatchLoopE_append {σ : Type} (H : HandlersE σ) :
    ∀ (pre rest : EventListeners) (w w1 : World σ) (tr : List ListenerPriority),
      dispatchLoopE H pre w = .ok (w1, tr) →
      (pre = [] ∨ w1.event.IsPropagationStopped = false) →
      dispatchLoopE H (pre ++ rest) w =
        match dispatchLoopE H rest w1 with
        | .error msg => .error msg
        | .ok r => .ok (r.1, pre ++ r.2) := by
  intro pre
  induction pre with
  | nil =>
    intro rest w w1 tr h _
    simp only [dispatchLoopE, Except.ok.injEq, Prod.mk.injEq] at h
    obtain ⟨h1, _⟩ := h
    subst h1
    simp only [List.nil_append]
    cases dispatchLoopE H rest w <;> rfl
  | cons l pre ih =>
    intro rest w w1 tr h hs
    have hs1 : w1.event.IsPropagationStopped = false := by
      rcases hs with hs | hs
      · simp at hs
      · exact hs
    rw [List.cons_append, dispatchLoopE_cons]
    rw [dispatchLoopE_cons] at h
    cases hl : H l.Listener w with
    | error msg => rw [hl] at h; simp at h
    | ok r1 =>
      rw [hl] at h
      simp only [] at h ⊢
      by_cases hst : r1.1.event.IsPropagationStopped = true
      · rw [if_pos hst] at h
        simp only [Except.ok.injEq, Prod.mk.injEq] at h
        rw [← h.1, hst] at hs1
        simp at hs1
      · rw [if_neg hst] at h ⊢
        cases hp : dispatchLoopE H pre r1.1 with
        | error msg => rw [hp] at h; simp at h
        | ok r =>
          rw [hp] at h
          simp only [Except.ok.injEq, Prod.mk.injEq] at h
          obtain ⟨r2, tr2⟩ := r
          simp only [] at h
          have hw : r2 = w1 := h.1
          subst hw
          rw [ih rest r1.1 r2 tr2 hp (Or.inr hs1)]
          cases dispatchLoopE H rest r2 <;> rfl

theorem DispatchE_ofTotal {σ : Type} (H : Handlers σ) (w : World σ) :
    EventDispatcher.DispatchE (HandlersE.ofTotal H) w = .ok (EventDispatcher.Dispatch H w) := by
  have key : ∀ (el : EventListeners) (w : World σ),
      dispatchLoopE (HandlersE.ofTotal H) el w = .ok (dispatchLoop H el w) := by
    intro el
    induction el with
    | nil => intro w; rfl
    | cons l rest ih =>
      intro w
      unfold dispatchLoopE dispatchLoop
      simp only [HandlersE.ofTotal]
      split_ifs
      · rfl
      · rw [ih]
  unfold EventDispatcher.DispatchE EventDispatcher.Dispatch
  cases w.dispatcher.listeners w.event.Name with
  | none => rfl
  | some el => exact key el w


theorem DispatchE_eq_loop {σ : Type} (H : HandlersE σ) (w : World σ) :
    EventDispatcher.DispatchE H w = dispatchLoopE H (w.dispatcher.entries w.event.Name) w := by
  unfold EventDispatcher.DispatchE EventDispatcher.entries
  cases w.dispatcher.listeners w.event.Name <;> rfl

theorem listeners_of_entries_cons {d : EventDispatcher} {name : String} {x : ListenerPriority}
    {rest : EventListeners} (h : d.listeners name = some (x :: rest)) :
    d.entries name = x :: rest := by
  unfold EventDispatcher.entries
  rw [h]

theorem mem_closureEntries : ∀ (configs : List SubscriberConfig) (n i : Nat)
    (c : SubscriberConfig), configs[i]? = some c →
    (ListenerPriority.mk (Listener.func (n + i)) c.Priority) ∈ closureEntries n configs := by
  intro configs
  induction configs with
  | nil => intro n i c h; simp at h
  | cons c0 rest ih =>
    intro n i c h
    cases i with
    | zero =>
      simp only [List.getElem?_cons_zero, Option.some.injEq] at h
      subst h
      simp [closureEntries]
    | succ j =>
      simp only [List.getElem?_cons_succ] at h
      have := ih (n + 1) j c h
      have e : n + (j + 1) = n + 1 + j := by omega
      rw [e]
      simp only [closureEntries, List.mem_cons]
      exact Or.inr this

theorem createListener_missing {σ : Type} (S : Subscriber σ) (m : String)
    (h : S.methods m = none) (w : World σ) :
    createListenerFromSubscriber S m w
      = .error ("Method " ++ m ++ " does not exist on subscriber " ++ S.typeName) := by
  unfold createListenerFromSubscriber
  rw [h]

theorem createListener_found {σ : Type} (S : Subscriber σ) (m : String)
    (method : World σ → Except String (World σ × List ReflectValue))
    (h : S.methods m = some method) (w : World σ) :
    createListenerFromSubscriber S m w =
      match method w with
      | .error msg => .error msg
      | .ok r => .ok (r.1, adaptedResult r.2) := by
  unfold createListenerFromSubscriber
  rw [h]
  simp only []
  cases method w with
  | error msg => rfl
  | ok r =>
    obtain ⟨w1, res⟩ := r
    cases res with
    | nil => rfl
    | cons v rest => cases v <;> rfl

/-! ## C12: registering a subscriber -/

/-- C12: `RegisterSubscriber(d, S)` adds, for every event name of the descriptor and every
config listed under it, one new entry under that name at the config's priority (the entries
of the name become the old ones plus one closure per config, the `i`-th at the priority of
the `i`-th config), and changes no other event name; the code of the `i`-th closure calls
the method named by the `i`-th config with the world holding the dispatched event and
returns its adapted result.  On a name without earlier entries and with one config whose
method exists, dispatching an event of that name invokes exactly that entry and yields the
world the method left. -/
theorem C12_register_subscriber {σ : Type} (rt : Runtime σ) (S : Subscriber σ)
    (hnodup : (S.GetSubscribedEvents.map Prod.fst).Nodup) :
    (∀ name configs, (name, configs) ∈ S.GetSubscribedEvents →
      ∃ n,
        ((RegisterSubscriber rt S).dispatcher.entries name).Perm
          (rt.dispatcher.entries name ++ closureEntries n configs) ∧
        (∀ (i : Nat) (c : SubscriberConfig), configs[i]? = some c →
          ∀ method, S.methods c.Method = some method → ∀ w : World σ,
            (RegisterSubscriber rt S).handlers (Listener.func (n + i)) w =
              match method w with
              | .error msg => .error msg
              | .ok r => .ok (r.1, adaptedResult r.2)) ∧
        (∀ (c : SubscriberConfig) method (w : World σ) (r : World σ × List ReflectValue),
          rt.dispatcher.entries name = [] → configs = [c] →
          S.methods c.Method = some method → method w = .ok r →
          w.dispatcher = (RegisterSubscriber rt S).dispatcher → w.event.Name = name →
          EventDispatcher.DispatchE (RegisterSubscriber rt S).handlers w
            = .ok (r.1, [{ Listener := Listener.func n, Priority := c.Priority }]))) ∧
    (∀ k, k ∉ S.GetSubscribedEvents.map Prod.fst →
      (RegisterSubscriber rt S).dispatcher.entries k = rt.dispatcher.entries k) := by
  obtain ⟨_, h2, h3, _⟩ := registerEvents_spec S S.GetSubscribedEvents rt hnodup
  refine ⟨?_, h3⟩
  intro name configs hmem
  obtain ⟨n, _, _, n3, n4⟩ := h2 name configs hmem
  refine ⟨n, n3, ?_, ?_⟩
  · intro i c hc method hmeth w
    unfold RegisterSubscriber
    rw [n4 i c hc]
    exact createListener_found S c.Method method hmeth w
  · intro c method w r hold hcfg hmeth hcall hwd hwn
    subst hcfg
    have hent : (RegisterSubscriber rt S).dispatcher.entries name
        = [{ Listener := Listener.func n, Priority := c.Priority }] := by
      have hp := n3
      rw [hold] at hp
      simp only [List.nil_append, closureEntries] at hp
      exact List.perm_singleton.mp hp
    have hh := n4 0 c (by simp)
    rw [DispatchE_eq_loop, hwd, hwn, hent, dispatchLoopE_cons]
    simp only [Nat.add_zero] at hh
    unfold RegisterSubscriber
    rw [hh, createListener_found S c.Method method hmeth w, hcall]
    simp only [dispatchLoopE]
    split_ifs <;> rfl

/-- C12 (witness): `TestSubscriber_Registration`.  The descriptor
`"user.created": OnUserCreated@100, "user.updated": OnUserUpdated@90` gives one entry at
priority 100 on "user.created" and one at priority 90 on "user.updated"; dispatching
"user.created" invokes the first one, which runs `OnUserCreated`. -/
theorem C12_register_subscriber_witness :
    (testSubscriber.GetSubscribedEvents.map Prod.fst).Nodup ∧
    (RegisterSubscriber freshRuntime testSubscriber).dispatcher.entries "user.created"
      = [⟨Listener.func 0, 100⟩] ∧
    (RegisterSubscriber freshRuntime testSubscriber).dispatcher.entries "user.updated"
      = [⟨Listener.func 1, 90⟩] ∧
    (RegisterSubscriber freshRuntime testSubscriber).dispatcher.entries "order.created"
      = freshRuntime.dispatcher.entries "order.created" ∧
    (match EventDispatcher.DispatchE (RegisterSubscriber freshRuntime testSubscriber).handlers
        { dispatcher := (RegisterSubscriber freshRuntime testSubscriber).dispatcher,
          event := NewEvent "user.created" [], user := [] } with
      | .ok r => (r.1.user, r.2)
      | .error _ => ([], []))
      = (["user.created"], [⟨Listener.func 0, 100⟩]) :=
  ⟨by decide, by decide, by decide,
    (C12_register_subscriber freshRuntime testSubscriber (by decide)).2 "order.created"
      (by decide),
    by rfl⟩

/-! ## C13: a descriptor naming a missing method -/

/-- C13 (counterexample): for a descriptor naming the missing method `OnMissing`,
`RegisterSubscriber` returns with the entry registered, and the failure comes when an event
of that name is dispatched. -/
theorem C13_registration_does_not_fail :
    (RegisterSubscriber freshRuntime brokenSubscriber).dispatcher.entries "user.created"
      = [⟨Listener.func 0, 100⟩] ∧
    EventDispatcher.DispatchE (RegisterSubscriber freshRuntime brokenSubscriber).handlers
        { dispatcher := (RegisterSubscriber freshRuntime brokenSubscriber).dispatcher,
          event := NewEvent "user.created" [], user := [] }
      = .error "Method OnMissing does not exist on subscriber *event_test.BrokenSubscriber" := by
  exact ⟨by decide, by rfl⟩

/-- C13 (amended): a config naming a method the subscriber does not have is not detected by
`RegisterSubscriber`: it registers an entry for it like for any other config; the listener
of that entry panics on every invocation with a message naming the method and the type of
the subscriber, so the error surfaces when a `Dispatch` of an event of that name reaches the
entry (the listeners before it returned and did not stop propagation). -/
theorem C13_missing_method_deferred {σ : Type} (rt : Runtime σ) (S : Subscriber σ)
    (name : String) (configs : List SubscriberConfig) (i : Nat) (c : SubscriberConfig)
    (hnodup : (S.GetSubscribedEvents.map Prod.fst).Nodup)
    (hmem : (name, configs) ∈ S.GetSubscribedEvents) (hc : configs[i]? = some c)
    (hmiss : S.methods c.Method = none) :
    ∃ n,
      (ListenerPriority.mk (Listener.func (n + i)) c.Priority) ∈
        (RegisterSubscriber rt S).dispatcher.entries name ∧
      (∀ w : World σ, (RegisterSubscriber rt S).handlers (Listener.func (n + i)) w
        = .error ("Method " ++ c.Method ++ " does not exist on subscriber " ++ S.typeName)) ∧
      (∀ (w w1 : World σ) (pre post tr : EventListeners),
        w.dispatcher.listeners w.event.Name
          = some (pre ++ { Listener := Listener.func (n + i), Priority := c.Priority } :: post) →
        dispatchLoopE (RegisterSubscriber rt S).handlers pre w = .ok (w1, tr) →
        (pre = [] ∨ w1.event.IsPropagationStopped = false) →
        EventDispatcher.DispatchE (RegisterSubscriber rt S).handlers w
          = .error ("Method " ++ c.Method ++ " does not exist on subscriber " ++ S.typeName)) := by
  obtain ⟨_, h2, _, _⟩ := registerEvents_spec S S.GetSubscribedEvents rt hnodup
  obtain ⟨n, _, _, n3, n4⟩ := h2 name configs hmem
  have hh : ∀ w : World σ, (RegisterSubscriber rt S).handlers (Listener.func (n + i)) w
      = .error ("Method " ++ c.Method ++ " does not exist on subscriber " ++ S.typeName) := by
    intro w
    unfold RegisterSubscriber
    rw [n4 i c hc]
    exact createListener_missing S c.Method hmiss w
  refine ⟨n, ?_, hh, ?_⟩
  · exact n3.mem_iff.mpr (List.mem_append_right _ (mem_closureEntries configs n i c hc))
  · intro w w1 pre post tr hreg hpre hst
    unfold EventDispatcher.DispatchE
    rw [hreg]
    simp only []
    rw [dispatchLoopE_append _ pre _ w w1 tr hpre hst, dispatchLoopE_cons, hh w1]

/-- C13 (witness): the broken subscriber on a fresh runtime. -/
theorem C13_missing_method_deferred_witness :
    (brokenSubscriber.GetSubscribedEvents.map Prod.fst).Nodup ∧
    brokenSubscriber.methods "OnMissing" = none ∧
    ∃ n,
      (ListenerPriority.mk (Listener.func (n + 0)) 100) ∈
        (RegisterSubscriber freshRuntime brokenSubscriber).dispatcher.entries "user.created" ∧
      (∀ w : World (List String),
        (RegisterSubscriber freshRuntime brokenSubscriber).handlers (Listener.func (n + 0)) w
          = .error "Method OnMissing does not exist on subscriber *event_test.BrokenSubscriber") :=
  have h := C13_missing_method_deferred freshRuntime brokenSubscriber "user.created"
    [{ Method := "OnMissing", Priority := 100 }] 0 { Method := "OnMissing", Priority := 100 }
    (by decide) (by decide) (by rfl) (by rfl)
  ⟨by decide, by rfl, h.choose, h.choose_spec.1, h.choose_spec.2.1⟩

/-! ## C14: the result of the adapted listener -/

/-- C14: when the method named by the closure exists and its call returns, the adapted
listener returns the first result if it is a boolean, and true if there is no result or the
first result is not a boolean; the world is the one the method left. -/
theorem C14_adapted_result {σ : Type} (S : Subscriber σ) (m : String)
    (method : World σ → Except String (World σ × List ReflectValue)) (w w1 : World σ)
    (results : List ReflectValue) (hm : S.methods m = some method)
    (hcall : method w = .ok (w1, results)) :
    (∀ (b : Bool) (rest : List ReflectValue), results = ReflectValue.bool b :: rest →
      createListenerFromSubscriber S m w = .ok (w1, b)) ∧
    (results = [] → createListenerFromSubscriber S m w = .ok (w1, true)) ∧
    (∀ rest : List ReflectValue, results = ReflectValue.other :: rest →
      createListenerFromSubscriber S m w = .ok (w1, true)) := by
  have h := createListener_found S m method hm w
  rw [hcall] at h
  simp only [] at h
  refine ⟨?_, ?_, ?_⟩
  · intro b rest hr
    rw [h, hr]; rfl
  · intro hr
    rw [h, hr]; rfl
  · intro rest hr
    rw [h, hr]; rfl

/-- C14 (witness): a method returning `false` gives `false`; a method without result and a
method returning a value that is not a boolean give `true`. -/
theorem C14_adapted_result_witness :
    createListenerFromSubscriber resultSubscriber "ReturnsFalse"
        { dispatcher := NewDispatcher, event := NewEvent "e" [], user := () }
      = .ok ({ dispatcher := NewDispatcher, event := NewEvent "e" [], user := () }, false) ∧
    (match createListenerFromSubscriber resultSubscriber "ReturnsNothing"
        { dispatcher := NewDispatcher, event := NewEvent "e" [], user := () } with
      | .ok r => r.2
      | .error _ => false) = true ∧
    (match createListenerFromSubscriber resultSubscriber "ReturnsError"
        { dispatcher := NewDispatcher, event := NewEvent "e" [], user := () } with
      | .ok r => r.2
      | .error _ => false) = true :=
  ⟨(C14_adapted_result resultSubscriber "ReturnsFalse"
      (fun w => .ok (w, [ReflectValue.bool false]))
      { dispatcher := NewDispatcher, event := NewEvent "e" [], user := () }
      { dispatcher := NewDispatcher, event := NewEvent "e" [], user := () }
      [ReflectValue.bool false] (by rfl) rfl).1 false [] rfl,
    by rfl, by rfl⟩

/-! ## C15: registering a handler for a method -/

/-- C15: `RegisterListener(d, S, m, h)` adds the listener `ListenerFunc(h)` under every event
name of the descriptor once per config of that name whose method is `m`, at the config's
priority, and nothing for the other configs: the entries of the name become the old ones
plus one entry per matching config, their number grows by the number of matching configs,
and other event names are unchanged.  A target that is not a subscriber changes nothing. -/
theorem C15_register_listener {σ : Type} (d : EventDispatcher) (S : Subscriber σ)
    (m : String) (h : Nat) (hnodup : (S.GetSubscribedEvents.map Prod.fst).Nodup) :
    (∀ name configs, (name, configs) ∈ S.GetSubscribedEvents →
      ((RegisterListener d (some S) m h).entries name).Perm
        (d.entries name ++
          (configs.filter (fun c => decide (c.Method = m))).map
            (fun c => { Listener := Listener.func h, Priority := c.Priority })) ∧
      ((RegisterListener d (some S) m h).entries name).length
        = (d.entries name).length + (configs.filter (fun c => decide (c.Method = m))).length) ∧
    (∀ k, k ∉ S.GetSubscribedEvents.map Prod.fst →
      (RegisterListener d (some S) m h).entries k = d.entries k) ∧
    RegisterListener d (none : Option (Subscriber σ)) m h = d := by
  obtain ⟨h1, h2⟩ := registerListenerEvents_spec m (Listener.func h) S.GetSubscribedEvents d hnodup
  refine ⟨?_, h2, rfl⟩
  intro name configs hmem
  have hp := h1 name configs hmem
  refine ⟨hp, ?_⟩
  have := hp.length_eq
  simpa using this

/-- C15 (witness): with the descriptor of `TestSubscriber`, registering the handler at
address 7 for `OnUserCreated` adds one entry at priority 100 on "user.created" and none on
"user.updated". -/
theorem C15_register_listener_witness :
    (testSubscriber.GetSubscribedEvents.map Prod.fst).Nodup ∧
    (RegisterListener NewDispatcher (some testSubscriber) "OnUserCreated" 7).entries
      "user.created" = [⟨Listener.func 7, 100⟩] ∧
    (RegisterListener NewDispatcher (some testSubscriber) "OnUserCreated" 7).entries
      "user.updated" = [] ∧
    (RegisterListener NewDispatcher (some testSubscriber) "OnUserCreated" 7).entries
      "order.created" = NewDispatcher.entries "order.created" :=
  ⟨by decide, by decide, by decide,
    (C15_register_listener NewDispatcher testSubscriber "OnUserCreated" 7 (by decide)).2.1
      "order.created" (by decide)⟩

/-! ## Slices in memory: agreement with the sequential definitions

On a well-formed memory, `Memory.AddListener` and `Memory.RemoveListener` compute the
registry that `EventDispatcher.AddListener` and `EventDispatcher.RemoveListener` compute on
lists, and a copy made in the memory that was read gives the stored sequence.  A copy made
after an `AddListener` call of another goroutine gives the new sequence cut to the old length
when `append` wrote into the same array, and the old sequence when it allocated a new one. -/

theorem filterMap_id_map_some (l : EventListeners) : (l.map some).filterMap id = l := by
  induction l with
  | nil => rfl
  | cons x xs ih => simp [ih]

theorem Memory.view_of_take (m : Memory) (s : SliceHeader) (v : EventListeners)
    (h : (m.arrays s.ptr).take s.len = v.map some) : m.view s = v := by
  unfold Memory.view
  rw [h, filterMap_id_map_some]

theorem Memory.WF.view_length {m : Memory} (hwf : m.WF) {k : String} {s : SliceHeader}
    (h : m.listeners k = some s) : (m.view s).length = s.len := by
  have h1 := congrArg List.length (hwf.full k s h)
  have h2 := hwf.size k s h
  have h3 := hwf.len_le k s h
  simp only [List.length_take, List.length_map] at h1
  omega

theorem Memory.install (m M : Memory) (hwf : m.WF) (e : String) (h : SliceHeader)
    (v : EventListeners)
    (hl : ∀ k, M.listeners k = if k = e then some h else m.listeners k)
    (ha : ∀ k s, k ≠ e → m.listeners k = some s →
      M.arrays s.ptr = m.arrays s.ptr ∧ s.ptr ≠ h.ptr)
    (hn : m.next ≤ M.next) (hb : h.ptr < M.next)
    (hsize : (M.arrays h.ptr).length = h.cap) (hle : h.len ≤ h.cap)
    (hfull : (M.arrays h.ptr).take h.len = v.map some) :
    M.WF ∧ ∀ k, M.toDispatcher.listeners k
      = if k = e then some v else m.toDispatcher.listeners k := by
  have hv : M.view h = v := Memory.view_of_take M h v hfull
  have hother : ∀ k s, k ≠ e → m.listeners k = some s → M.view s = m.view s := by
    intro k s hk hs
    unfold Memory.view
    rw [(ha k s hk hs).1]
  refine ⟨⟨?_, ?_, ?_, ?_, ?_⟩, ?_⟩
  · intro k s hs
    rw [hl k] at hs
    by_cases hk : k = e
    · simp only [hk, if_true, Option.some.injEq] at hs
      subst hs
      exact hb
    · simp only [hk, if_false] at hs
      have := hwf.bound k s hs
      omega
  · intro k k1 s s1 hs hs1 hp
    rw [hl k] at hs
    rw [hl k1] at hs1
    by_cases hk : k = e
    · by_cases hk1 : k1 = e
      · rw [hk, hk1]
      · simp only [hk, if_true, Option.some.injEq] at hs
        simp only [hk1, if_false] at hs1
        subst hs
        exact absurd hp.symm (ha k1 s1 hk1 hs1).2
    · by_cases hk1 : k1 = e
      · simp only [hk1, if_true, Option.some.injEq] at hs1
        simp only [hk, if_false] at hs
        subst hs1
        exact absurd hp (ha k s hk hs).2
      · simp only [hk, if_false] at hs
        simp only [hk1, if_false] at hs1
        exact hwf.sep k k1 s s1 hs hs1 hp
  · intro k s hs
    rw [hl k] at hs
    by_cases hk : k = e
    · simp only [hk, if_true, Option.some.injEq] at hs
      subst hs
      exact hsize
    · simp only [hk, if_false] at hs
      rw [(ha k s hk hs).1]
      exact hwf.size k s hs
  · intro k s hs
    rw [hl k] at hs
    by_cases hk : k = e
    · simp only [hk, if_true, Option.some.injEq] at hs
      subst hs
      exact hle
    · simp only [hk, if_false] at hs
      exact hwf.len_le k s hs
  · intro k s hs
    rw [hl k] at hs
    by_cases hk : k = e
    · simp only [hk, if_true, Option.some.injEq] at hs
      subst hs
      rw [hv]
      exact hfull
    · simp only [hk, if_false] at hs
      rw [hother k s hk hs, (ha k s hk hs).1]
      exact hwf.full k s hs
  · intro k
    unfold Memory.toDispatcher
    simp only []
    rw [hl k]
    by_cases hk : k = e
    · simp only [hk, if_true, hv]
    · simp only [hk, if_false]
      cases hs : m.listeners k with
      | none => rfl
      | some s => simp only [hother k s hk hs]


theorem Memory.append_spec (grow : Nat → Nat) (m : Memory) (s : SliceHeader)
    (x : ListenerPriority) (v : EventListeners)
    (hsize : (m.arrays s.ptr).length = s.cap) (hle : s.len ≤ s.cap) (hb : s.ptr < m.next)
    (hfull : (m.arrays s.ptr).take s.len = v.map some) :
    (m.append grow s x).1.listeners = m.listeners ∧
    m.next ≤ (m.append grow s x).1.next ∧
    (m.append grow s x).2.ptr < (m.append grow s x).1.next ∧
    (m.append grow s x).2.len = s.len + 1 ∧
    (m.append grow s x).2.len ≤ (m.append grow s x).2.cap ∧
    ((m.append grow s x).1.arrays (m.append grow s x).2.ptr).length
      = (m.append grow s x).2.cap ∧
    ((m.append grow s x).1.arrays (m.append grow s x).2.ptr).take (m.append grow s x).2.len
      = (v ++ [x]).map some ∧
    (∀ a, a < m.next → a ≠ s.ptr →
      (m.append grow s x).1.arrays a = m.arrays a ∧ a ≠ (m.append grow s x).2.ptr) := by
  have hvlen : v.length = s.len := by
    have h1 := congrArg List.length hfull
    simp only [List.length_take, List.length_map] at h1
    omega
  unfold Memory.append
  by_cases hc : s.len < s.cap
  · rw [if_pos hc]
    refine ⟨rfl, le_refl _, hb, rfl, Nat.succ_le_of_lt hc, ?_, ?_, ?_⟩
    · simp only [if_true, List.length_set]
      exact hsize
    · have hlt : s.len < (m.arrays s.ptr).length := by omega
      have hset : ((m.arrays s.ptr).take s.len).set s.len (some x)
          = (m.arrays s.ptr).take s.len :=
        List.set_eq_of_length_le (by simp only [List.length_take]; omega)
      simp only [if_true]
      rw [List.take_succ, List.set_take, hset, hfull, List.getElem?_set_self hlt]
      simp only [Option.toList, List.map_append, List.map_cons, List.map_nil]
    · intro a _ hne
      exact ⟨by simp only [hne, if_false], hne⟩
  · rw [if_neg hc]
    refine ⟨rfl, Nat.le_succ _, Nat.lt_succ_self _, rfl, le_max_right _ _, ?_, ?_, ?_⟩
    · simp only [if_true, List.length_append, List.length_take, List.length_cons, List.length_replicate]
      omega
    · have htl : ((m.arrays s.ptr).take s.len).length = s.len := by
        simp only [List.length_take]; omega
      simp only [if_true]
      rw [List.take_append_eq_append_take, htl]
      simp only [List.take_take, hfull]
      have : s.len + 1 - s.len = 1 := by omega
      simp [this, hvlen]
    · intro a ha hne
      have : a ≠ m.next := by omega
      exact ⟨by simp only [this, if_false], this⟩


theorem Memory.sorted_cells (M : Memory) (h : SliceHeader) (v : EventListeners)
    (cells : List (Option ListenerPriority))
    (hcells : M.arrays h.ptr = (sort_Sort v).map some ++ cells.drop h.len)
    (hlen : v.length = h.len) (hcap : cells.length = h.cap) (hle : h.len ≤ h.cap) :
    (M.arrays h.ptr).length = h.cap ∧
      (M.arrays h.ptr).take h.len = (sort_Sort v).map some := by
  have hsl : (sort_Sort v).length = h.len := by
    rw [(sort_Sort_spec v).1.length_eq, hlen]
  rw [hcells]
  refine ⟨?_, ?_⟩
  · simp only [List.length_append, List.length_map, List.length_drop]
    omega
  · exact List.take_left' (by simp only [List.length_map, hsl])

theorem Memory.AddListener_some (grow : Nat → Nat) (m : Memory) (e : String) (L : Listener)
    (pv : Int) (s : SliceHeader) (hs : m.listeners e = some s) :
    m.AddListener grow e L [pv] =
      { arrays := fun a =>
          if a = (m.append grow s (ListenerPriority.mk L pv)).2.ptr then
            (sort_Sort ((m.append grow s (ListenerPriority.mk L pv)).1.view
              (m.append grow s (ListenerPriority.mk L pv)).2)).map some
              ++ ((m.append grow s (ListenerPriority.mk L pv)).1.arrays
                    (m.append grow s (ListenerPriority.mk L pv)).2.ptr).drop
                  (m.append grow s (ListenerPriority.mk L pv)).2.len
          else (m.append grow s (ListenerPriority.mk L pv)).1.arrays a,
        next := (m.append grow s (ListenerPriority.mk L pv)).1.next,
        listeners := fun k =>
          if k = e then some (m.append grow s (ListenerPriority.mk L pv)).2
          else (m.append grow s (ListenerPriority.mk L pv)).1.listeners k } := by
  unfold Memory.AddListener
  simp only [hs]

theorem Memory.AddListener_refines_one (grow : Nat → Nat) (m : Memory) (hwf : m.WF)
    (e : String) (L : Listener) (pv : Int) :
    (m.AddListener grow e L [pv]).WF ∧
      ∀ k, (m.AddListener grow e L [pv]).toDispatcher.listeners k
        = (m.toDispatcher.AddListener e L [pv]).listeners k := by
  cases hs : m.listeners e with
  | some s =>
    obtain ⟨a1, a2, a3, a4, a5, a6, a7, a8⟩ :=
      Memory.append_spec grow m s (ListenerPriority.mk L pv) (m.view s) (hwf.size e s hs) (hwf.len_le e s hs)
        (hwf.bound e s hs) (hwf.full e s hs)
    have hview := Memory.view_of_take _ _ _ a7
    have hM := Memory.AddListener_some grow m e L pv s hs
    have hvl : (m.view s ++ [(ListenerPriority.mk L pv)]).length = (m.append grow s (ListenerPriority.mk L pv)).2.len := by
      rw [a4, List.length_append, hwf.view_length hs]
      rfl
    have hcells := Memory.sorted_cells (m.AddListener grow e L [pv])
      (m.append grow s (ListenerPriority.mk L pv)).2 (m.view s ++ [(ListenerPriority.mk L pv)])
      ((m.append grow s (ListenerPriority.mk L pv)).1.arrays (m.append grow s (ListenerPriority.mk L pv)).2.ptr)
      (by rw [hM]; simp only [if_true, hview]) hvl a6 a5
    obtain ⟨w1, w2⟩ := Memory.install m (m.AddListener grow e L [pv]) hwf e
      (m.append grow s (ListenerPriority.mk L pv)).2 (sort_Sort (m.view s ++ [(ListenerPriority.mk L pv)]))
      (by intro k; rw [hM]; simp only [a1])
      (by
        intro k s1 hk hs1
        have hb1 := hwf.bound k s1 hs1
        have hne : s1.ptr ≠ s.ptr := fun h => hk (hwf.sep k e s1 s hs1 hs h)
        obtain ⟨b1, b2⟩ := a8 s1.ptr hb1 hne
        refine ⟨?_, b2⟩
        rw [hM]
        simp only [b2, if_false]
        exact b1)
      (by rw [hM]; exact a2) (by rw [hM]; exact a3) hcells.1 a5 hcells.2
    refine ⟨w1, ?_⟩
    intro k
    rw [w2 k]
    unfold EventDispatcher.AddListener Memory.toDispatcher
    simp only [hs]
  | none =>
    obtain ⟨s0, hs0⟩ : ∃ s0 : SliceHeader, s0 = { ptr := m.next, len := 0, cap := 0 } :=
      ⟨_, rfl⟩
    obtain ⟨m1, hm1⟩ : ∃ m1 : Memory, m1 =
        { arrays := fun a => if a = m.next then [] else m.arrays a,
          next := m.next + 1,
          listeners := fun k => if k = e then some s0 else m.listeners k } := ⟨_, rfl⟩
    have h1a : m1.arrays s0.ptr = [] := by rw [hm1, hs0]; simp only [if_true]
    have h1o : ∀ a, a ≠ m.next → m1.arrays a = m.arrays a := by
      intro a ha; rw [hm1]; simp only [ha, if_false]
    have h1n : m1.next = m.next + 1 := by rw [hm1]
    have h1l : ∀ k, m1.listeners k = if k = e then some s0 else m.listeners k := by
      intro k; rw [hm1]
    have hp0 : s0.ptr = m.next := by rw [hs0]
    have hl0 : s0.len = 0 := by rw [hs0]
    have hc0 : s0.cap = 0 := by rw [hs0]
    obtain ⟨a1, a2, a3, a4, a5, a6, a7, a8⟩ :=
      Memory.append_spec grow m1 s0 (ListenerPriority.mk L pv) []
        (by rw [h1a, hc0]; rfl) (by rw [hl0, hc0]) (by rw [hp0, h1n]; exact Nat.lt_succ_self _)
        (by rw [hl0]; rfl)
    have hview := Memory.view_of_take _ _ _ a7
    have hM : m.AddListener grow e L [pv] =
        { arrays := fun a =>
            if a = (m1.append grow s0 (ListenerPriority.mk L pv)).2.ptr then
              (sort_Sort ((m1.append grow s0 (ListenerPriority.mk L pv)).1.view
                (m1.append grow s0 (ListenerPriority.mk L pv)).2)).map some
                ++ ((m1.append grow s0 (ListenerPriority.mk L pv)).1.arrays
                      (m1.append grow s0 (ListenerPriority.mk L pv)).2.ptr).drop
                    (m1.append grow s0 (ListenerPriority.mk L pv)).2.len
            else (m1.append grow s0 (ListenerPriority.mk L pv)).1.arrays a,
          next := (m1.append grow s0 (ListenerPriority.mk L pv)).1.next,
          listeners := fun k =>
            if k = e then some (m1.append grow s0 (ListenerPriority.mk L pv)).2
            else (m1.append grow s0 (ListenerPriority.mk L pv)).1.listeners k } := by
      subst hm1
      subst hs0
      unfold Memory.AddListener
      simp only [hs]
    have hvl : (([] : EventListeners) ++ [ListenerPriority.mk L pv]).length
        = (m1.append grow s0 (ListenerPriority.mk L pv)).2.len := by
      rw [a4, hl0]
      rfl
    have hcells := Memory.sorted_cells (m.AddListener grow e L [pv])
      (m1.append grow s0 (ListenerPriority.mk L pv)).2 ([] ++ [ListenerPriority.mk L pv])
      ((m1.append grow s0 (ListenerPriority.mk L pv)).1.arrays
        (m1.append grow s0 (ListenerPriority.mk L pv)).2.ptr)
      (by rw [hM]; simp only [if_true, hview]) hvl a6 a5
    obtain ⟨w1, w2⟩ := Memory.install m (m.AddListener grow e L [pv]) hwf e
      (m1.append grow s0 (ListenerPriority.mk L pv)).2
      (sort_Sort ([] ++ [ListenerPriority.mk L pv]))
      (by
        intro k
        rw [hM]
        simp only [a1, h1l]
        split_ifs <;> rfl)
      (by
        intro k s1 hk hs1
        have hb1 := hwf.bound k s1 hs1
        have hne : s1.ptr ≠ s0.ptr := by rw [hp0]; omega
        obtain ⟨b1, b2⟩ := a8 s1.ptr (by rw [h1n]; omega) hne
        refine ⟨?_, b2⟩
        rw [hM]
        simp only [b2, if_false]
        rw [b1]
        exact h1o _ (by omega))
      (by rw [hM]; simp only []; omega) (by rw [hM]; exact a3) hcells.1 a5 hcells.2
    refine ⟨w1, ?_⟩
    intro k
    rw [w2 k]
    unfold EventDispatcher.AddListener Memory.toDispatcher
    simp only [hs]

theorem Memory.AddListener_refines (grow : Nat → Nat) (m : Memory) (hwf : m.WF)
    (e : String) (L : Listener) (p : List Int) :
    (m.AddListener grow e L p).WF ∧
      ∀ k, (m.AddListener grow e L p).toDispatcher.listeners k
        = (m.toDispatcher.AddListener e L p).listeners k := by
  cases p with
  | nil => exact Memory.AddListener_refines_one grow m hwf e L 0
  | cons pv t => exact Memory.AddListener_refines_one grow m hwf e L pv

theorem Memory.RemoveListener_refines (m : Memory) (hwf : m.WF) (e : String) (L : Listener) :
    (memoryAfter m (m.RemoveListener e L)).WF ∧
      (∀ k, (memoryAfter m (m.RemoveListener e L)).toDispatcher.listeners k
        = (stateAfter m.toDispatcher (m.toDispatcher.RemoveListener e L)).listeners k) ∧
      (∀ msg, m.RemoveListener e L = .error msg ↔
        m.toDispatcher.RemoveListener e L = .error msg) := by
  cases hs : m.listeners e with
  | none =>
    have h1 : m.RemoveListener e L = .ok m := by
      unfold Memory.RemoveListener; simp only [hs]
    have h2 : m.toDispatcher.RemoveListener e L = .ok m.toDispatcher := by
      unfold EventDispatcher.RemoveListener Memory.toDispatcher; simp only [hs]
    rw [h1, h2]
    exact ⟨hwf, fun _ => rfl, fun msg => by simp⟩
  | some s =>
    have hd : m.toDispatcher.listeners e = some (m.view s) := by
      unfold Memory.toDispatcher; simp only [hs]
    cases hr : removeListenerLoop L [] (m.view s) with
    | error msg0 =>
      have h1 : m.RemoveListener e L = .error msg0 := by
        unfold Memory.RemoveListener; simp only [hs, hr]
      have h2 : m.toDispatcher.RemoveListener e L = .error msg0 := by
        unfold EventDispatcher.RemoveListener; simp only [hd, hr]
      rw [h1, h2]
      exact ⟨hwf, fun _ => rfl, fun msg => by simp⟩
    | ok nl =>
      have h1 : m.RemoveListener e L = .ok
          { arrays := fun a =>
              if a = m.next then nl.map some ++ List.replicate (s.len - nl.length) none
              else m.arrays a,
            next := m.next + 1,
            listeners := fun k =>
              if k = e then some { ptr := m.next, len := nl.length, cap := s.len }
              else m.listeners k } := by
        unfold Memory.RemoveListener; simp only [hs, hr]
      have h2 : m.toDispatcher.RemoveListener e L = .ok
          { listeners := fun k => if k = e then some nl else m.toDispatcher.listeners k } := by
        unfold EventDispatcher.RemoveListener; simp only [hd, hr]
      have hnl : nl.length ≤ s.len := by
        have := removeListenerLoop_ok L _ _ _ hr
        rw [this, List.nil_append, ← hwf.view_length hs]
        exact List.length_filter_le _ _
      rw [h1, h2]
      simp only [memoryAfter, stateAfter]
      obtain ⟨w1, w2⟩ := Memory.install m
        { arrays := fun a =>
            if a = m.next then nl.map some ++ List.replicate (s.len - nl.length) none
            else m.arrays a,
          next := m.next + 1,
          listeners := fun k =>
            if k = e then some { ptr := m.next, len := nl.length, cap := s.len }
            else m.listeners k }
        hwf e { ptr := m.next, len := nl.length, cap := s.len } nl
        (fun k => rfl)
        (by
          intro k s1 hk hs1
          have hb1 := hwf.bound k s1 hs1
          have hne : s1.ptr ≠ m.next := by omega
          exact ⟨by simp only [hne, if_false], hne⟩)
        (Nat.le_succ _) (Nat.lt_succ_self _)
        (by
          simp only [if_true, List.length_append, List.length_map, List.length_replicate]
          omega)
        hnl
        (by
          simp only [if_true]
          exact List.take_left' (by simp only [List.length_map]))
      exact ⟨w1, w2, fun msg => by simp⟩

theorem NewMemory_WF : NewMemory.WF := by
  refine ⟨?_, ?_, ?_, ?_, ?_⟩ <;> intro k <;> intros <;> simp [NewMemory] at *


theorem dispatchCopy_sequential (m : Memory) (event : BaseEvent) :
    Option.map m.dispatchCopy (m.dispatchRead event) = m.toDispatcher.listeners event.Name := by
  unfold Memory.dispatchRead Memory.dispatchCopy Memory.toDispatcher
  simp only []
  cases hs : m.listeners event.Name <;> rfl

theorem copyAfterAddListener_in_place (grow : Nat → Nat) (m : Memory) (hwf : m.WF)
    (event : BaseEvent) (L : Listener) (pv : Int) (s : SliceHeader)
    (hs : m.listeners event.Name = some s) (hc : s.len < s.cap) :
    copyAfterAddListener grow m event event.Name L [pv]
      = some ((sort_Sort (m.view s ++ [ListenerPriority.mk L pv])).take s.len) := by
  obtain ⟨_, _, _, a4, _, _, a7, _⟩ :=
    Memory.append_spec grow m s (ListenerPriority.mk L pv) (m.view s)
      (hwf.size _ s hs) (hwf.len_le _ s hs) (hwf.bound _ s hs) (hwf.full _ s hs)
  have hview := Memory.view_of_take _ _ _ a7
  have hptr : (m.append grow s (ListenerPriority.mk L pv)).2.ptr = s.ptr := by
    unfold Memory.append
    rw [if_pos hc]
  have hsl : (sort_Sort (m.view s ++ [ListenerPriority.mk L pv])).length = s.len + 1 := by
    rw [(sort_Sort_spec _).1.length_eq, List.length_append, hwf.view_length hs]
    rfl
  unfold copyAfterAddListener Memory.dispatchRead Memory.dispatchCopy
  rw [hs]
  simp only [Option.some.injEq]
  unfold Memory.view
  rw [Memory.AddListener_some grow m event.Name L pv s hs]
  simp only [hptr, if_true]
  rw [hview, List.take_append_of_le_length (by simp only [List.length_map, hsl]; omega),
    ← List.map_take, filterMap_id_map_some]
  rfl

theorem copyAfterAddListener_new_array (grow : Nat → Nat) (m : Memory) (hwf : m.WF)
    (event : BaseEvent) (L : Listener) (pv : Int) (s : SliceHeader)
    (hs : m.listeners event.Name = some s) (hc : ¬ s.len < s.cap) :
    copyAfterAddListener grow m event event.Name L [pv] = some (m.view s) := by
  have hb := hwf.bound _ s hs
  have hptr : (m.append grow s (ListenerPriority.mk L pv)).2.ptr = m.next := by
    unfold Memory.append
    rw [if_neg hc]
  have harr : (m.append grow s (ListenerPriority.mk L pv)).1.arrays s.ptr = m.arrays s.ptr := by
    unfold Memory.append
    rw [if_neg hc]
    have : s.ptr ≠ m.next := by omega
    simp only [this, if_false]
  unfold copyAfterAddListener Memory.dispatchRead Memory.dispatchCopy
  rw [hs]
  simp only [Option.some.injEq]
  unfold Memory.view
  rw [Memory.AddListener_some grow m event.Name L pv s hs]
  have hne : s.ptr ≠ m.next := by omega
  simp only [hptr, hne, if_false, harr]

/-! ## C21: the copy made by `Dispatch` and the read lock -/

/-- C21: `Dispatch` calls `d.mu.RUnlock()` before `make` and `copy`, so the copy is made
without the lock.  Input: the registry of "e" is `[ptr 1 @10, ptr 2 @5]` in an array of
capacity 3 (after `RemoveListener("e", ptr 3)`); goroutine 1 runs the locked region of
`Dispatch(NewEvent("e"))`, goroutine 2 then runs `AddListener("e", ptr 4, 100)` from lock to
unlock, goroutine 1 then copies.  The registry is `[ptr 1, ptr 2]` before and
`[ptr 4, ptr 1, ptr 2]` after the call of goroutine 2, but the copy is `[ptr 4, ptr 1]`, and
the loop of `Dispatch` invokes `ptr 4` and `ptr 1` and never `ptr 2`. -/
theorem C21_copy_is_made_after_unlock :
    raceMemory.dispatchRead (NewEvent "e" []) = some { ptr := 4, len := 2, cap := 3 } ∧
    raceMemory.toDispatcher.entries "e" = [⟨ptr 1, 10⟩, ⟨ptr 2, 5⟩] ∧
    (raceMemory.AddListener doubling "e" (ptr 4) [100]).toDispatcher.entries "e"
      = [⟨ptr 4, 100⟩, ⟨ptr 1, 10⟩, ⟨ptr 2, 5⟩] ∧
    copyAfterAddListener doubling raceMemory (NewEvent "e" []) "e" (ptr 4) [100]
      = some [⟨ptr 4, 100⟩, ⟨ptr 1, 10⟩] ∧
    (dispatchLoop quietHandlers [⟨ptr 4, 100⟩, ⟨ptr 1, 10⟩]
      { dispatcher := (raceMemory.AddListener doubling "e" (ptr 4) [100]).toDispatcher,
        event := NewEvent "e" [], user := () }).2 = [⟨ptr 4, 100⟩, ⟨ptr 1, 10⟩] :=
  ⟨by decide, by decide, by decide, by decide, by decide⟩

/-! ## C22: dispatching an event that is already stopped -/

/-- C22 (counterexample): the dispatcher of `TestDispatcher_DispatchStopPropagation` holds
`[listener1@100, stopListener@100, listener2@90]` and the event is already stopped when
`Dispatch` is called.  The first listener overwrites the event value with a new event of the
same name and arguments, which clears the flag; the loop then finds the event not stopped
and invokes all three listeners. -/
theorem C22_first_listener_clears_flag :
    (NewEvent "user.created" []).StopPropagation.IsPropagationStopped = true ∧
    stopScenario.listeners (NewEvent "user.created" []).StopPropagation.Name
      = some [⟨ptr 1, 100⟩, ⟨Listener.func 0, 100⟩, ⟨ptr 2, 90⟩] ∧
    (EventDispatcher.Dispatch resettingHandlers
      { dispatcher := stopScenario, event := (NewEvent "user.created" []).StopPropagation,
        user := () }).2 = [⟨ptr 1, 100⟩, ⟨Listener.func 0, 100⟩, ⟨ptr 2, 90⟩] :=
  ⟨by decide, by decide, by rfl⟩

/-- C22 (amended): the loop of `Dispatch` calls `Handle` before it looks at the stop flag,
and never looks at the flag the event had when `Dispatch` was called.  For every event,
stopped or not, and every non-empty entry sequence `l :: rest` stored for its name, the first
entry `l` is invoked.  If the event is stopped when that call returns, `l` is the only entry
invoked and the result is the world that call left; if not, the loop goes on with `rest`.
For an event that is already stopped, a first listener that changes the event only through
the `Event` interface leaves it stopped, so exactly `[l]` is invoked. -/
theorem C22_stop_checked_after_first_listener {σ : Type} (H : Handlers σ) (w : World σ)
    (l : ListenerPriority) (rest : EventListeners)
    (hreg : w.dispatcher.listeners w.event.Name = some (l :: rest)) :
    (∃ tr, (EventDispatcher.Dispatch H w).2 = l :: tr) ∧
    ((H l.Listener w).1.event.IsPropagationStopped = true →
      (EventDispatcher.Dispatch H w).2 = [l] ∧
      (EventDispatcher.Dispatch H w).1 = (H l.Listener w).1) ∧
    ((H l.Listener w).1.event.IsPropagationStopped = false →
      (EventDispatcher.Dispatch H w).2 = l :: (dispatchLoop H rest (H l.Listener w).1).2 ∧
      (EventDispatcher.Dispatch H w).1 = (dispatchLoop H rest (H l.Listener w).1).1) ∧
    (w.event.IsPropagationStopped = true → ActsThroughEvent H l.Listener →
      (EventDispatcher.Dispatch H w).2 = [l] ∧
      (EventDispatcher.Dispatch H w).1 = (H l.Listener w).1) := by
  have hd : EventDispatcher.Dispatch H w = dispatchLoop H (l :: rest) w := by
    unfold EventDispatcher.Dispatch
    rw [hreg]
  have hstop : (H l.Listener w).1.event.IsPropagationStopped = true →
      (EventDispatcher.Dispatch H w).2 = [l] ∧
      (EventDispatcher.Dispatch H w).1 = (H l.Listener w).1 := by
    intro hs
    rw [hd]
    simp [dispatchLoop, hs]
  have hgo : (H l.Listener w).1.event.IsPropagationStopped = false →
      (EventDispatcher.Dispatch H w).2 = l :: (dispatchLoop H rest (H l.Listener w).1).2 ∧
      (EventDispatcher.Dispatch H w).1 = (dispatchLoop H rest (H l.Listener w).1).1 := by
    intro hs
    rw [hd]
    simp [dispatchLoop, hs]
  refine ⟨?_, hstop, hgo, ?_⟩
  · cases hs : (H l.Listener w).1.event.IsPropagationStopped with
    | true => exact ⟨[], (hstop hs).1⟩
    | false => exact ⟨_, (hgo hs).1⟩
  · intro hw hacts
    obtain ⟨ops, hops⟩ := hacts w
    exact hstop (applyOps_keeps_stopped ops _ _ hops hw)

/-- C22 (witness): with the dispatcher of `TestDispatcher_DispatchStopPropagation`, an
event on which `StopPropagation()` was already called and listeners that leave the world
unchanged, `Dispatch` invokes `listener1` only. -/
theorem C22_stop_checked_after_first_listener_witness :
    stopScenario.listeners (NewEvent "user.created" []).StopPropagation.Name
      = some [⟨ptr 1, 100⟩, ⟨Listener.func 0, 100⟩, ⟨ptr 2, 90⟩] ∧
    (NewEvent "user.created" []).StopPropagation.IsPropagationStopped = true ∧
    ActsThroughEvent quietHandlers (ptr 1) ∧
    (EventDispatcher.Dispatch quietHandlers
      { dispatcher := stopScenario, event := (NewEvent "user.created" []).StopPropagation,
        user := () }).2 = [⟨ptr 1, 100⟩] :=
  ⟨by decide, by decide, fun _ => ⟨[], rfl⟩,
    ((C22_stop_checked_after_first_listener quietHandlers
      { dispatcher := stopScenario, event := (NewEvent "user.created" []).StopPropagation,
        user := () }
      ⟨ptr 1, 100⟩ [⟨Listener.func 0, 100⟩, ⟨ptr 2, 90⟩] (by decide)).2.2.2
      (by decide) (fun _ => ⟨[], rfl⟩)).1⟩

/-! ## C23: registry mutations are local to one event name -/

theorem listeners_AddListener_other (d : EventDispatcher) (e e1 : String) (L : Listener)
    (p : List Int) (hne : e ≠ e1) : (d.AddListener e L p).listeners e1 = d.listeners e1 := by
  unfold EventDispatcher.AddListener
  simp only [Ne.symm hne, if_false]

theorem listeners_RemoveListener_other (d : EventDispatcher) (e e1 : String) (L : Listener)
    (hne : e ≠ e1) : (stateAfter d (d.RemoveListener e L)).listeners e1 = d.listeners e1 := by
  unfold EventDispatcher.RemoveListener
  cases hl : d.listeners e with
  | none => rfl
  | some el =>
    simp only []
    cases hr : removeListenerLoop L [] el with
    | error msg => rfl
    | ok r =>
      simp only [stateAfter, Ne.symm hne, if_false]

theorem HasListener_congr (d d1 : EventDispatcher) (k : String)
    (h : d1.listeners k = d.listeners k) (L : Listener) :
    d1.HasListener k L = d.HasListener k L := by
  unfold EventDispatcher.HasListener
  rw [h]

theorem Dispatch_congr {σ : Type} (H : Handlers σ) (d d1 : EventDispatcher) (ev : BaseEvent)
    (u : σ) (h : d1.listeners ev.Name = d.listeners ev.Name) :
    EventDispatcher.Dispatch H { dispatcher := d1, event := ev, user := u }
      = dispatchLoop H (d.entries ev.Name) { dispatcher := d1, event := ev, user := u } := by
  rw [Dispatch_eq_loop]
  unfold EventDispatcher.entries
  simp only [h]

/-- C23: for event names `e ≠ e1`, `AddListener(e, L, p)` and `RemoveListener(e, L)` (whether
it returns or panics) leave what the map stores under `e1` unchanged: the same listeners,
priorities and order, or still no key.  Hence `HasListener(e1, L1)` gives the same result
(or the same panic) for every `L1`, and `Dispatch` of an event named `e1` walks the entry
sequence that was stored before the call; with listeners that never stop propagation the
invoked entries are the same before and after. -/
theorem C23_mutation_local_to_event_name {σ : Type} (d : EventDispatcher) (e e1 : String)
    (L : Listener) (p : List Int) (hne : e ≠ e1) :
    (d.AddListener e L p).listeners e1 = d.listeners e1 ∧
    (stateAfter d (d.RemoveListener e L)).listeners e1 = d.listeners e1 ∧
    (∀ L1 : Listener,
      (d.AddListener e L p).HasListener e1 L1 = d.HasListener e1 L1 ∧
      (stateAfter d (d.RemoveListener e L)).HasListener e1 L1 = d.HasListener e1 L1) ∧
    (∀ (H : Handlers σ) (ev : BaseEvent) (u : σ), ev.Name = e1 →
      EventDispatcher.Dispatch H { dispatcher := d.AddListener e L p, event := ev, user := u }
        = dispatchLoop H (d.entries e1)
            { dispatcher := d.AddListener e L p, event := ev, user := u } ∧
      EventDispatcher.Dispatch H
          { dispatcher := stateAfter d (d.RemoveListener e L), event := ev, user := u }
        = dispatchLoop H (d.entries e1)
            { dispatcher := stateAfter d (d.RemoveListener e L), event := ev, user := u }) ∧
    (∀ (H : Handlers σ) (ev : BaseEvent) (u : σ), ev.Name = e1 → NeverStops H →
      ev.IsPropagationStopped = false →
      (EventDispatcher.Dispatch H
          { dispatcher := d.AddListener e L p, event := ev, user := u }).2
        = (EventDispatcher.Dispatch H { dispatcher := d, event := ev, user := u }).2 ∧
      (EventDispatcher.Dispatch H
          { dispatcher := stateAfter d (d.RemoveListener e L), event := ev, user := u }).2
        = (EventDispatcher.Dispatch H { dispatcher := d, event := ev, user := u }).2) := by
  have ha := listeners_AddListener_other d e e1 L p hne
  have hr := listeners_RemoveListener_other d e e1 L hne
  refine ⟨ha, hr, ?_, ?_, ?_⟩
  · intro L1
    exact ⟨HasListener_congr _ _ _ ha L1, HasListener_congr _ _ _ hr L1⟩
  · intro H ev u hev
    subst hev
    exact ⟨Dispatch_congr H _ _ ev u ha, Dispatch_congr H _ _ ev u hr⟩
  · intro H ev u hev hH hs
    subst hev
    rw [Dispatch_congr H _ _ ev u ha, Dispatch_congr H _ _ ev u hr, Dispatch_eq_loop]
    refine ⟨?_, ?_⟩
    · rw [(dispatchLoop_neverStops H hH _ _ hs).1]
      exact (dispatchLoop_neverStops H hH _ _ hs).1.symm
    · rw [(dispatchLoop_neverStops H hH _ _ hs).1]
      exact (dispatchLoop_neverStops H hH _ _ hs).1.symm

/-- C23 (witness): on the dispatcher of `MiddlewareExample`, adding a listener to
"user.created" and removing one from it leave the four entries of "order.created" as they
were, and `HasListener("order.created", ptr 3)` stays true. -/
theorem C23_mutation_local_to_event_name_witness :
    "user.created" ≠ "order.created" ∧
    middlewareDispatcher.listeners "order.created"
      = some [⟨ptr 1, 1000⟩, ⟨ptr 2, 900⟩, ⟨ptr 4, 100⟩, ⟨ptr 3, -1000⟩] ∧
    (middlewareDispatcher.AddListener "user.created" (ptr 9) [5]).listeners "order.created"
      = middlewareDispatcher.listeners "order.created" ∧
    (middlewareDispatcher.AddListener "user.created" (ptr 9) [5]).HasListener "order.created"
      (ptr 3) = .ok true :=
  ⟨by decide, by decide,
    (@C23_mutation_local_to_event_name Unit middlewareDispatcher "user.created" "order.created"
      (ptr 9) [5] (by decide)).1,
    by rfl⟩


end event
